import Mathlib

/-! # Mergin synchronisation engine (`app/merginapi.cpp`)

A shallow embedding of the client-side synchronisation engine `MerginApi`:
the three-way file differ, the chunk planner, and the per-project
transaction state machine, followed by theorems about them.

Conventions of the embedding

* `QString` / `QByteArray` values are `String`s; `qint64` and `int` values are
  `Int`s, with an explicit 32-bit wrap where the source computes in `int`.
* `QHash<QString, T>` is an association list with unique keys.  The iteration
  order of a `QHash` is unspecified; the embedding iterates in list order and
  the theorems speak about membership only.
* `ProjectDiff` holds its ten path sets as lists (the order of insertion);
  the theorems speak about membership only.
* `qreal` values are finite binary64 numbers `± mant * 2 ^ exp`; conversion and
  division round to nearest, ties to even.
* The engine is a state `MerginApi` passed through its functions: the members
  of the object, the file system, the clock and the list of signals emitted
  and requests issued.  A reply handler takes the finished reply as an
  argument.  `Q_ASSERT` checks are not part of the model (they are compiled
  out of release builds); `InputUtils::log` calls are left out.
* Declarations that the source file uses but does not contain (`merginapi.h`,
  `localprojectsmanager.h`, `merginprojectmetadata.h`, `inpututils.cpp`) are
  marked `Modelled from the spec`.
-/

namespace Mergin

/-! ## Data model -/

/-- File record `MerginFile`: path relative to the project root, checksum,
size in bytes, modification time and the chunk ids used during a transfer.
The defaults are those of a default-constructed record. -/
structure MerginFile where
  path : String := ""
  checksum : String := ""
  size : Int := 0
  mtime : Int := 0
  chunks : List String := []
deriving DecidableEq, Repr

/-- A default-constructed `MerginFile`. -/
instance : Inhabited MerginFile := ⟨{}⟩

/-- The result of the three-way comparison, `ProjectDiff`. -/
structure ProjectDiff where
  localAdded : List String := []
  localUpdated : List String := []
  localDeleted : List String := []
  remoteAdded : List String := []
  remoteUpdated : List String := []
  remoteDeleted : List String := []
  conflictRemoteUpdatedLocalUpdated : List String := []
  conflictRemoteAddedLocalAdded : List String := []
  conflictRemoteDeletedLocalUpdated : List String := []
  conflictRemoteUpdatedLocalDeleted : List String := []
deriving DecidableEq, Repr

/-- A default-constructed `ProjectDiff`. -/
instance : Inhabited ProjectDiff := ⟨{}⟩

/-- Names of the ten sets of a `ProjectDiff`, used to state properties that
range over all of them. -/
inductive Category where
  | localAdded
  | localUpdated
  | localDeleted
  | remoteAdded
  | remoteUpdated
  | remoteDeleted
  | conflictRemoteUpdatedLocalUpdated
  | conflictRemoteAddedLocalAdded
  | conflictRemoteDeletedLocalUpdated
  | conflictRemoteUpdatedLocalDeleted
deriving DecidableEq, Repr

/-- The set of a diff that a category names. -/
def ProjectDiff.get (d : ProjectDiff) : Category → List String
  | .localAdded => d.localAdded
  | .localUpdated => d.localUpdated
  | .localDeleted => d.localDeleted
  | .remoteAdded => d.remoteAdded
  | .remoteUpdated => d.remoteUpdated
  | .remoteDeleted => d.remoteDeleted
  | .conflictRemoteUpdatedLocalUpdated => d.conflictRemoteUpdatedLocalUpdated
  | .conflictRemoteAddedLocalAdded => d.conflictRemoteAddedLocalAdded
  | .conflictRemoteDeletedLocalUpdated => d.conflictRemoteDeletedLocalUpdated
  | .conflictRemoteUpdatedLocalDeleted => d.conflictRemoteUpdatedLocalDeleted

/-! ## `QHash<QString, T>` -/

/-- Association-list model of `QHash<QString, T>`. -/
structure QHash (β : Type) where
  entries : List (String × β) := []
deriving Repr

namespace QHash

variable {β : Type}

/-- The empty hash. -/
def empty : QHash β := ⟨[]⟩

/-- Model of `QHash::contains`. -/
def contains (m : QHash β) (k : String) : Bool :=
  m.entries.any (fun e => e.1 == k)

/-- Lookup of a key. -/
def find? (m : QHash β) (k : String) : Option β :=
  (m.entries.find? (fun e => e.1 == k)).map Prod.snd

/-- Model of `QHash::value`: the stored value, or a default-constructed one. -/
def value [Inhabited β] (m : QHash β) (k : String) : β :=
  (m.find? k).getD default

/-- Model of `QHash::remove`. -/
def remove (m : QHash β) (k : String) : QHash β :=
  ⟨m.entries.filter (fun e => e.1 != k)⟩

/-- Model of `QHash::insert`: an existing value for the key is replaced. -/
def insert (m : QHash β) (k : String) (v : β) : QHash β :=
  ⟨(k, v) :: (m.remove k).entries⟩

/-- The values of the hash in iteration order. -/
def values (m : QHash β) : List β :=
  m.entries.map Prod.snd

/-- The keys of the hash in iteration order. -/
def keys (m : QHash β) : List String :=
  m.entries.map Prod.fst

/-- Removal of a list of keys, one after the other. -/
def removeAll (m : QHash β) (ks : List String) : QHash β :=
  ks.foldl remove m

end QHash

/-! ## The three-way differ -/

/-- The state of `compareProjectFiles` while it walks its lists: the diff built
so far and the two maps, from which handled paths are removed. -/
structure CompareState where
  diff : ProjectDiff
  oldServerFilesMap : QHash MerginFile
  newServerFilesMap : QHash MerginFile

/-- Body of the first loop of `compareProjectFiles`
(`for ( MerginFile localFile : localFiles )`). -/
def compareLocalFile (st : CompareState) (localFile : MerginFile) : CompareState :=
  let filePath := localFile.path
  let hasOldServer := st.oldServerFilesMap.contains localFile.path
  let hasNewServer := st.newServerFilesMap.contains localFile.path
  let chkOld := (st.oldServerFilesMap.value localFile.path).checksum
  let chkNew := (st.newServerFilesMap.value localFile.path).checksum
  let chkLocal := localFile.checksum
  let diff := st.diff
  let diff :=
    if !hasOldServer && !hasNewServer then
      -- L-A
      { diff with localAdded := diff.localAdded ++ [filePath] }
    else if hasOldServer && !hasNewServer then
      if chkOld == chkLocal then
        -- R-D
        { diff with remoteDeleted := diff.remoteDeleted ++ [filePath] }
      else
        -- C/R-D/L-U
        { diff with conflictRemoteDeletedLocalUpdated :=
            diff.conflictRemoteDeletedLocalUpdated ++ [filePath] }
    else if !hasOldServer && hasNewServer then
      if chkNew != chkLocal then
        -- C/R-A/L-A
        { diff with conflictRemoteAddedLocalAdded :=
            diff.conflictRemoteAddedLocalAdded ++ [filePath] }
      else
        -- R-A/L-A
        diff
    else if hasOldServer && hasNewServer then
      if chkOld == chkNew then
        if chkNew != chkLocal then
          -- L-U
          { diff with localUpdated := diff.localUpdated ++ [filePath] }
        else
          diff
      else
        if chkNew != chkLocal && chkOld != chkLocal then
          -- C/R-U/L-U
          { diff with conflictRemoteUpdatedLocalUpdated :=
              diff.conflictRemoteUpdatedLocalUpdated ++ [filePath] }
        else if chkNew != chkLocal then
          -- R-U
          { diff with remoteUpdated := diff.remoteUpdated ++ [filePath] }
        else if chkOld != chkLocal then
          -- R-U/L-U
          diff
        else
          -- Q_ASSERT( false ): impossible
          diff
    else
      diff
  { diff := diff
    oldServerFilesMap :=
      if hasOldServer then st.oldServerFilesMap.remove filePath else st.oldServerFilesMap
    newServerFilesMap :=
      if hasNewServer then st.newServerFilesMap.remove filePath else st.newServerFilesMap }

/-- Body of the second loop of `compareProjectFiles`
(`for ( MerginFile file : newServerFilesMap )`): files listed on the server
but not available locally.  The state is the diff and `oldServerFilesMap`. -/
def compareServerFile (st : ProjectDiff × QHash MerginFile) (file : MerginFile) :
    ProjectDiff × QHash MerginFile :=
  let diff := st.1
  let oldServerFilesMap := st.2
  let hasOldServer := oldServerFilesMap.contains file.path
  let diff :=
    if hasOldServer then
      if (oldServerFilesMap.value file.path).checksum == file.checksum then
        -- L-D
        { diff with localDeleted := diff.localDeleted ++ [file.path] }
      else
        -- C/R-U/L-D
        { diff with conflictRemoteUpdatedLocalDeleted :=
            diff.conflictRemoteUpdatedLocalDeleted ++ [file.path] }
    else
      -- R-A
      { diff with remoteAdded := diff.remoteAdded ++ [file.path] }
  (diff, if hasOldServer then oldServerFilesMap.remove file.path else oldServerFilesMap)

/-- The map that `compareProjectFiles` builds from a file list
(`map.insert( file.path, file )` for every file). -/
def filesMap (files : List MerginFile) : QHash MerginFile :=
  files.foldl (fun m file => m.insert file.path file) QHash.empty

/-- Model of `MerginApi::compareProjectFiles`.  The third loop of the source
(over what is left of `oldServerFilesMap`) has an empty body. -/
def compareProjectFiles (oldServerFiles newServerFiles localFiles : List MerginFile) :
    ProjectDiff :=
  let newServerFilesMap := filesMap newServerFiles
  let oldServerFilesMap := filesMap oldServerFiles
  let st : CompareState :=
    { diff := {}, oldServerFilesMap := oldServerFilesMap, newServerFilesMap := newServerFilesMap }
  let st := localFiles.foldl compareLocalFile st
  (st.newServerFilesMap.values.foldl compareServerFile (st.diff, st.oldServerFilesMap)).1

/-- A file record with the given path and checksum (test data). -/
def mkFile (path checksum : String) : MerginFile :=
  { path := path, checksum := checksum }

/-! ## Predicates used to state the properties of the differ -/

/-- The condition under which the first loop of `compareProjectFiles` puts
the path of a local file into a category, given the two maps. -/
def LocalCond (om nm : QHash MerginFile) (f : MerginFile) : Category → Prop
  | .localAdded => om.contains f.path = false ∧ nm.contains f.path = false
  | .remoteDeleted => om.contains f.path = true ∧ nm.contains f.path = false ∧
      (om.value f.path).checksum = f.checksum
  | .conflictRemoteDeletedLocalUpdated => om.contains f.path = true ∧
      nm.contains f.path = false ∧ (om.value f.path).checksum ≠ f.checksum
  | .conflictRemoteAddedLocalAdded => om.contains f.path = false ∧
      nm.contains f.path = true ∧ (nm.value f.path).checksum ≠ f.checksum
  | .localUpdated => om.contains f.path = true ∧ nm.contains f.path = true ∧
      (om.value f.path).checksum = (nm.value f.path).checksum ∧
      (nm.value f.path).checksum ≠ f.checksum
  | .conflictRemoteUpdatedLocalUpdated => om.contains f.path = true ∧
      nm.contains f.path = true ∧
      (om.value f.path).checksum ≠ (nm.value f.path).checksum ∧
      (nm.value f.path).checksum ≠ f.checksum ∧ (om.value f.path).checksum ≠ f.checksum
  | .remoteUpdated => om.contains f.path = true ∧ nm.contains f.path = true ∧
      (om.value f.path).checksum ≠ (nm.value f.path).checksum ∧
      (nm.value f.path).checksum ≠ f.checksum ∧ (om.value f.path).checksum = f.checksum
  | .localDeleted => False
  | .remoteAdded => False
  | .conflictRemoteUpdatedLocalDeleted => False

/-- The condition under which the second loop of `compareProjectFiles` puts
the path of a remote file that is not available locally into a category. -/
def ServerCond (om : QHash MerginFile) (f : MerginFile) : Category → Prop
  | .localDeleted => om.contains f.path = true ∧ (om.value f.path).checksum = f.checksum
  | .conflictRemoteUpdatedLocalDeleted => om.contains f.path = true ∧
      (om.value f.path).checksum ≠ f.checksum
  | .remoteAdded => om.contains f.path = false
  | _ => False

/-- Well-formedness of a map built by `filesMap`: the keys are pairwise
different and every file is stored under its own path. -/
def WFMap (m : QHash MerginFile) : Prop :=
  m.keys.Nodup ∧ ∀ e ∈ m.entries, e.2.path = e.1

/-- The path and checksum of every file of a list. -/
def signature (l : List MerginFile) : List (String × String) :=
  l.map (fun f => (f.path, f.checksum))

/-! ## Machine arithmetic

`int` is a 32-bit two's complement integer and `qreal` an IEEE-754 binary64
number.  The part of binary64 arithmetic that the engine uses (conversion of
an integer, division by a non-zero integer constant, `ceil`) is modelled on
finite values `± mant * 2 ^ exp` with round-to-nearest, ties-to-even. -/

/-- Modelled from the spec: the constant `UPLOAD_CHUNK_SIZE` is declared in
`merginapi.h`, which is not among the sources; the specification gives it as
"server-contracted, typically 10 MB", taken here as `10 * 1024 * 1024`. -/
def UPLOAD_CHUNK_SIZE : Int := 10 * 1024 * 1024

/-- Largest value of an `int`. -/
def INT_MAX : Int := 2147483647

/-- Smallest value of an `int`. -/
def INT_MIN : Int := -2147483648

/-- The value an `int` holds after a computation whose mathematical result is
`x` (two's complement wrap-around). -/
def wrapInt32 (x : Int) : Int :=
  (x + 2147483648) % 4294967296 - 2147483648

/-- A finite binary64 value, `(-1) ^ neg * mant * 2 ^ exp`. -/
structure Dbl where
  neg : Bool
  mant : Nat
  exp : Int
deriving DecidableEq, Repr

/-- The rational number that a `Dbl` stands for. -/
def Dbl.toRat (d : Dbl) : ℚ :=
  (if d.neg then -1 else 1) * (d.mant : ℚ) * (2 : ℚ) ^ d.exp

/-- Position of the highest set bit: `2 ^ floorLog2 n ≤ n < 2 ^ (floorLog2 n + 1)`
for `n ≠ 0`. -/
def floorLog2Aux : Nat → Nat → Nat
  | 0, _ => 0
  | fuel + 1, n => if n < 2 then 0 else floorLog2Aux fuel (n / 2) + 1

/-- Position of the highest set bit of `n`. -/
def floorLog2 (n : Nat) : Nat :=
  floorLog2Aux n n

/-- The fraction `num / den * 2 ^ s` as a numerator and a denominator. -/
def scaleFraction (num den : Nat) (s : Int) : Nat × Nat :=
  if 0 ≤ s then (num * 2 ^ s.toNat, den) else (num, den * 2 ^ (-s).toNat)

/-- The integer nearest to `num / den`, a tie going to the even one. -/
def roundHalfEven (num den : Nat) : Nat :=
  let q := num / den
  let r := num % den
  if 2 * r < den then q
  else if den < 2 * r then q + 1
  else if q % 2 = 0 then q
  else q + 1

/-- The binary exponent `e` of a positive fraction: `2 ^ e ≤ num / den < 2 ^ (e + 1)`. -/
def binaryExponent (num den : Nat) : Int :=
  let e0 : Int := (floorLog2 num : Int) - (floorLog2 den : Int)
  let f := scaleFraction num den (-e0)
  if f.2 ≤ f.1 then e0 else e0 - 1

/-- The binary64 value nearest to `± num / den` (53 significant bits, ties to
even); exponent range limits are not modelled, the engine's values are far
from them. -/
def roundToDouble (neg : Bool) (num den : Nat) : Dbl :=
  if num = 0 then ⟨neg, 0, 0⟩
  else
    let e := binaryExponent num den
    let f := scaleFraction num den (52 - e)
    ⟨neg, roundHalfEven f.1 f.2, e - 52⟩

/-- Conversion `qreal( n )` of a `qint64`. -/
def Dbl.ofInt (n : Int) : Dbl :=
  roundToDouble (decide (n < 0)) n.natAbs 1

/-- Division of a `qreal` by a non-zero `int` constant (the constant converts
to `qreal` exactly). -/
def Dbl.divInt (x : Dbl) (c : Int) : Dbl :=
  let f := scaleFraction x.mant c.natAbs x.exp
  roundToDouble (x.neg != decide (c < 0)) f.1 f.2

/-- The function `ceil` on `qreal`, as an integer. -/
def Dbl.ceil (x : Dbl) : Int :=
  let f := scaleFraction x.mant 1 x.exp
  if x.neg then -((f.1 / f.2 : Nat) : Int) else (((f.1 + f.2 - 1) / f.2 : Nat) : Int)

/-- Model of `qCeil`, `int( ceil( v ) )`.  The conversion of a value outside
the range of `int` is undefined behaviour; the model gives it the result of
the x86 conversion instruction, `INT_MIN`. -/
def qCeil (v : Dbl) : Int :=
  let c := v.ceil
  if INT_MIN ≤ c ∧ c ≤ INT_MAX then c else INT_MIN

/-! ## The chunk planner -/

/-- Model of `MerginApi::generateChunkIdsForSize`.  `createUuid i` is the
`i`-th id that `QUuid::createUuid()` returns during the call. -/
def generateChunkIdsForSize (createUuid : Nat → String) (fileSize : Int) : List String :=
  let rawNoOfChunks := (Dbl.ofInt fileSize).divInt UPLOAD_CHUNK_SIZE
  let noOfChunks := qCeil rawNoOfChunks
  (List.range noOfChunks.toNat).map createUuid

/-! ## The range of a chunk download -/

/-- The `int from` of `MerginApi::downloadFile`. -/
def rangeFrom (chunkNo : Int) : Int :=
  wrapInt32 (UPLOAD_CHUNK_SIZE * chunkNo)

/-- The `int to` of `MerginApi::downloadFile`. -/
def rangeTo (chunkNo : Int) : Int :=
  wrapInt32 (wrapInt32 (UPLOAD_CHUNK_SIZE * wrapInt32 (chunkNo + 1)) - 1)

/-- The value of the `Range` header that `MerginApi::downloadFile` sends,
`QStringLiteral( "bytes=%1-%2" ).arg( from ).arg( to )`. -/
def rangeHeader (chunkNo : Int) : String :=
  "bytes=" ++ toString (rangeFrom chunkNo) ++ "-" ++ toString (rangeTo chunkNo)

/-- A supply of chunk ids (test data): the `i`-th id is `chunk-i`. -/
def sampleUuid (i : Nat) : String :=
  "chunk-" ++ toString i

/-! ## Strings and paths -/

/-- Model of `QString::split( "/" )` on the characters of a string: the parts
between the separators, empty parts kept.  `cur` is the part being read, in
reverse. -/
def splitSlashAux : List Char → List Char → List String
  | [], cur => [String.mk cur.reverse]
  | c :: cs, cur =>
    if c = '/' then String.mk cur.reverse :: splitSlashAux cs []
    else splitSlashAux cs (c :: cur)

/-- Model of `QString::split( "/" )`. -/
def splitSlash (s : String) : List String :=
  splitSlashAux s.toList []

/-- Whether the characters `p` start the characters `cs`. -/
def startsWithChars : List Char → List Char → Bool
  | [], _ => true
  | _ :: _, [] => false
  | a :: p, c :: cs => a == c && startsWithChars p cs

/-- Replacement of every occurrence of `before` by nothing, scanning from the
left; `skip` counts the characters of a found occurrence still to drop. -/
def removeAllAux (before : List Char) : List Char → Nat → List Char
  | [], _ => []
  | _ :: cs, skip + 1 => removeAllAux before cs skip
  | c :: cs, 0 =>
    if before ≠ [] ∧ startsWithChars before (c :: cs) then
      removeAllAux before cs (before.length - 1)
    else c :: removeAllAux before cs 0

/-- Model of `QString::replace( before, "" )`. -/
def replaceWithEmpty (s before : String) : String :=
  String.mk (removeAllAux before.toList s.toList 0)

/-- Model of `QFileInfo::fileName`: what follows the last `/`. -/
def fileName (path : String) : String :=
  (splitSlash path).getLastD ""

/-- Characters after the last `.` of a name; `none` when there is no `.`. -/
def suffixChars : List Char → Option (List Char)
  | [] => none
  | c :: cs =>
    match suffixChars cs with
    | some r => some r
    | none => if c = '.' then some cs else none

/-- Model of `QFileInfo::suffix`: what follows the last `.` of the file name,
empty when the name has no `.`. -/
def suffix (path : String) : String :=
  String.mk ((suffixChars (fileName path).toList).getD [])

/-- The directories above a path: for every `/` in the path, what precedes
it (when not empty).  `cur` is the part read so far, in reverse. -/
def ancestorDirsAux : List Char → List Char → List String
  | [], _ => []
  | c :: cs, cur =>
    if c = '/' ∧ cur ≠ [] then String.mk cur.reverse :: ancestorDirsAux cs (c :: cur)
    else ancestorDirsAux cs (c :: cur)

/-- The directories above a path, outermost first. -/
def ancestorDirs (path : String) : List String :=
  ancestorDirsAux path.toList []

/-- Whether `path` lies below the directory `dir` (given with or without a
final `/`): the text of `dir` starts the text of `path`.  The file system
applies it to the keys of its files, which are clean paths. -/
def isUnder (dir path : String) : Bool :=
  let d := if dir.toList.getLast? = some '/' then dir.toList else dir.toList ++ ['/']
  startsWithChars d path.toList

/-- Whether a path below `dir` has a hidden component (a name that starts
with `.`) after `dir`. -/
def hasHiddenComponent (dir path : String) : Bool :=
  (splitSlash (String.mk (path.toList.drop dir.length))).any
    (fun part => part.toList.head? = some '.')

/-- A run of `/` in a path counts as one separator. -/
def cleanChars : List Char → List Char
  | [] => []
  | [c] => [c]
  | a :: b :: cs => if a = '/' ∧ b = '/' then cleanChars (b :: cs) else a :: cleanChars (b :: cs)

/-- Whether a component of a path is `.` or `..`. -/
def isDotComponent (part : String) : Bool :=
  part == "." || part == ".."

/-- The components of a path with `.` and `..` resolved, from left to right;
`done` holds the components kept so far, the last one first.  A `.` is
dropped; a `..` takes back the component before it, stays where it is at the
root of an absolute path (the empty first component), and is kept at the start
of a relative path. -/
def resolveDots : List String → List String → List String
  | [], done => done.reverse
  | part :: rest, done =>
    if part = "." then resolveDots rest done
    else if part = ".." then
      match done with
      | [] => resolveDots rest [".."]
      | top :: below =>
        if top = "" ∧ below = [] then resolveDots rest done
        else if top = ".." then resolveDots rest (".." :: done)
        else resolveDots rest below
    else resolveDots rest (part :: done)

/-- The components of a path put together again, with `/` between them. -/
def joinSlash : List String → String
  | [] => ""
  | [part] => part
  | part :: next :: rest => part ++ "/" ++ joinSlash (next :: rest)

/-- The file that a path names, as the file layer under `QFile` and `QDir`
finds it: a run of `/` counts as one separator, and the components `.` and
`..` are resolved.  A path without such components is left as it is written.
Symbolic links are not modelled, so `..` is resolved on the text of the
path, and the directory that a `..` steps out of is taken to exist (the file
layer refuses a path through a missing directory; as the other failures to
open a file, that one is not modelled). -/
def cleanPath (path : String) : String :=
  let merged := String.mk (cleanChars path.toList)
  let parts := splitSlash merged
  if parts.any isDotComponent then
    let resolved := joinSlash (resolveDots parts [])
    if resolved = "" ∧ merged.toList.head? = some '/' then "/" else resolved
  else merged

/-! ## Place markers of `QString::arg` -/

/-- The value of an ASCII digit. -/
def digitValue (c : Char) : Nat :=
  c.toNat - '0'.toNat

/-- A piece of a string as `QString::arg` reads it: a character of plain text,
or a place marker (`%1` … `%99`, also written `%L1` …) with its number and the
characters it is written with. -/
inductive ArgPart where
  | char (c : Char)
  | marker (number : Nat) (text : List Char)
deriving DecidableEq, Repr

/-- Where the scan for place markers stands: in plain text, after a `%`, after
`%L`, or after the first digit of a marker (with the characters of the marker
so far). -/
inductive ArgScan where
  | plain
  | percent
  | percentL
  | digit (text : List Char) (d : Char)
deriving DecidableEq, Repr

/-- The scan of `QString::arg` for place markers (`findArgEscapes`): a `%`,
an optional `L`, and one or two digits make a marker; a `%` that no digit
follows is plain text, and the scan goes on with the character after it (after
the `L`, when there is one). -/
def argParts : ArgScan → List Char → List ArgPart
  | .plain, [] => []
  | .percent, [] => [.char '%']
  | .percentL, [] => [.char '%', .char 'L']
  | .digit text d, [] => [.marker (digitValue d) text]
  | .plain, c :: cs =>
    if c = '%' then argParts .percent cs else .char c :: argParts .plain cs
  | .percent, c :: cs =>
    if c = 'L' then argParts .percentL cs
    else if c.isDigit then argParts (.digit ['%', c] c) cs
    else if c = '%' then .char '%' :: argParts .percent cs
    else .char '%' :: .char c :: argParts .plain cs
  | .percentL, c :: cs =>
    if c.isDigit then argParts (.digit ['%', 'L', c] c) cs
    else if c = '%' then .char '%' :: .char 'L' :: argParts .percent cs
    else .char '%' :: .char 'L' :: .char c :: argParts .plain cs
  | .digit text d, c :: cs =>
    if c.isDigit then
      .marker (10 * digitValue d + digitValue c) (text ++ [c]) :: argParts .plain cs
    else if c = '%' then .marker (digitValue d) text :: argParts .percent cs
    else .marker (digitValue d) text :: .char c :: argParts .plain cs

/-- One step of the search for the lowest number of a place marker. -/
def lowerMarker (best : Option Nat) (part : ArgPart) : Option Nat :=
  match part, best with
  | .marker n _, none => some n
  | .marker n _, some m => some (min m n)
  | .char _, best => best

/-- The lowest number of a place marker, `none` when there is no marker. -/
def lowestMarker (parts : List ArgPart) : Option Nat :=
  parts.foldl lowerMarker none

/-- What `QString::arg` puts for a piece of the string: the argument for a
marker with the lowest number, the piece itself otherwise. -/
def argReplace (lowest : Nat) (a : List Char) : ArgPart → List Char
  | .char c => [c]
  | .marker n text => if n = lowest then a else text

/-- Model of `QString::arg( const QString &a )`: every occurrence of the place
marker with the lowest number is replaced by `a`; a string without a place
marker is returned as it is.  Digits are those of ASCII. -/
def argString (s a : String) : String :=
  let parts := argParts .plain s.toList
  match lowestMarker parts with
  | none => s
  | some lowest =>
    String.mk (parts.foldr (fun part acc => argReplace lowest a.toList part ++ acc) [])

/-! ## The version number of the server -/

/-- Model of `QString::toInt` on a string of ASCII digits: the number, or 0
when it does not fit an `int`. -/
def digitsToInt (ds : List Char) : Int :=
  let v : Int := ds.foldl (fun acc d => acc * 10 + (digitValue d : Int)) 0
  if v ≤ INT_MAX then v else 0

/-- A match of the pattern `(?<major>\d+)[.](?<minor>\d+)` that starts at the
first of the characters: the captured digits of `major` and `minor`. -/
def versionMatchAt (cs : List Char) : Option (List Char × List Char) :=
  let major := cs.takeWhile Char.isDigit
  match cs.dropWhile Char.isDigit with
  | '.' :: rest =>
    let minor := rest.takeWhile Char.isDigit
    if major ≠ [] ∧ minor ≠ [] then some (major, minor) else none
  | _ => none

/-- Model of `QRegularExpression::match` for that pattern: the leftmost
match. -/
def versionMatch : List Char → Option (List Char × List Char)
  | [] => none
  | c :: cs =>
    match versionMatchAt (c :: cs) with
    | some r => some r
    | none => versionMatch cs

/-! ## The file system -/

/-- The part of the file system the engine works on: the content of every
regular file by (clean) path, and the directories. -/
structure FileSystem where
  files : QHash String := {}
  dirs : List String := []

namespace FileSystem

/-- The content of a file, `none` when there is no such file. -/
def read (fs : FileSystem) (path : String) : Option String :=
  fs.files.find? (cleanPath path)

/-- Model of `QFile::exists`. -/
def fileExists (fs : FileSystem) (path : String) : Bool :=
  fs.files.contains (cleanPath path)

/-- Model of `QDir::exists`. -/
def dirExists (fs : FileSystem) (dir : String) : Bool :=
  cleanPath dir ∈ fs.dirs

/-- Model of `QDir::mkpath`: the directory and all directories above it. -/
def mkpath (fs : FileSystem) (dir : String) : FileSystem :=
  { fs with dirs := fs.dirs ++
      ((ancestorDirs (cleanPath dir) ++ [cleanPath dir]).filter (fun d => d ∉ fs.dirs)).eraseDups }

/-- The directory part of a file path (`QFileInfo::absolutePath`). -/
def parentOf (path : String) : String :=
  (ancestorDirs (cleanPath path)).getLastD ""

/-- Creation of the directories above a file path (`mkpath` of its
directory). -/
def mkParent (fs : FileSystem) (path : String) : FileSystem :=
  if parentOf path = "" then fs else fs.mkpath (parentOf path)

/-- Model of `QDir::mkdir`: the directory is created when the directory above
it exists. -/
def mkdir (fs : FileSystem) (dir : String) : FileSystem :=
  if fs.dirExists dir then fs
  else if parentOf dir = "" ∨ fs.dirExists (parentOf dir) then
    { fs with dirs := fs.dirs ++ [cleanPath dir] }
  else fs

/-- Writing a file opened with `QIODevice::WriteOnly`: the content is replaced. -/
def write (fs : FileSystem) (path data : String) : FileSystem :=
  { fs with files := fs.files.insert (cleanPath path) data }

/-- Writing a file opened with `QIODevice::Append`. -/
def append (fs : FileSystem) (path data : String) : FileSystem :=
  { fs with files := fs.files.insert (cleanPath path) ((fs.read path).getD "" ++ data) }

/-- Model of `QFile::remove`. -/
def remove (fs : FileSystem) (path : String) : FileSystem :=
  { fs with files := fs.files.remove (cleanPath path) }

/-- Model of `QFile::rename`: fails when the source is missing or the target
exists. -/
def rename (fs : FileSystem) (src dst : String) : FileSystem × Bool :=
  match fs.read src with
  | none => (fs, false)
  | some content =>
    if fs.fileExists dst then (fs, false)
    else ({ fs with files := (fs.files.remove (cleanPath src)).insert (cleanPath dst) content },
      true)

/-- Model of `QDir::removeRecursively`. -/
def removeRecursively (fs : FileSystem) (dir : String) : FileSystem :=
  { files := ⟨fs.files.entries.filter (fun e => !isUnder (cleanPath dir) e.1)⟩
    dirs := fs.dirs.filter (fun d => d != cleanPath dir && !isUnder (cleanPath dir) d) }

/-- The path to which `cpDir` copies a file below `src`: `dst` followed by the
path of the file relative to `src`. -/
def cpTarget (src dst file : String) : String :=
  dst ++ String.mk (file.toList.drop (cleanPath src).length)

/-- Modelled from the spec: `InputUtils::cpDir` is defined in `inpututils.cpp`,
which is not among the sources; the specification has it "recursively copy
`tempDir` over `projectDir`": every file below `src` is written to the same
relative path below `dst`, replacing what is there. -/
def cpDir (fs : FileSystem) (src dst : String) : FileSystem :=
  (fs.files.entries.filter (fun e => isUnder (cleanPath src) e.1)).foldl
    (fun acc e => (acc.mkParent (cpTarget src dst e.1)).write (cpTarget src dst e.1) e.2)
    (fs.mkpath dst)

/-- Model of `QDirIterator( path, "*", QDir::Files, QDirIterator::Subdirectories )`:
the paths of the regular files below `path`, each `path` followed by the
relative path; hidden entries (names starting with `.`) are neither listed nor
entered, as `QDir::Hidden` is not asked for. -/
def dirIterator (fs : FileSystem) (path : String) : List String :=
  fs.files.keys.filter (fun f => isUnder path f && !hasHiddenComponent path f)

end FileSystem

/-! ## The state of the engine -/

/-- Modelled from the spec: `LocalProjectInfo` is declared in
`localprojectsmanager.h`, which is not among the sources.  The specification
gives it as `{ projectDir, namespace, name, localVersion (-1 if never),
serverVersion (-1 if unknown) }`. -/
structure LocalProjectInfo where
  projectDir : String := ""
  projectNamespace : String := ""
  projectName : String := ""
  localVersion : Int := -1
  serverVersion : Int := -1
deriving DecidableEq, Repr

/-- A default-constructed `LocalProjectInfo`. -/
instance : Inhabited LocalProjectInfo := ⟨{}⟩

/-- Modelled from the spec: `LocalProjectInfo::isValid` (not among the
sources): a project is valid when it has a directory. -/
def LocalProjectInfo.isValid (info : LocalProjectInfo) : Bool :=
  !info.projectDir.isEmpty

/-- Modelled from the spec: `MerginProjectMetadata` is declared in
`merginprojectmetadata.h`, which is not among the sources.  The specification
gives it as `{ version, files }`; missing data gives version 0 and no files. -/
structure MerginProjectMetadata where
  files : List MerginFile := []
  version : Int := 0
deriving DecidableEq, Repr

/-- A default-constructed `MerginProjectMetadata`. -/
instance : Inhabited MerginProjectMetadata := ⟨{}⟩

/-- Model of `findFile`: the first record with the path, a default-constructed
record when there is none. -/
def findFile (filePath : String) (files : List MerginFile) : MerginFile :=
  (files.find? (fun merginFile => merginFile.path == filePath)).getD {}

/-- Modelled from the spec: `MerginProjectMetadata::fileInfo` (not among the
sources): the record of the metadata with the given path. -/
def MerginProjectMetadata.fileInfo (m : MerginProjectMetadata) (filePath : String) : MerginFile :=
  findFile filePath m.files

/-- The per-project record `TransactionStatus` of a running sync.  A request
handle (`QPointer<QNetworkReply>`) is `none` when null, else the number of the
request.  The struct is declared in `merginapi.h`, which is not among the
sources; the fields are those the source file uses, the initial values are
null handles, empty containers, `false`, and `-1` for the version. -/
structure TransactionStatus where
  totalSize : Int := 0
  transferedSize : Int := 0
  replyProjectInfo : Option Nat := none
  replyDownloadFile : Option Nat := none
  replyUploadProjectInfo : Option Nat := none
  replyUploadStart : Option Nat := none
  replyUploadFile : Option Nat := none
  replyUploadFinish : Option Nat := none
  files : List MerginFile := []
  projectDir : String := ""
  projectMetadata : String := ""
  version : Int := -1
  firstTimeDownload : Bool := false
  updateBeforeUpload : Bool := false
  transactionUUID : String := ""
  diff : ProjectDiff := {}
deriving DecidableEq, Repr

/-- A default-constructed `TransactionStatus`. -/
instance : Inhabited TransactionStatus := ⟨{}⟩

/-- The values of `MerginApiStatus::VersionStatus` that the source file uses. -/
inductive VersionStatus where
  | UNKNOWN
  | PENDING
  | OK
  | INCOMPATIBLE
  | NOT_FOUND
deriving DecidableEq, Repr

/-- One file object of the changes of a push request, as
`prepareUploadChangesJSON` builds it: `path`, `checksum`, `size`, `mtime` and
`chunks`.  The source writes `mtime` as text, `toString( Qt::ISODateWithMs )`;
the model keeps the time stamp itself. -/
structure FileJson where
  path : String
  checksum : String
  size : Int
  mtime : Int
  chunks : List String
deriving DecidableEq, Repr

/-- The body of a push request: `{ "changes": { added, removed, updated,
renamed }, "version": … }`. -/
structure PushJson where
  added : List FileJson
  removed : List FileJson
  updated : List FileJson
  renamed : List FileJson
  version : String
deriving DecidableEq, Repr

/-- The network requests the engine issues. -/
inductive Request where
  | authorize (login password : String)
  | projectInfo (projectFullName : String) (token : String)
  | downloadFile (projectFullName filename version : String) (chunkNo : Int) (range : String)
  | uploadStart (projectFullName : String) (json : PushJson)
  | uploadFile (projectFullName transactionUUID chunkID : String) (data : String)
  | uploadFinish (projectFullName transactionUUID : String)
  | uploadCancel (projectFullName transactionUUID : String)
deriving DecidableEq, Repr

/-- The progress value of `syncProjectStatusChanged`: the quotient
`num / den`, kept unevaluated (`0` and `-1` have `den = 1`). -/
structure Progress where
  num : Int
  den : Int := 1
deriving DecidableEq, Repr

/-- The signals the engine emits. -/
inductive Signal where
  | syncProjectStatusChanged (projectFullName : String) (progress : Progress)
  | syncProjectFinished (projectDir projectFullName : String) (successfully : Bool)
  | authRequested
  | authChanged
  | authFailed
  | notify (message : String)
  | networkErrorOccurred (message topic : String) (showAsDialog : Bool)
  | pullFilesStarted
  | pushFilesStarted
  | apiVersionStatusChanged
deriving DecidableEq, Repr

/-- What the engine does to the outside, in order: a signal, a request
together with the number of its reply handle, or the abort of the request with
a given handle (`QNetworkReply::abort`). -/
inductive Event where
  | signal (s : Signal)
  | request (reply : Nat) (r : Request)
  | abort (reply : Nat)
deriving DecidableEq, Repr

/-- The reply to a login request, as `authorizeFinished` reads it: without
error (and then a JSON object with the session or something else), or with an
error, an HTTP status and a server message. -/
inductive AuthReply where
  | session (token : String) (expire : Int) (userId diskUsage storageLimit : Int)
      (username : String)
  | notAnObject
  | error (status : Int) (serverMsg : String)
deriving DecidableEq, Repr

/-- A finished `QNetworkReply` as the reply handlers read it: whether
`error()` is `NoError`, the body, the error string and the HTTP status. -/
structure NetworkReply where
  noError : Bool
  data : String := ""
  errorString : String := ""
  status : Int := 0
deriving DecidableEq, Repr

/-- The credentials and the API root kept in `QSettings` (group `Input/`). -/
structure Settings where
  username : String := ""
  password : String := ""
  userId : Int := 0
  token : String := ""
  expire : Int := 0
  apiRoot : String := ""
deriving DecidableEq, Repr

/-- What `extractServerErrorMsg` reads in a body parsed by
`QJsonDocument::fromJson`: not a JSON object, or an object whose `detail` is a
string, an object (given by its JSON text), or anything else. -/
inductive JsonDetail where
  | notObject
  | string (detail : String)
  | object (text : String)
  | other
deriving DecidableEq, Repr

/-- Modelled from the spec: the constants `MERGIN_API_VERSION_MAJOR` and
`MERGIN_API_VERSION_MINOR` are declared in `merginapi.h`, which is not among
the sources; the specification calls them `client.MAJOR` and `client.MINOR`
and gives no value. -/
structure ClientVersion where
  MERGIN_API_VERSION_MAJOR : Int
  MERGIN_API_VERSION_MINOR : Int
deriving DecidableEq, Repr

/-- What the engine takes from outside and cannot compute: the parser of
project metadata (`MerginProjectMetadata::fromJson`, not among the sources),
SHA-1 as a function of the content, the ids that `QUuid::createUuid` returns,
the answers of the server to login requests, and two readings of a body by
`QJsonDocument::fromJson`: `jsonTransaction` is `none` when the body is not a
JSON object and else the string value of its key `transaction` (empty when
there is no such string), `jsonDetail` is what is found at its key `detail`.
The API version of the client is given with it.  `lastModified` is the time
that `QFileInfo::lastModified` reports for a path.  `queryItemValue url key` is
what `QUrlQuery( QUrl( url ).query() ).queryItemValue( key )` reads back from
a URL that was built from a string, and `urlToString url` is
`QUrl( url ).toString()`: the parsing of URLs by Qt is not modelled, a reply
handler gets what these two return. -/
structure Env where
  fromJson : String → MerginProjectMetadata
  sha1 : String → String
  createUuid : Nat → String
  authReply : Nat → AuthReply
  jsonTransaction : String → Option String
  jsonDetail : String → JsonDetail
  clientVersion : ClientVersion
  lastModified : String → Int
  queryItemValue : String → String → String
  urlToString : String → String

/-- The state of a `MerginApi` object together with the part of the world it
acts on: the file system, the clock, the settings, the events produced so far,
and the handles of the replies that have arrived (`finished`; the network layer
delivers a reply once). -/
structure MerginApi where
  env : Env
  mTransactionalStatus : QHash TransactionStatus := {}
  mLocalProjects : List LocalProjectInfo := []
  mDataDir : String := ""
  mApiRoot : String := ""
  mUsername : String := ""
  mPassword : String := ""
  mAuthToken : String := ""
  mTokenExpiration : Int := 0
  mUserId : Int := 0
  mDiskUsage : Int := 0
  mStorageLimit : Int := 0
  mApiVersionStatus : VersionStatus := .UNKNOWN
  fs : FileSystem := {}
  settings : Settings := {}
  now : Int := 0
  trace : List Event := []
  nextReply : Nat := 0
  authCount : Nat := 0
  uuidCount : Nat := 0
  finished : List Nat := []

namespace MerginApi

/-- The constant `MerginApi::sMetadataFile`. -/
def sMetadataFile : String := "/.mergin/mergin.json"

/-- The constant `MerginApi::sIgnoreExtensions`. -/
def sIgnoreExtensions : List String := ["gpkg-shm", "gpkg-wal", "qgs~", "qgz~", "pyc", "swap"]

/-- The constant `MerginApi::sIgnoreFiles`. -/
def sIgnoreFiles : List String := ["mergin.json", ".DS_Store"]

/-- Modelled from the spec: the constant `TEMP_FOLDER` is declared in
`merginapi.h`, which is not among the sources; the specification places
uncommitted downloads under `<dataDir>/<TEMP_FOLDER><projectFullName>/`. -/
def TEMP_FOLDER : String := ".temp/"

/-- Forty-two days in milliseconds (`addDays( -42 )`). -/
def fortyTwoDays : Int := 42 * 24 * 60 * 60 * 1000

/-! ### The store of transactions -/

/-- The reference `mTransactionalStatus[projectFullName]`: `operator[]` inserts
a default-constructed record when the key is missing. -/
def ref (s : MerginApi) (projectFullName : String) : MerginApi :=
  if s.mTransactionalStatus.contains projectFullName then s
  else { s with mTransactionalStatus :=
    s.mTransactionalStatus.insert projectFullName {} }

/-- The record of a project in the store. -/
def transaction (s : MerginApi) (projectFullName : String) : TransactionStatus :=
  s.mTransactionalStatus.value projectFullName

/-- An assignment through the reference `mTransactionalStatus[projectFullName]`. -/
def setTransaction (s : MerginApi) (projectFullName : String) (t : TransactionStatus) :
    MerginApi :=
  { s with mTransactionalStatus := s.mTransactionalStatus.insert projectFullName t }

/-! ### Signals and requests -/

/-- Model of `MerginApi::saveAuthData`, the slot connected to `authChanged`. -/
def saveAuthData (s : MerginApi) : MerginApi :=
  { s with settings :=
      { username := s.mUsername, password := s.mPassword, userId := s.mUserId,
        token := s.mAuthToken, expire := s.mTokenExpiration, apiRoot := s.mApiRoot } }

/-- Emission of a signal.  The only signal with a slot of the engine connected
that the modelled functions emit is `authChanged` (slot `saveAuthData`). -/
def emit (s : MerginApi) (sig : Signal) : MerginApi :=
  let s := { s with trace := s.trace ++ [Event.signal sig] }
  if sig = Signal.authChanged then s.saveAuthData else s

/-- Issue of a request through `mManager`: the request is recorded and a new
reply handle is returned. -/
def send (s : MerginApi) (r : Request) : MerginApi × Nat :=
  ({ s with trace := s.trace ++ [Event.request s.nextReply r], nextReply := s.nextReply + 1 },
    s.nextReply)

/-! ### The local projects registry -/

/-- Model of `MerginApi::getFullProjectName`:
`QString( "%1/%2" ).arg( projectNamespace ).arg( projectName )`. -/
def getFullProjectName (projectNamespace projectName : String) : String :=
  argString (argString "%1/%2" projectNamespace) projectName

/-- Modelled from the spec: `LocalProjectsManager::projectFromMerginName` (not
among the sources): the registered project with that full name, an invalid
record when there is none. -/
def projectFromMerginName (s : MerginApi) (projectFullName : String) : LocalProjectInfo :=
  (s.mLocalProjects.find? (fun info =>
    getFullProjectName info.projectNamespace info.projectName == projectFullName)).getD {}

/-- Modelled from the spec: `LocalProjectsManager::updateMerginLocalVersion`
(not among the sources): sets `localVersion` of the project with that
directory. -/
def updateMerginLocalVersion (s : MerginApi) (projectDir : String) (version : Int) : MerginApi :=
  { s with mLocalProjects := s.mLocalProjects.map (fun info =>
      if info.projectDir = projectDir then { info with localVersion := version } else info) }

/-- Modelled from the spec: `LocalProjectsManager::updateMerginServerVersion`
(not among the sources): sets `serverVersion` of the project with that
directory. -/
def updateMerginServerVersion (s : MerginApi) (projectDir : String) (version : Int) : MerginApi :=
  { s with mLocalProjects := s.mLocalProjects.map (fun info =>
      if info.projectDir = projectDir then { info with serverVersion := version } else info) }

/-- Modelled from the spec: `LocalProjectsManager::addMerginProject` (not among
the sources): registers a project with no version yet. -/
def addMerginProject (s : MerginApi) (projectDir projectNamespace projectName : String) :
    MerginApi :=
  { s with mLocalProjects := s.mLocalProjects ++
      [{ projectDir := projectDir, projectNamespace := projectNamespace,
         projectName := projectName }] }

/-- Model of `MerginApi::extractProjectName`.  The result is the returned
flag and the values of the reference parameters `projectNamespace` and `name`
after the call; `projectNamespace` is given with its value at the call, which
it keeps when the string has no `/` (`name` is assigned on both paths). -/
def extractProjectName (sourceString projectNamespace : String) :
    Bool × String × String :=
  let parts := splitSlash sourceString
  if parts.length > 1 then
    (true, parts.getD (parts.length - 2) "", parts.getLastD "")
  else
    (false, projectNamespace, sourceString)

/-! ### Authorization -/

/-- Model of `MerginApi::hasAuthData`. -/
def hasAuthData (s : MerginApi) : Bool :=
  !s.mUsername.isEmpty && !s.mPassword.isEmpty

/-- Model of `MerginApi::clearTokenData`. -/
def clearTokenData (s : MerginApi) : MerginApi :=
  { s with mTokenExpiration := s.now - fortyTwoDays, mAuthToken := "" }

/-- Model of `MerginApi::authorize`: the login request is posted. -/
def authorize (s : MerginApi) (login password : String) : MerginApi :=
  let s := { s with mPassword := password }
  (s.send (Request.authorize login s.mPassword)).1

/-- Model of `MerginApi::authorizeFinished` for a given reply. -/
def authorizeFinished (s : MerginApi) (r : AuthReply) : MerginApi :=
  match r with
  | .session token expire userId diskUsage storageLimit username =>
    let s := { s with mAuthToken := token, mTokenExpiration := expire, mUserId := userId,
                      mDiskUsage := diskUsage, mStorageLimit := storageLimit,
                      mUsername := username }
    s.emit Signal.authChanged
  | .notAnObject => s.emit Signal.authChanged
  | .error status serverMsg =>
    let s :=
      if status = 401 ∨ status = 400 then
        (s.emit Signal.authFailed).emit (Signal.notify serverMsg)
      else
        s.emit (Signal.networkErrorOccurred serverMsg "Mergin API error: authorize" false)
    let s := { s with mUsername := "", mPassword := "" }
    s.clearTokenData

/-- Model of `MerginApi::validateAuthAndContinute`.  The nested event loop
`mAuthLoopEvent.exec()` is taken to deliver the reply to the login request (the
next answer of the server) and nothing else. -/
def validateAuthAndContinute (s : MerginApi) : MerginApi × Bool :=
  if !s.hasAuthData then
    (s.emit Signal.authRequested, false)
  else if s.mAuthToken.isEmpty ∨ s.mTokenExpiration < s.now then
    let s := s.authorize s.mUsername s.mPassword
    let r := s.env.authReply s.authCount
    let s := { s with authCount := s.authCount + 1 }
    (s.authorizeFinished r, true)
  else
    (s, true)

/-- Model of `MerginApi::setApiVersionStatus`. -/
def setApiVersionStatus (s : MerginApi) (apiVersionStatus : VersionStatus) : MerginApi :=
  { s with mApiVersionStatus := apiVersionStatus }.emit Signal.apiVersionStatusChanged

/-- The status that `checkMerginVersion` sets first, from the version string of
the server and the error message of the ping. -/
def versionVerdict (env : Env) (apiVersion msg : String) : VersionStatus :=
  if msg.isEmpty then
    let parsed : Int × Int :=
      match versionMatch apiVersion.toList with
      | some (major, minor) => (digitsToInt major, digitsToInt minor)
      | none => (-1, -1)
    if (env.clientVersion.MERGIN_API_VERSION_MAJOR = parsed.1 ∧
          env.clientVersion.MERGIN_API_VERSION_MINOR ≤ parsed.2) ∨
        env.clientVersion.MERGIN_API_VERSION_MAJOR < parsed.1 then
      VersionStatus.OK
    else
      VersionStatus.INCOMPATIBLE
  else
    VersionStatus.NOT_FOUND

/-- Model of `MerginApi::checkMerginVersion`: the status found is set, and
then the status `OK` is set whatever was found. -/
def checkMerginVersion (s : MerginApi) (apiVersion msg : String) : MerginApi :=
  let s := s.setApiVersionStatus (versionVerdict s.env apiVersion msg)
  -- TODO remove, only for te4eting
  s.setApiVersionStatus VersionStatus.OK

/-- Model of `MerginApi::getProjectInfo`: the handle of the issued request,
`none` for `nullptr`. -/
def getProjectInfo (s : MerginApi) (projectFullName : String) : MerginApi × Option Nat :=
  let (s, ok) := s.validateAuthAndContinute
  if !ok ∨ s.mApiVersionStatus ≠ VersionStatus.OK then
    (s, none)
  else
    let (s, reply) := s.send (Request.projectInfo projectFullName s.mAuthToken)
    (s, some reply)

/-! ### Files of a project -/

/-- Model of `MerginApi::getTempProjectDir`. -/
def getTempProjectDir (s : MerginApi) (projectFullName : String) : String :=
  s.mDataDir ++ "/" ++ TEMP_FOLDER ++ projectFullName

/-- Model of `MerginApi::isInIgnore` on the path of a file. -/
def isInIgnore (path : String) : Bool :=
  sIgnoreExtensions.contains (suffix path) || sIgnoreFiles.contains (fileName path)

/-- Model of `MerginApi::listFiles`; the result is a `QSet`, so a string is
kept once. -/
def listFiles (s : MerginApi) (path : String) : List String :=
  (((s.fs.dirIterator path).filter (fun f => !isInIgnore f)).map
    (fun f => replaceWithEmpty f path)).eraseDups

/-- Model of `MerginApi::getChecksum`: the SHA-1 of the content, empty when the
file cannot be opened. -/
def getChecksum (s : MerginApi) (filePath : String) : String :=
  match s.fs.read filePath with
  | some content => s.env.sha1 content
  | none => ""

/-- Model of `MerginApi::getLocalProjectFiles`.  The size of a file that does
not exist is 0 (`QFileInfo::size`). -/
def getLocalProjectFiles (s : MerginApi) (projectPath : String) : List MerginFile :=
  (s.listFiles projectPath).map (fun p =>
    { path := p
      checksum := s.getChecksum (projectPath ++ p)
      size := (((s.fs.read (projectPath ++ p)).getD "").length : Int)
      mtime := s.env.lastModified (projectPath ++ p) })

/-- Modelled from the spec: `MerginProjectMetadata::fromCachedJson` (not among
the sources): the parsed content of the file, empty metadata when the file is
missing. -/
def fromCachedJson (s : MerginApi) (path : String) : MerginProjectMetadata :=
  match s.fs.read path with
  | some content => s.env.fromJson content
  | none => {}

/-- Model of `MerginApi::createPathIfNotExists`. -/
def createPathIfNotExists (s : MerginApi) (filePath : String) : MerginApi :=
  let fs := if !s.fs.dirExists s.mDataDir then s.fs.mkpath s.mDataDir else s.fs
  { s with fs := fs.mkParent filePath }

/-- Model of `MerginApi::createEmptyFile`: the file is opened `ReadWrite`, which
creates it when missing and keeps its content otherwise. -/
def createEmptyFile (s : MerginApi) (path : String) : MerginApi :=
  let fs := s.fs.mkParent path
  { s with fs := if fs.fileExists path then fs else fs.write path "" }

/-- Model of `MerginApi::writeData`; a failure to open the file is not
modelled. -/
def writeData (s : MerginApi) (data path : String) : MerginApi :=
  let s := s.createPathIfNotExists path
  { s with fs := s.fs.write path data }

/-- The loop of `MerginApi::findUniqueProjectDirectoryName`: the first `i`,
counting from the given one, for which `path + i` is not a directory.  `fuel`
bounds the number of steps. -/
def findFreeIndex (fs : FileSystem) (path : String) : Nat → Nat → Nat
  | 0, i => i
  | fuel + 1, i => if fs.dirExists (path ++ toString i) then findFreeIndex fs path fuel (i + 1) else i

/-- Model of `MerginApi::findUniqueProjectDirectoryName`.  The loop is given as
many steps as there are directories, plus one. -/
def findUniqueProjectDirectoryName (s : MerginApi) (path : String) : String :=
  if s.fs.dirExists path then
    path ++ toString (findFreeIndex s.fs path (s.fs.dirs.length + 1) 0)
  else
    path

/-- Model of `MerginApi::createUniqueProjectDirectory`. -/
def createUniqueProjectDirectory (s : MerginApi) (projectName : String) : MerginApi × String :=
  let projectDirPath := s.findUniqueProjectDirectoryName (s.mDataDir ++ "/" ++ projectName)
  if !s.fs.dirExists projectDirPath then
    ({ s with fs := s.fs.mkdir projectDirPath }, projectDirPath)
  else
    (s, projectDirPath)

/-- A call of `generateChunkIdsForSize` in the engine: the ids are the next
ones of the generator. -/
def generateChunkIds (s : MerginApi) (fileSize : Int) : MerginApi × List String :=
  let chunks := generateChunkIdsForSize (fun i => s.env.createUuid (s.uuidCount + i)) fileSize
  ({ s with uuidCount := s.uuidCount + chunks.length }, chunks)

/-! ### Start and end of a sync -/

/-- Model of `MerginApi::uploadProject`. -/
def uploadProject (s : MerginApi) (projectNamespace projectName : String) : MerginApi :=
  let projectFullName := getFullProjectName projectNamespace projectName
  -- create entry about pending upload for the project
  let s := s.setTransaction projectFullName {}
  let (s, reply) := s.getProjectInfo projectFullName
  let s := s.setTransaction projectFullName
    { s.transaction projectFullName with replyUploadProjectInfo := reply }
  if reply.isSome then
    s.emit (Signal.syncProjectStatusChanged projectFullName { num := 0 })
  else
    s

/-- Model of `MerginApi::updateProject`. -/
def updateProject (s : MerginApi) (projectNamespace projectName : String) : MerginApi :=
  let projectFullName := getFullProjectName projectNamespace projectName
  let (s, reply) := s.getProjectInfo projectFullName
  if reply.isSome then
    let s := s.setTransaction projectFullName {}
    let s := s.setTransaction projectFullName
      { s.transaction projectFullName with replyProjectInfo := reply }
    s.emit (Signal.syncProjectStatusChanged projectFullName { num := 0 })
  else
    s

/-- Model of `MerginApi::finishProjectSync`. -/
def finishProjectSync (s : MerginApi) (projectFullName : String) (syncSuccessful : Bool) :
    MerginApi :=
  let s := s.ref projectFullName
  let transaction := s.transaction projectFullName
  -- -1 means there's no sync going on
  let s := s.emit (Signal.syncProjectStatusChanged projectFullName { num := -1 })
  let s :=
    if syncSuccessful then
      -- update the local metadata file
      let s := s.writeData transaction.projectMetadata
        (transaction.projectDir ++ "/" ++ sMetadataFile)
      -- update info of local projects
      let s := s.updateMerginLocalVersion transaction.projectDir transaction.version
      s.updateMerginServerVersion transaction.projectDir transaction.version
    else
      s
  let updateBeforeUpload := transaction.updateBeforeUpload
  let projectDir := transaction.projectDir
  let s := { s with mTransactionalStatus := s.mTransactionalStatus.remove projectFullName }
  if updateBeforeUpload then
    -- we're done only with the download part before the actual upload
    let r := extractProjectName projectFullName ""
    s.uploadProject r.2.1 r.2.2
  else
    s.emit (Signal.syncProjectFinished projectDir projectFullName syncSuccessful)

/-- Model of `MerginApi::copyTempFilesToProject`. -/
def copyTempFilesToProject (s : MerginApi) (projectDir projectFullName : String) : MerginApi :=
  let tempProjectDir := s.getTempProjectDir projectFullName
  let fs := s.fs.cpDir tempProjectDir projectDir
  { s with fs := fs.removeRecursively tempProjectDir }

/-- The renaming of one conflicting local file in `finalizeProjectUpdate`; a
failed rename is only logged. -/
def renameConflict (projectDir : String) (fs : FileSystem) (filePath : String) : FileSystem :=
  let origPath := projectDir ++ "/" ++ filePath
  (fs.rename origPath (origPath ++ "_conflict")).1

/-- Model of `MerginApi::finalizeProjectUpdate`. -/
def finalizeProjectUpdate (s : MerginApi) (projectFullName : String) : MerginApi :=
  let s := s.ref projectFullName
  let transaction := s.transaction projectFullName
  let projectDir := transaction.projectDir
  -- rename local conflicting files that were updated when also the server got updated
  let fs := transaction.diff.conflictRemoteUpdatedLocalUpdated.foldl (renameConflict projectDir) s.fs
  -- rename local conflicting files that were added when also the server got those files added
  let fs := transaction.diff.conflictRemoteAddedLocalAdded.foldl (renameConflict projectDir) fs
  let s := { s with fs := fs }
  let s := s.copyTempFilesToProject projectDir projectFullName
  -- remove files that have been removed from the server
  let fs := transaction.diff.remoteDeleted.foldl
    (fun fs filename => fs.remove (projectDir ++ "/" ++ filename)) s.fs
  let s := { s with fs := fs }
  -- add the local project if not there yet
  let s :=
    if !(s.projectFromMerginName projectFullName).isValid then
      let r := extractProjectName projectFullName ""
      s.addMerginProject projectDir r.2.1 r.2.2
    else
      s
  s.finishProjectSync projectFullName true

/-! ### The download pipeline -/

/-- Model of `MerginApi::downloadFile`. -/
def downloadFile (s : MerginApi) (projectFullName filename version : String) (chunkNo : Int) :
    MerginApi :=
  let (s, ok) := s.validateAuthAndContinute
  if !ok ∨ s.mApiVersionStatus ≠ VersionStatus.OK then
    s
  else
    let s := s.ref projectFullName
    let range := rangeHeader chunkNo
    let (s, reply) := s.send (Request.downloadFile projectFullName filename version chunkNo range)
    s.setTransaction projectFullName
      { s.transaction projectFullName with replyDownloadFile := some reply }

/-- The mutual recursion of `takeFirstAndDownload` and `continueDownloadFiles`
as a recursion over the queue `files` of the transaction: the code of
`takeFirstAndDownload` for a queue whose first file is `nextFile`, with the
call `continueDownloadFiles( …, 0 )` for an empty file unfolded.
`takeFirstAndDownload_eq` and `continueDownloadFiles` below give the two
functions of the source. -/
def takeFirstAndDownloadAux (projectFullName version : String) :
    List MerginFile → MerginApi → MerginApi
  | [], s => s
  | nextFile :: rest, s =>
    if nextFile.size = 0 then
      let s := s.createEmptyFile (s.getTempProjectDir projectFullName ++ "/" ++ nextFile.path)
      -- continueDownloadFiles( projectFullName, version, 0 )
      let s := s.ref projectFullName
      if (0 : Int) + 1 ≤ (nextFile.chunks.length : Int) - 1 then
        s.downloadFile projectFullName nextFile.path version (0 + 1)
      else
        let s := s.setTransaction projectFullName
          { s.transaction projectFullName with files := rest }
        if !rest.isEmpty then
          takeFirstAndDownloadAux projectFullName version rest s
        else
          s.finalizeProjectUpdate projectFullName
    else
      s.downloadFile projectFullName nextFile.path version 0

/-- Model of `MerginApi::takeFirstAndDownload`. -/
def takeFirstAndDownload (s : MerginApi) (projectFullName version : String) : MerginApi :=
  takeFirstAndDownloadAux projectFullName version (s.transaction projectFullName).files s

/-- Model of `MerginApi::continueDownloadFiles`.  `files.first()` of an empty
queue is excluded by an assertion of the source; the model leaves the state
unchanged. -/
def continueDownloadFiles (s : MerginApi) (projectFullName version : String)
    (lastChunkNo : Int) : MerginApi :=
  let s := s.ref projectFullName
  match (s.transaction projectFullName).files with
  | [] => s
  | currentFile :: rest =>
    if lastChunkNo + 1 ≤ (currentFile.chunks.length : Int) - 1 then
      s.downloadFile projectFullName currentFile.path version (lastChunkNo + 1)
    else
      let s := s.setTransaction projectFullName
        { s.transaction projectFullName with files := rest }
      if !rest.isEmpty then
        s.takeFirstAndDownload projectFullName version
      else
        s.finalizeProjectUpdate projectFullName

/-- One step of the four loops of `startProjectUpdate` that fill the download
queue: the state, `filesToDownload` and `totalSize`. -/
def queueDownload (serverProject : MerginProjectMetadata)
    (st : MerginApi × List MerginFile × Int) (filePath : String) :
    MerginApi × List MerginFile × Int :=
  let file := serverProject.fileInfo filePath
  let (s, chunks) := st.1.generateChunkIds file.size
  let file := { file with chunks := chunks }
  (s, st.2.1 ++ [file], st.2.2 + file.size)

/-- The first part of `MerginApi::startProjectUpdate`: the project directory
of the transaction is the one of the registered project, or a new directory
for a project that has not been downloaded yet. -/
def resolveProjectDir (s : MerginApi) (projectFullName : String)
    (transaction : TransactionStatus) : MerginApi × TransactionStatus :=
  let projectInfo := s.projectFromMerginName projectFullName
  if projectInfo.isValid then
    (s, { transaction with projectDir := projectInfo.projectDir })
  else
    let r := extractProjectName projectFullName ""
    -- project has not been downloaded yet - we need to create a directory for it
    let d := s.createUniqueProjectDirectory r.2.2
    (d.1, { transaction with projectDir := d.2, firstTimeDownload := true })

/-- The middle part of `MerginApi::startProjectUpdate`: the metadata, the
version, the diff, the download queue and the total size are stored in the
transaction. -/
def planProjectUpdate (s : MerginApi) (transaction : TransactionStatus) (data : String) :
    MerginApi × TransactionStatus :=
  let localFiles := s.getLocalProjectFiles (transaction.projectDir ++ "/")
  let serverProject := s.env.fromJson data
  let oldServerProject := s.fromCachedJson (transaction.projectDir ++ "/" ++ sMetadataFile)
  let diff := compareProjectFiles oldServerProject.files serverProject.files localFiles
  let st : MerginApi × List MerginFile × Int := (s, [], 0)
  let st := diff.remoteAdded.foldl (queueDownload serverProject) st
  let st := diff.remoteUpdated.foldl (queueDownload serverProject) st
  -- also download files which were changed both on the server and locally
  let st := diff.conflictRemoteUpdatedLocalUpdated.foldl (queueDownload serverProject) st
  -- also download files which were added both on the server and locally
  let st := diff.conflictRemoteAddedLocalAdded.foldl (queueDownload serverProject) st
  (st.1,
    { transaction with
        projectMetadata := data
        version := serverProject.version
        diff := diff
        totalSize := st.2.2
        files := st.2.1 })

/-- Model of `MerginApi::startProjectUpdate`: `resolveProjectDir`, then
`planProjectUpdate`, then the download of the first file or, when there is
nothing to download, the finalization. -/
def startProjectUpdate (s : MerginApi) (projectFullName data : String) : MerginApi :=
  let s := s.ref projectFullName
  let resolved := s.resolveProjectDir projectFullName (s.transaction projectFullName)
  let planned := resolved.1.planProjectUpdate resolved.2 data
  let s := planned.1.setTransaction projectFullName planned.2
  if !planned.2.files.isEmpty then
    let s := s.takeFirstAndDownload projectFullName
      ("v" ++ toString (s.env.fromJson data).version)
    s.emit Signal.pullFilesStarted
  else
    -- there's nothing to download so just finalize the update
    s.finalizeProjectUpdate projectFullName

/-! ### The upload pipeline -/

/-- Model of `MerginApi::prepareUploadChangesJSON`. -/
def prepareUploadChangesJSON (files : List MerginFile) : List FileJson :=
  files.map (fun file =>
    { path := file.path, checksum := file.checksum, size := file.size, mtime := file.mtime,
      chunks := file.chunks })

/-- Model of `MerginApi::uploadStart`. -/
def uploadStart (s : MerginApi) (projectFullName : String) (json : PushJson) : MerginApi :=
  let (s, ok) := s.validateAuthAndContinute
  if !ok ∨ s.mApiVersionStatus ≠ VersionStatus.OK then
    s
  else
    let s := s.ref projectFullName
    let (s, reply) := s.send (Request.uploadStart projectFullName json)
    s.setTransaction projectFullName
      { s.transaction projectFullName with replyUploadStart := some reply }

/-- One step of the loops of `uploadInfoReplyFinished` over `localAdded` and
`localUpdated`: the local record of the path gets fresh chunk ids. -/
def queueUpload (localFiles : List MerginFile) (st : MerginApi × List MerginFile)
    (filePath : String) : MerginApi × List MerginFile :=
  let merginFile := findFile filePath localFiles
  let (s, chunks) := st.1.generateChunkIds merginFile.size
  (s, st.2 ++ [{ merginFile with chunks := chunks }])

/-- The upload part of `MerginApi::uploadInfoReplyFinished`: the server
version is recorded in the registry, the diff, the upload queue and the total
size are stored in the transaction, and the body of the push request is
built. -/
def planProjectUpload (s : MerginApi) (transaction : TransactionStatus)
    (serverProject : MerginProjectMetadata) : MerginApi × TransactionStatus × PushJson :=
  let localFiles := s.getLocalProjectFiles (transaction.projectDir ++ "/")
  let oldServerProject := s.fromCachedJson (transaction.projectDir ++ "/" ++ sMetadataFile)
  let s := s.updateMerginServerVersion transaction.projectDir serverProject.version
  let diff := compareProjectFiles oldServerProject.files serverProject.files localFiles
  let added := diff.localAdded.foldl (queueUpload localFiles) (s, [])
  let updated := diff.localUpdated.foldl (queueUpload localFiles) (added.1, [])
  let addedMerginFiles := added.2
  let updatedMerginFiles := updated.2
  let deletedMerginFiles :=
    diff.localDeleted.map (fun filePath => findFile filePath serverProject.files)
  -- removed not in filesToUpload
  let filesToUpload := addedMerginFiles ++ updatedMerginFiles
  let totalSize := (filesToUpload.map MerginFile.size).sum
  (updated.1,
    { transaction with diff := diff, totalSize := totalSize, files := filesToUpload },
    { added := prepareUploadChangesJSON addedMerginFiles
      removed := prepareUploadChangesJSON deletedMerginFiles
      updated := prepareUploadChangesJSON updatedMerginFiles
      renamed := []
      version := "v" ++ toString serverProject.version })

/-- Model of `MerginApi::uploadInfoReplyFinished` for the reply `r` to the
project-info request of the upload of `projectFullName`. -/
def uploadInfoReplyFinished (s : MerginApi) (projectFullName : String) (r : NetworkReply) :
    MerginApi :=
  let s := s.ref projectFullName
  let transaction := s.transaction projectFullName
  if r.noError then
    let data := r.data
    let transaction := { transaction with replyUploadProjectInfo := none }
    let projectInfo := s.projectFromMerginName projectFullName
    let transaction := { transaction with projectDir := projectInfo.projectDir }
    let serverProject := s.env.fromJson data
    -- get the latest server version from our reply
    let projectInfo := { projectInfo with serverVersion := serverProject.version }
    -- are we on the most recent version of the project? if not, update first
    if projectInfo.isValid && projectInfo.localVersion != -1 &&
        decide (projectInfo.localVersion < projectInfo.serverVersion) then
      let transaction := { transaction with updateBeforeUpload := true }
      (s.setTransaction projectFullName transaction).startProjectUpdate projectFullName data
    else
      let planned := s.planProjectUpload transaction serverProject
      let s := planned.1.setTransaction projectFullName planned.2.1
      s.uploadStart projectFullName planned.2.2
  else
    let transaction := { transaction with replyUploadProjectInfo := none }
    (s.setTransaction projectFullName transaction).finishProjectSync projectFullName false

/-! ### Replies of the download pipeline -/

/-- Model of `MerginApi::extractServerErrorMsg`. -/
def extractServerErrorMsg (s : MerginApi) (data : String) : String :=
  match s.env.jsonDetail data with
  | .notObject => data
  | .string detail => detail
  | .object text => text
  | .other => "[can't parse server error]"

/-- Model of `MerginApi::saveFile` for a file that is not open, as
`handleOctetStream` passes it: the file is opened `WriteOnly` (the content is
replaced) when `overwrite` is set, and `Append` otherwise.  A failure to open
the file is not modelled; the file is closed at the latest when the `QFile` of
`handleOctetStream` goes out of scope. -/
def saveFile (s : MerginApi) (data path : String) (_closeFile overwrite : Bool) : MerginApi :=
  { s with fs := if overwrite then s.fs.write path data else s.fs.append path data }

/-- Model of `MerginApi::handleOctetStream`. -/
def handleOctetStream (s : MerginApi) (data projectDir filename : String)
    (closeFile overwrite : Bool) : MerginApi :=
  let activeFilePath := projectDir ++ "/" ++ filename
  let s := s.createPathIfNotExists activeFilePath
  s.saveFile data activeFilePath closeFile overwrite

/-- The flag `overwrite` that `downloadFileReplyFinished` computes from the
queue of the transaction. -/
def overwriteFlag (files : List MerginFile) : Bool :=
  match files with
  | [] => true  -- chunkNo == 0
  | file :: _ => decide (file.chunks.length ≤ 1)

/-- The flag `closeFile` that `downloadFileReplyFinished` computes from the
queue of the transaction and the number of the chunk. -/
def closeFileFlag (files : List MerginFile) (chunkNo : Int) : Bool :=
  match files with
  | [] => false
  | file :: _ => decide (chunkNo = (file.chunks.length : Int) - 1)

/-- The first part of the success branch of `downloadFileReplyFinished`: the
chunk is written below the temporary directory, the progress is counted and
signalled, and the handle is reset. -/
def storeChunk (s : MerginApi) (projectFullName filename : String) (chunkNo : Int)
    (data : String) : MerginApi :=
  let transaction := s.transaction projectFullName
  let tempFoler := s.getTempProjectDir projectFullName
  let s := s.createPathIfNotExists tempFoler
  let s := s.handleOctetStream data tempFoler filename
    (closeFileFlag transaction.files chunkNo) (overwriteFlag transaction.files)
  let transferedSize := transaction.transferedSize + (data.length : Int)
  let s := s.emit (Signal.syncProjectStatusChanged projectFullName
    { num := transferedSize, den := transaction.totalSize })
  s.setTransaction projectFullName
    { transaction with transferedSize := transferedSize, replyDownloadFile := none }

/-- The failure branch of `downloadFileReplyFinished`. -/
def failDownload (s : MerginApi) (projectFullName : String) (r : NetworkReply) : MerginApi :=
  let transaction := s.transaction projectFullName
  let serverMsg := s.extractServerErrorMsg r.data
  let serverMsg := if serverMsg.isEmpty then r.errorString else serverMsg
  let s := s.setTransaction projectFullName { transaction with replyDownloadFile := none }
  -- get rid of the temporary download dir where we may have left some downloaded files
  let fs := s.fs.removeRecursively (s.getTempProjectDir projectFullName)
  let fs := if transaction.firstTimeDownload then fs.removeRecursively transaction.projectDir
    else fs
  let s := { s with fs := fs }
  let s := s.finishProjectSync projectFullName false
  s.emit (Signal.networkErrorOccurred serverMsg "Mergin API error: downloadFile" false)

/-- Model of `MerginApi::downloadFileReplyFinished` for the reply `r` to the
request of chunk `chunkNo` of `filename` at `version` (the three are read from
the request of the reply). -/
def downloadFileReplyFinished (s : MerginApi) (projectFullName filename version : String)
    (chunkNo : Int) (r : NetworkReply) : MerginApi :=
  let s := s.ref projectFullName
  if r.noError then
    let s := s.storeChunk projectFullName filename chunkNo r.data
    -- Send another request afterwards
    s.continueDownloadFiles projectFullName version chunkNo
  else
    s.failDownload projectFullName r

/-- Model of `MerginApi::updateInfoReplyFinished` for the reply `r` to the
project-info request of the update of `projectFullName`. -/
def updateInfoReplyFinished (s : MerginApi) (projectFullName : String) (r : NetworkReply) :
    MerginApi :=
  let s := s.ref projectFullName
  let s := s.setTransaction projectFullName
    { s.transaction projectFullName with replyProjectInfo := none }
  if r.noError then
    s.startProjectUpdate projectFullName r.data
  else
    s.finishProjectSync projectFullName false

/-! ### Requests and replies of the upload pipeline -/

/-- Model of `QList::at` on the chunk ids.  An index out of range is excluded
by an assertion of Qt; the model gives the empty id. -/
def chunkAt (chunks : List String) (chunkNo : Int) : String :=
  if chunkNo < 0 then "" else chunks.getD chunkNo.toNat ""

/-- The bytes that `uploadFile` reads: `seek( chunkNo * UPLOAD_CHUNK_SIZE )` in
32-bit arithmetic (a negative position is refused and the file stays at its
start), then `read( UPLOAD_CHUNK_SIZE )`. -/
def chunkBytes (content : String) (chunkNo : Int) : String :=
  String.mk ((content.toList.drop (wrapInt32 (chunkNo * UPLOAD_CHUNK_SIZE)).toNat).take
    UPLOAD_CHUNK_SIZE.toNat)

/-- Model of `MerginApi::uploadFile`. -/
def uploadFile (s : MerginApi) (projectFullName transactionUUID : String) (file : MerginFile)
    (chunkNo : Int) : MerginApi :=
  let (s, ok) := s.validateAuthAndContinute
  if !ok ∨ s.mApiVersionStatus ≠ VersionStatus.OK then
    s
  else
    let s := s.ref projectFullName
    let chunkID := chunkAt file.chunks chunkNo
    let data :=
      match s.fs.read ((s.transaction projectFullName).projectDir ++ "/" ++ file.path) with
      | some content => chunkBytes content chunkNo
      | none => ""
    let (s, reply) := s.send (Request.uploadFile projectFullName transactionUUID chunkID data)
    s.setTransaction projectFullName
      { s.transaction projectFullName with replyUploadFile := some reply }

/-- Model of `MerginApi::uploadFinish`. -/
def uploadFinish (s : MerginApi) (projectFullName transactionUUID : String) : MerginApi :=
  let (s, ok) := s.validateAuthAndContinute
  if !ok ∨ s.mApiVersionStatus ≠ VersionStatus.OK then
    s
  else
    let s := s.ref projectFullName
    let (s, reply) := s.send (Request.uploadFinish projectFullName transactionUUID)
    s.setTransaction projectFullName
      { s.transaction projectFullName with replyUploadFinish := some reply }

/-- Model of `MerginApi::sendUploadCancelRequest`; the handle of the reply is
not kept in the transaction. -/
def sendUploadCancelRequest (s : MerginApi) (projectFullName transactionUUID : String) :
    MerginApi :=
  (s.send (Request.uploadCancel projectFullName transactionUUID)).1

/-- The branch of `uploadStartReplyFinished` for a queue with a first file:
the transaction id is read from the body, stored when the body is a JSON
object, and the first file is passed to `uploadFile` (from its chunk 0, the
default of the parameter `chunkNo`). -/
def startChunkUpload (s : MerginApi) (projectFullName data : String) (file : MerginFile) :
    MerginApi :=
  let doc := s.env.jsonTransaction data
  let transactionUUID := doc.getD ""
  let s :=
    match doc with
    | some uuid => s.setTransaction projectFullName
        { s.transaction projectFullName with transactionUUID := uuid }
    | none => s
  let s := s.uploadFile projectFullName transactionUUID file 0
  s.emit Signal.pushFilesStarted

/-- The end of a push: the body of the reply is the new metadata of the
project, and the sync is finished successfully (`uploadStartReplyFinished` with
an empty queue, `uploadFinishReplyFinished`). -/
def commitPush (s : MerginApi) (projectFullName data : String) : MerginApi :=
  let s := s.setTransaction projectFullName
    { s.transaction projectFullName with
        projectMetadata := data
        version := (s.env.fromJson data).version }
  s.finishProjectSync projectFullName true

/-- Model of `MerginApi::uploadStartReplyFinished` for the reply `r` to the
push request of `projectFullName`. -/
def uploadStartReplyFinished (s : MerginApi) (projectFullName : String) (r : NetworkReply) :
    MerginApi :=
  let s := s.ref projectFullName
  let s := s.setTransaction projectFullName
    { s.transaction projectFullName with replyUploadStart := none }
  if r.noError then
    match (s.transaction projectFullName).files with
    | file :: _ => s.startChunkUpload projectFullName r.data file
    | [] =>
      -- pushing only files to be removed: no upload of chunks, no request to "finish"
      s.commitPush projectFullName r.data
  else
    let serverMsg := s.extractServerErrorMsg r.data
    let showAsDialog := r.status == 400 && serverMsg == "You have reached a data limit"
    let s := s.emit
      (Signal.networkErrorOccurred serverMsg "Mergin API error: uploadStartReply" showAsDialog)
    s.finishProjectSync projectFullName false

/-- Model of `QList::indexOf` on the chunk ids: `-1` when the id is missing. -/
def chunkIndexOf (chunks : List String) (chunkID : String) : Int :=
  if chunks.indexOf chunkID < chunks.length then (chunks.indexOf chunkID : Int) else -1

/-- The success branch of `uploadFileReplyFinished` once the handle is reset,
for a queue whose first file is `currentFile`. -/
def continueUpload (s : MerginApi) (projectFullName transactionUUID chunkID : String)
    (currentFile : MerginFile) (rest : List MerginFile) : MerginApi :=
  let chunkNo := chunkIndexOf currentFile.chunks chunkID
  if chunkNo < (currentFile.chunks.length : Int) - 1 then
    s.uploadFile projectFullName transactionUUID currentFile (chunkNo + 1)
  else
    let transaction := s.transaction projectFullName
    let transferedSize := transaction.transferedSize + currentFile.size
    let s := s.emit (Signal.syncProjectStatusChanged projectFullName
      { num := transferedSize, den := transaction.totalSize })
    let s := s.setTransaction projectFullName
      { transaction with transferedSize := transferedSize, files := rest }
    match rest with
    | nextFile :: _ => s.uploadFile projectFullName transactionUUID nextFile 0
    | [] => s.uploadFinish projectFullName transactionUUID

/-- Model of `MerginApi::uploadFileReplyFinished` for the reply `r` to the
upload of the chunk `chunkID` in the transaction `transactionUUID` (both are
read from the URL of the request).  `files.first()` of an empty queue is
excluded by an assertion of Qt; the model leaves the state as it is then. -/
def uploadFileReplyFinished (s : MerginApi) (projectFullName transactionUUID chunkID : String)
    (r : NetworkReply) : MerginApi :=
  let s := s.ref projectFullName
  if r.noError then
    let s := s.setTransaction projectFullName
      { s.transaction projectFullName with replyUploadFile := none }
    match (s.transaction projectFullName).files with
    | currentFile :: rest => s.continueUpload projectFullName transactionUUID chunkID currentFile rest
    | [] => s
  else
    let serverMsg := s.extractServerErrorMsg r.data
    let s := s.emit (Signal.networkErrorOccurred serverMsg "Mergin API error: uploadFile" false)
    let s := s.setTransaction projectFullName
      { s.transaction projectFullName with replyUploadFile := none }
    s.finishProjectSync projectFullName false

/-- Model of `MerginApi::uploadFinishReplyFinished` for the reply `r` to the
finish request of `projectFullName`. -/
def uploadFinishReplyFinished (s : MerginApi) (projectFullName : String) (r : NetworkReply) :
    MerginApi :=
  let s := s.ref projectFullName
  let s := s.setTransaction projectFullName
    { s.transaction projectFullName with replyUploadFinish := none }
  if r.noError then
    s.commitPush projectFullName r.data
  else
    s.finishProjectSync projectFullName false

/-! ### Cancellation -/

/-- The request that was issued with a reply handle: the latest request of the
trace with that number. -/
def requestOf (s : MerginApi) (reply : Nat) : Option Request :=
  s.trace.reverse.findSome? (fun e =>
    match e with
    | .request id r => if id = reply then some r else none
    | _ => none)

/-- What a reply handler reads from a reply after `QNetworkReply::abort`: the
error `OperationCanceledError` and no body. -/
def abortedReply : NetworkReply :=
  { noError := false, errorString := "Operation canceled" }

/-- Model of `QNetworkReply::abort` on the reply with a handle: the abort is
recorded; the slot connected to `finished` runs next. -/
def abort (s : MerginApi) (reply : Nat) : MerginApi :=
  { s with trace := s.trace ++ [Event.abort reply] }

/-- The URL of a request of `downloadFile`:
`mApiRoot + QStringLiteral( "/v1/project/raw/%1?file=%2&version=%3" ).arg( projectFullName ).arg( filename ).arg( version )`. -/
def downloadUrl (s : MerginApi) (projectFullName filename version : String) : String :=
  s.mApiRoot ++
    argString (argString (argString "/v1/project/raw/%1?file=%2&version=%3" projectFullName)
      filename) version

/-- The URL of a request of `uploadFile`:
`mApiRoot + QStringLiteral( "/v1/project/push/chunk/%1/%2" ).arg( transactionUUID ).arg( chunkID )`. -/
def uploadFileUrl (s : MerginApi) (transactionUUID chunkID : String) : String :=
  s.mApiRoot ++ argString (argString "/v1/project/push/chunk/%1/%2" transactionUUID) chunkID

/-- The slot `downloadFileReplyFinished` for the reply with a handle.  The slot
reads the file name and the version back from the query of the URL of the
reply, and the chunk number from an attribute of the request. -/
def deliverDownload (s : MerginApi) (projectFullName : String) (reply : Nat) (r : NetworkReply) :
    MerginApi :=
  match s.requestOf reply with
  | some (.downloadFile requested filename version chunkNo _) =>
    let url := s.downloadUrl requested filename version
    s.downloadFileReplyFinished projectFullName (s.env.queryItemValue url "file")
      (s.env.queryItemValue url "version") chunkNo r
  | _ => s.downloadFileReplyFinished projectFullName "" "" 0 r

/-- The slot `uploadFileReplyFinished` for the reply with a handle.  The slot
reads the transaction id and the chunk id back from the URL of the reply: the
last two of the parts between its `/`. -/
def deliverUploadFile (s : MerginApi) (projectFullName : String) (reply : Nat) (r : NetworkReply) :
    MerginApi :=
  match s.requestOf reply with
  | some (.uploadFile _ transactionUUID chunkID _) =>
    let params := splitSlash (s.env.urlToString (s.uploadFileUrl transactionUUID chunkID))
    s.uploadFileReplyFinished projectFullName (params.getD (params.length - 2) "")
      (params.getD (params.length - 1) "") r
  | _ => s.uploadFileReplyFinished projectFullName "" "" r

/-- The chain of cases of `uploadCancel` on the handles of a transaction.  An
abort runs the slot of the reply at once ("will trigger … slot and emit sync
finished"); the last case is excluded by an assertion of the source, the model
does nothing there. -/
def cancelUpload (s : MerginApi) (projectFullName : String) (transaction : TransactionStatus) :
    MerginApi :=
  match transaction.replyUploadProjectInfo with
  | some reply => (s.abort reply).uploadInfoReplyFinished projectFullName abortedReply
  | none =>
  match transaction.replyUploadStart with
  | some reply => (s.abort reply).uploadStartReplyFinished projectFullName abortedReply
  | none =>
  match transaction.replyUploadFile with
  | some reply =>
    -- copy transaction uuid as the transaction object will be gone after abort
    let transactionUUID := transaction.transactionUUID
    let s := (s.abort reply).deliverUploadFile projectFullName reply abortedReply
    -- also need to cancel the transaction
    s.sendUploadCancelRequest projectFullName transactionUUID
  | none =>
  match transaction.replyUploadFinish with
  | some reply =>
    let transactionUUID := transaction.transactionUUID
    let s := (s.abort reply).uploadFinishReplyFinished projectFullName abortedReply
    s.sendUploadCancelRequest projectFullName transactionUUID
  | none => s

/-- Model of `MerginApi::uploadCancel`. -/
def uploadCancel (s : MerginApi) (projectFullName : String) : MerginApi :=
  let (s, ok) := s.validateAuthAndContinute
  if !ok ∨ s.mApiVersionStatus ≠ VersionStatus.OK then
    s
  else if !s.mTransactionalStatus.contains projectFullName then
    s
  else
    s.cancelUpload projectFullName (s.transaction projectFullName)

/-- Model of `MerginApi::updateCancel`.  The last case is excluded by an
assertion of the source, the model does nothing there. -/
def updateCancel (s : MerginApi) (projectFullName : String) : MerginApi :=
  if !s.mTransactionalStatus.contains projectFullName then
    s
  else
    let transaction := s.transaction projectFullName
    match transaction.replyProjectInfo with
    | some reply =>
      -- we're still fetching project info
      (s.abort reply).updateInfoReplyFinished projectFullName abortedReply
    | none =>
    match transaction.replyDownloadFile with
    | some reply =>
      -- we're already downloading some files
      (s.abort reply).deliverDownload projectFullName reply abortedReply
    | none => s

end MerginApi

/-! ## Predicates and test data for the engine -/

/-- Whether an event is the signal `syncProjectFinished`. -/
def Event.isSyncProjectFinished : Event → Bool
  | .signal (.syncProjectFinished _ _ _) => true
  | _ => false

/-- The parts of the state that no request, signal or store operation touches:
the file system, the registry of local projects and the environment. -/
def MerginApi.SameWorld (s s' : MerginApi) : Prop :=
  s'.fs = s.fs ∧ s'.mLocalProjects = s.mLocalProjects ∧ s'.env = s.env ∧
    s'.mDataDir = s.mDataDir

/-- The gate of every request passes without a new login: credentials are
present, the token is not empty and not expired, and the API version is
accepted. -/
def MerginApi.gateOpen (s : MerginApi) : Prop :=
  s.hasAuthData = true ∧ s.mAuthToken.isEmpty = false ∧ ¬ s.mTokenExpiration < s.now ∧
    s.mApiVersionStatus = VersionStatus.OK

/-- The parts of a list of characters between the separators `sep`; `cur` is
the part being read, in reverse. -/
def splitChars (sep : Char) : List Char → List Char → List (List Char)
  | [], cur => [cur.reverse]
  | c :: cs, cur =>
    if c = sep then cur.reverse :: splitChars sep cs [] else splitChars sep cs (c :: cur)

/-- A reading of the query of a URL for the examples, good for URLs of plain
characters: the text after the first `?` is cut at every `&`, and the value of
the first item `key=value` with the given key is returned. -/
def sampleQueryItemValue (url key : String) : String :=
  let query := (url.toList.dropWhile (fun c => c != '?')).drop 1
  match (splitChars '&' query []).find? (fun item => startsWithChars (key.toList ++ ['=']) item) with
  | some item => String.mk (item.drop (key.length + 1))
  | none => ""

/-- A server for the examples: the project-info replies `v5`, `v6` and `v3`
parse to metadata of versions 5, 6 and 3; logins are refused; the body
`transaction T1` is a JSON object with the transaction id `T1`, the three
project-info bodies are JSON objects without one, and no body has a `detail`. -/
def sampleEnv : Env :=
  { fromJson := fun data =>
      if data = "v6" then
        { version := 6
          files := [mkFile "a.txt" "A2", { path := "b.bin", checksum := "B", size := 5 }] }
      else if data = "v5" then { version := 5, files := [mkFile "a.txt" "A"] }
      else if data = "v3" then { version := 3, files := [mkFile "a.txt" "A"] }
      else {}
    sha1 := fun content => "sha:" ++ content
    createUuid := sampleUuid
    authReply := fun _ => AuthReply.error 401 "refused"
    jsonTransaction := fun data =>
      if data = "transaction T1" then some "T1"
      else if data = "v6" ∨ data = "v5" ∨ data = "v3" then some ""
      else none
    jsonDetail := fun _ => JsonDetail.notObject
    clientVersion := { MERGIN_API_VERSION_MAJOR := 2019, MERGIN_API_VERSION_MINOR := 4 }
    lastModified := fun _ => 0
    queryItemValue := sampleQueryItemValue
    urlToString := fun url => url }

/-- An engine for the examples: logged in, API accepted, one registered
project `ns/proj` in `/data/proj` at the given local version, with one local
file and the baseline of version 5. -/
def sampleApi (localVersion : Int) : MerginApi :=
  { env := sampleEnv
    mDataDir := "/data"
    mUsername := "user"
    mPassword := "secret"
    mAuthToken := "token"
    mTokenExpiration := 100
    now := 50
    mApiVersionStatus := VersionStatus.OK
    mLocalProjects :=
      [{ projectDir := "/data/proj", projectNamespace := "ns", projectName := "proj",
         localVersion := localVersion, serverVersion := 5 }]
    fs :=
      { files := ⟨[("/data/proj/a.txt", "hello"), ("/data/proj/.mergin/mergin.json", "v5")]⟩
        dirs := ["/data", "/data/proj", "/data/proj/.mergin"] } }

/-- The example engine with a transaction for `ns/proj` in the store. -/
def sampleApiWith (localVersion : Int) (t : TransactionStatus) : MerginApi :=
  (sampleApi localVersion).setTransaction "ns/proj" t

/-- The example engine after a failed update that ran before an upload: the
transaction of `ns/proj` has `updateBeforeUpload` set and no request handle. -/
def sampleUpdateBeforeUpload : MerginApi :=
  sampleApiWith 5 { updateBeforeUpload := true, projectDir := "/data/proj" }

/-- The example engine with an expired token: the clock is at 50, the token
expired at 10, and the server refuses logins. -/
def sampleExpired : MerginApi :=
  { sampleApi 5 with mTokenExpiration := 10 }

/-- The example engine without credentials and without a transaction. -/
def sampleLoggedOut : MerginApi :=
  { sampleApi 5 with mUsername := "", mPassword := "" }

/-- The example engine while it downloads `b.bin`, a file of two chunks: the
request of chunk 0 is outstanding, and the temporary directory of the project
holds an older `b.bin`. -/
def sampleDownloading : MerginApi :=
  { sampleApiWith 5
      { replyDownloadFile := some 0, projectDir := "/data/proj", totalSize := 6
        files := [{ path := "b.bin", size := 6, chunks := ["c0", "c1"] }] } with
    nextReply := 1
    fs :=
      { files := ⟨[("/data/.temp/ns/proj/b.bin", "OLD"), ("/data/proj/a.txt", "hello")]⟩
        dirs := ["/data", "/data/proj", "/data/.temp", "/data/.temp/ns", "/data/.temp/ns/proj"] } }

/-- The example engine waiting for the reply to the upload of the chunk `c0`
in the transaction `T1`, issued as request 0. -/
def sampleUploadingChunk : MerginApi :=
  { sampleApiWith 5
      { replyUploadFile := some 0, projectDir := "/data/proj", totalSize := 5
        transactionUUID := "T1"
        files := [{ path := "a.txt", size := 5, chunks := ["c0"] }] } with
    nextReply := 1
    trace := [Event.request 0 (Request.uploadFile "ns/proj" "T1" "c0" "hello")] }

/-- The example engine as in `sampleUploadingChunk`, with a token that expired
at 10 (the clock is at 50); the server refuses logins. -/
def sampleExpiredUploading : MerginApi :=
  { sampleUploadingChunk with mTokenExpiration := 10 }

/-! ## Renaming of checksums (used to state how `compareProjectFiles` reads them) -/

/-- A file record with its checksum renamed by `g`. -/
def MerginFile.mapChecksum (g : String → String) (f : MerginFile) : MerginFile :=
  { f with checksum := g f.checksum }

/-- A hash with every value replaced by its image under `g`. -/
def QHash.mapValues {β : Type} (g : β → β) (m : QHash β) : QHash β :=
  ⟨m.entries.map (fun e => (e.1, g e.2))⟩

/-- The state of the first loop of `compareProjectFiles` with the checksums of
both maps renamed by `g`. -/
def CompareState.mapChecksum (g : String → String) (st : CompareState) : CompareState :=
  { diff := st.diff
    oldServerFilesMap := st.oldServerFilesMap.mapValues (MerginFile.mapChecksum g)
    newServerFilesMap := st.newServerFilesMap.mapValues (MerginFile.mapChecksum g) }

/-- The checksums of the records of a list. -/
def checksums (l : List MerginFile) : List String :=
  l.map MerginFile.checksum

/-- The lower-case form of a checksum in hexadecimal digits. -/
def lowerHex (checksum : String) : String :=
  String.mk (checksum.toList.map Char.toLower)

/-! ## Values of `uploadInfoReplyFinished` that the properties of the push request speak about -/

/-- The local variable `localFiles` of `uploadInfoReplyFinished`: the files of
the directory of the registered project. -/
def MerginApi.uploadLocalFiles (s : MerginApi) (projectFullName : String) : List MerginFile :=
  s.getLocalProjectFiles ((s.projectFromMerginName projectFullName).projectDir ++ "/")

/-- The local variable `diff` of `uploadInfoReplyFinished` for a reply with the
body `data`: the baseline cache against the files of the reply and the local
files. -/
def MerginApi.uploadDiff (s : MerginApi) (projectFullName data : String) : ProjectDiff :=
  compareProjectFiles
    (s.fromCachedJson ((s.projectFromMerginName projectFullName).projectDir ++ "/" ++
      MerginApi.sMetadataFile)).files
    (s.env.fromJson data).files (s.uploadLocalFiles projectFullName)

/-- What `uploadInfoReplyFinished` plans for a reply with the body `data` when
it does not divert into an update: the state after the plan, the transaction
with the diff, the queue and the total size, and the body of the push request. -/
def MerginApi.uploadPlan (s : MerginApi) (projectFullName data : String) :
    MerginApi × TransactionStatus × PushJson :=
  (s.ref projectFullName).planProjectUpload
    { s.transaction projectFullName with
        replyUploadProjectInfo := none
        projectDir := (s.projectFromMerginName projectFullName).projectDir }
    (s.env.fromJson data)

/-- The state in which `uploadInfoReplyFinished` calls `uploadStart`: the plan
is stored in the transaction. -/
def MerginApi.uploadPlanned (s : MerginApi) (projectFullName data : String) : MerginApi :=
  (s.uploadPlan projectFullName data).1.setTransaction projectFullName
    (s.uploadPlan projectFullName data).2.1

/-! ## Predicates on the events of a run -/

/-- The events of `s'` are those of `s`, followed by events on which `q` is
false. -/
def MerginApi.Quiet (q : Event → Bool) (s s' : MerginApi) : Prop :=
  ∃ l, s'.trace = s.trace ++ l ∧ ∀ e ∈ l, q e = false

/-- A kind of events that is neither a signal, nor a login request, nor a
project-info request. -/
def Event.Foreground (q : Event → Bool) : Prop :=
  (∀ sig, q (Event.signal sig) = false) ∧
  (∀ reply login password, q (Event.request reply (Request.authorize login password)) = false) ∧
  (∀ reply p token, q (Event.request reply (Request.projectInfo p token)) = false)

/-- Whether an event is the issue of a request to cancel a push. -/
def Event.isUploadCancel : Event → Bool
  | .request _ (.uploadCancel _ _) => true
  | _ => false

/-- Whether an event is the abort of a request. -/
def Event.isAbort : Event → Bool
  | .abort _ => true
  | _ => false

/-- Whether an event is the issue of the download of a chunk. -/
def Event.isDownloadFile : Event → Bool
  | .request _ (.downloadFile _ _ _ _ _) => true
  | _ => false

/-! ## Runs of the engine -/

/-- The number of request handles of a transaction that are set. -/
def TransactionStatus.handles (t : TransactionStatus) : Nat :=
  t.replyProjectInfo.toList.length + t.replyDownloadFile.toList.length +
    t.replyUploadProjectInfo.toList.length + t.replyUploadStart.toList.length +
    t.replyUploadFile.toList.length + t.replyUploadFinish.toList.length

/-- Every transaction of the store has at most one request handle set. -/
def MerginApi.StoreOK (s : MerginApi) : Prop :=
  ∀ e ∈ s.mTransactionalStatus.entries, e.2.handles ≤ 1

/-- The project of a request whose reply is connected to a slot of a
transaction (project info, chunk download, push start, chunk upload, push
finish); `none` for a login and for the request to cancel a push, whose slots
do not look at the store. -/
def Request.project : Request → Option String
  | .projectInfo projectFullName _ => some projectFullName
  | .downloadFile projectFullName _ _ _ _ => some projectFullName
  | .uploadStart projectFullName _ => some projectFullName
  | .uploadFile projectFullName _ _ _ => some projectFullName
  | .uploadFinish projectFullName _ => some projectFullName
  | _ => none

/-- Whether a transaction keeps `reply` as the handle of a request of the kind
of `r`.  A project-info request is kept in `replyProjectInfo` by an update and
in `replyUploadProjectInfo` by an upload. -/
def TransactionStatus.holds (t : TransactionStatus) (r : Request) (reply : Nat) : Bool :=
  match r with
  | .projectInfo _ _ =>
    t.replyProjectInfo == some reply || t.replyUploadProjectInfo == some reply
  | .downloadFile _ _ _ _ _ => t.replyDownloadFile == some reply
  | .uploadStart _ _ => t.replyUploadStart == some reply
  | .uploadFile _ _ _ _ => t.replyUploadFile == some reply
  | .uploadFinish _ _ => t.replyUploadFinish == some reply
  | _ => false

/-- A full project name that `extractProjectName` and `getFullProjectName` give
back: `finishProjectSync` starts the upload after an update under the name
that these two make of the name of the transaction. -/
def splitsBack (projectFullName : String) : Bool :=
  MerginApi.getFullProjectName (MerginApi.extractProjectName projectFullName "").2.1
    (MerginApi.extractProjectName projectFullName "").2.2 == projectFullName

/-- Every request of a transaction that was issued is kept as a handle in the
transaction of its project, unless it was aborted or its reply has arrived. -/
def MerginApi.Tracked (s : MerginApi) : Prop :=
  ∀ reply r p, Event.request reply r ∈ s.trace → r.project = some p →
    reply ∈ s.finished ∨ Event.abort reply ∈ s.trace ∨
      (s.transaction p).holds r reply = true

/-- A project with a request handle in its transaction has a name that
`finishProjectSync` can split back. -/
def MerginApi.NamesOK (s : MerginApi) : Prop :=
  ∀ p, (s.transaction p).handles ≠ 0 → splitsBack p = true

/-- What holds in every state of a run that respects the assertions of the
source: a transaction has at most one handle set, every outstanding request is
kept in the transaction of its project, and the names of the projects can be
split back. -/
structure MerginApi.Inv (s : MerginApi) : Prop where
  store : s.StoreOK
  tracked : s.Tracked
  names : s.NamesOK

/-- What happens to the engine from outside: a call of one of its four sync
operations, the arrival of a reply at the slot connected to it, or anything
else that leaves the store of transactions alone (a login, a logout, the
clock, the user editing files), given by the state it leads to.  The reply to
a chunk request is named by its handle, as its slot reads the URL of the
request. -/
inductive Action where
  | updateProject (projectNamespace projectName : String)
  | uploadProject (projectNamespace projectName : String)
  | updateCancel (projectFullName : String)
  | uploadCancel (projectFullName : String)
  | updateInfoReply (projectFullName : String) (r : NetworkReply)
  | downloadFileReply (projectFullName : String) (reply : Nat) (r : NetworkReply)
  | uploadInfoReply (projectFullName : String) (r : NetworkReply)
  | uploadStartReply (projectFullName : String) (r : NetworkReply)
  | uploadFileReply (projectFullName : String) (reply : Nat) (r : NetworkReply)
  | uploadFinishReply (projectFullName : String) (r : NetworkReply)
  | outside (world : MerginApi)

/-- The reply with the given handle has arrived. -/
def MerginApi.finish (s : MerginApi) (reply : Option Nat) : MerginApi :=
  match reply with
  | some handle => { s with finished := handle :: s.finished }
  | none => s

/-- One step of the engine.  The arrival of a reply runs its slot, whatever the
store holds: the assertions of the source (`r == transaction.reply…` at the
head of a slot, `!mTransactionalStatus.contains( … )` in `updateProject` and
`uploadProject`) do nothing in a release build.  A step from outside keeps the
store and the record of the requests. -/
def MerginApi.step (s : MerginApi) : Action → MerginApi
  | .updateProject projectNamespace projectName => s.updateProject projectNamespace projectName
  | .uploadProject projectNamespace projectName => s.uploadProject projectNamespace projectName
  | .updateCancel projectFullName => s.updateCancel projectFullName
  | .uploadCancel projectFullName => s.uploadCancel projectFullName
  | .updateInfoReply projectFullName r =>
    (s.finish (s.transaction projectFullName).replyProjectInfo).updateInfoReplyFinished
      projectFullName r
  | .downloadFileReply projectFullName reply r =>
    (s.finish (some reply)).deliverDownload projectFullName reply r
  | .uploadInfoReply projectFullName r =>
    (s.finish (s.transaction projectFullName).replyUploadProjectInfo).uploadInfoReplyFinished
      projectFullName r
  | .uploadStartReply projectFullName r =>
    (s.finish (s.transaction projectFullName).replyUploadStart).uploadStartReplyFinished
      projectFullName r
  | .uploadFileReply projectFullName reply r =>
    (s.finish (some reply)).deliverUploadFile projectFullName reply r
  | .uploadFinishReply projectFullName r =>
    (s.finish (s.transaction projectFullName).replyUploadFinish).uploadFinishReplyFinished
      projectFullName r
  | .outside world =>
    { world with
      mTransactionalStatus := s.mTransactionalStatus
      trace := s.trace
      nextReply := s.nextReply
      finished := s.finished }

/-- The state after a sequence of steps. -/
def MerginApi.run (s : MerginApi) (actions : List Action) : MerginApi :=
  actions.foldl MerginApi.step s

/-- Whether a step respects the assertions of the source: `updateProject` and
`uploadProject` are called for a project that has no transaction in the store
(and whose name `finishProjectSync` can split back), and a reply arrives at
the slot of the transaction that keeps its handle. -/
def MerginApi.allows (s : MerginApi) : Action → Bool
  | .updateProject projectNamespace projectName =>
    !s.mTransactionalStatus.contains (MerginApi.getFullProjectName projectNamespace projectName) &&
      splitsBack (MerginApi.getFullProjectName projectNamespace projectName)
  | .uploadProject projectNamespace projectName =>
    !s.mTransactionalStatus.contains (MerginApi.getFullProjectName projectNamespace projectName) &&
      splitsBack (MerginApi.getFullProjectName projectNamespace projectName)
  | .updateCancel _ => true
  | .uploadCancel _ => true
  | .updateInfoReply projectFullName _ =>
    (s.transaction projectFullName).replyProjectInfo.isSome
  | .downloadFileReply projectFullName reply _ =>
    (s.transaction projectFullName).replyDownloadFile == some reply
  | .uploadInfoReply projectFullName _ =>
    (s.transaction projectFullName).replyUploadProjectInfo.isSome
  | .uploadStartReply projectFullName _ =>
    (s.transaction projectFullName).replyUploadStart.isSome
  | .uploadFileReply projectFullName reply _ =>
    (s.transaction projectFullName).replyUploadFile == some reply
  | .uploadFinishReply projectFullName _ =>
    (s.transaction projectFullName).replyUploadFinish.isSome
  | .outside _ => true

/-- Whether every step of a run respects the assertions of the source in the
state in which it is taken. -/
def MerginApi.allowsRun (s : MerginApi) : List Action → Bool
  | [] => true
  | a :: rest => s.allows a && (s.step a).allowsRun rest

/-! ## Example states of the update pipeline -/

/-- The example engine before the finalization of an update of `ns/proj` in
which `a.txt` was changed locally and on the server: the download (`remote`) is
in the temporary directory, the local file holds `hello`. -/
def sampleConflict : MerginApi :=
  { sampleApiWith 5
      { projectDir := "/data/proj", projectMetadata := "v6", version := 6
        diff := { conflictRemoteUpdatedLocalUpdated := ["a.txt"] } } with
    fs :=
      { files := ⟨[("/data/proj/a.txt", "hello"), ("/data/proj/.mergin/mergin.json", "v5"),
          ("/data/.temp/ns/proj/a.txt", "remote")]⟩
        dirs := ["/data", "/data/proj", "/data/proj/.mergin", "/data/.temp", "/data/.temp/ns",
          "/data/.temp/ns/proj"] } }

/-- The example engine before the finalization as in `sampleConflict`, with a
file `a.txt_conflict` that an earlier conflict has left. -/
def sampleConflictAgain : MerginApi :=
  { sampleConflict with
    fs := sampleConflict.fs.write "/data/proj/a.txt_conflict" "older" }

/-- The example engine waiting for the project-info reply of an update, with a
file in the temporary directory of the project that an earlier run has left. -/
def sampleStale : MerginApi :=
  { sampleApiWith 5 { replyProjectInfo := some 0 } with
    nextReply := 1
    fs :=
      { files := ⟨[("/data/proj/a.txt", "hello"), ("/data/proj/.mergin/mergin.json", "v5"),
          ("/data/.temp/ns/proj/b.bin", "OLD")]⟩
        dirs := ["/data", "/data/proj", "/data/proj/.mergin", "/data/.temp", "/data/.temp/ns",
          "/data/.temp/ns/proj"] } }

/-- The example engine with a download queue for `ns/proj` that holds one empty
file, `z.txt`, while the temporary directory of the project still holds a
`z.txt` with content that an earlier run has left. -/
def sampleStaleQueue : MerginApi :=
  { sampleApiWith 5
      { projectDir := "/data/proj", projectMetadata := "v6", version := 6, totalSize := 0
        files := [{ path := "z.txt", size := 0 }] } with
    fs :=
      { files := ⟨[("/data/proj/a.txt", "hello"), ("/data/proj/.mergin/mergin.json", "v5"),
          ("/data/.temp/ns/proj/z.txt", "OLD")]⟩
        dirs := ["/data", "/data/proj", "/data/proj/.mergin", "/data/.temp", "/data/.temp/ns",
          "/data/.temp/ns/proj"] } }

/-- The example engine while it downloads a file whose path, as the server
lists it, leads out of the temporary directory: `../../../proj/a.txt`.  The
request of its only chunk is outstanding, `b.bin` is next in the queue, and the
temporary directory of the project exists. -/
def sampleTraversal : MerginApi :=
  { sampleApiWith 5
      { replyDownloadFile := some 0, projectDir := "/data/proj", totalSize := 6
        files := [{ path := "../../../proj/a.txt", size := 3, chunks := ["c0"] },
          { path := "b.bin", size := 3, chunks := ["c1"] }] } with
    nextReply := 1
    trace :=
      [Event.request 0
        (Request.downloadFile "ns/proj" "../../../proj/a.txt" "v6" 0 "bytes=0-10485759")]
    fs :=
      { files := ⟨[("/data/proj/a.txt", "hello"), ("/data/proj/.mergin/mergin.json", "v5")]⟩
        dirs := ["/data", "/data/proj", "/data/proj/.mergin", "/data/.temp", "/data/.temp/ns",
          "/data/.temp/ns/proj"] } }

/-! ## Test data for the indexer and the upload queue -/

/-- The example engine with a second local file whose path repeats the path of
the project directory: `/data/proj/sub/data/proj/x.txt`. -/
def sampleNested : MerginApi :=
  { sampleApi 5 with
    fs :=
      { files := ⟨[("/data/proj/a.txt", "hello"), ("/data/proj/.mergin/mergin.json", "v5"),
          ("/data/proj/sub/data/proj/x.txt", "x")]⟩
        dirs := ["/data", "/data/proj", "/data/proj/.mergin", "/data/proj/sub",
          "/data/proj/sub/data", "/data/proj/sub/data/proj"] } }

/-- The example engine with two local files besides `a.txt`: `subx.txt`, and
`sub/data/proj/x.txt`, whose path repeats the path of the project directory. -/
def sampleTwoNames : MerginApi :=
  { sampleApi 5 with
    fs :=
      { files := ⟨[("/data/proj/a.txt", "hello"), ("/data/proj/.mergin/mergin.json", "v5"),
          ("/data/proj/subx.txt", "one"), ("/data/proj/sub/data/proj/x.txt", "two")]⟩
        dirs := ["/data", "/data/proj", "/data/proj/.mergin", "/data/proj/sub",
          "/data/proj/sub/data", "/data/proj/sub/data/proj"] } }

/-- The example engine with a new local file that is empty, `e.txt`. -/
def sampleEmptyAdded : MerginApi :=
  { sampleApi 5 with
    fs :=
      { files := ⟨[("/data/proj/a.txt", "hello"), ("/data/proj/e.txt", ""),
          ("/data/proj/.mergin/mergin.json", "v5")]⟩
        dirs := ["/data", "/data/proj", "/data/proj/.mergin"] } }

/-- The example engine waiting for the project-info reply of an upload, with a
new local file `n.txt` besides the changed `a.txt`; the file system reports
the modification times 1700 for `n.txt` and 1600 for every other path, and the
token has expired. -/
def sampleDatedUpload : MerginApi :=
  { sampleApiWith 5 { replyUploadProjectInfo := some 0 } with
    env := { sampleEnv with
      lastModified := fun path => if path = "/data/proj/n.txt" then 1700 else 1600 }
    mTokenExpiration := 10
    nextReply := 1
    fs :=
      { files := ⟨[("/data/proj/a.txt", "hello"), ("/data/proj/n.txt", "new!"),
          ("/data/proj/.mergin/mergin.json", "v5")]⟩
        dirs := ["/data", "/data/proj", "/data/proj/.mergin"] } }

/-! ## Values of `startProjectUpdate` that the properties of the download queue speak about -/

namespace QHash

variable {β : Type}

theorem contains_remove (m : QHash β) (k k2 : String) :
    (m.remove k).contains k2 = (m.contains k2 && (k2 != k)) := by
  obtain ⟨l⟩ := m
  rw [Bool.eq_iff_iff]
  simp only [remove, contains, List.any_eq_true, List.mem_filter, Bool.and_eq_true, bne_iff_ne,
    beq_iff_eq, ne_eq]
  constructor
  · rintro ⟨e, ⟨he, hk⟩, rfl⟩
    exact ⟨⟨e, he, rfl⟩, hk⟩
  · rintro ⟨⟨e, he, rfl⟩, hk⟩
    exact ⟨e, ⟨he, hk⟩, rfl⟩

theorem find?_remove_ne (m : QHash β) {k k2 : String} (h : k2 ≠ k) :
    (m.remove k).find? k2 = m.find? k2 := by
  obtain ⟨l⟩ := m
  simp only [remove, find?]
  induction l with
  | nil => simp
  | cons e l ih =>
    by_cases h1 : e.1 = k
    · have : e.1 ≠ k2 := fun h3 => h (h3 ▸ h1)
      simp_all [List.filter_cons, List.find?_cons]
    · by_cases h2 : e.1 = k2
      · simp_all [List.filter_cons, List.find?_cons]
      · simp_all [List.filter_cons, List.find?_cons]

theorem value_remove_ne [Inhabited β] (m : QHash β) {k k2 : String} (h : k2 ≠ k) :
    (m.remove k).value k2 = m.value k2 := by
  simp [value, find?_remove_ne m h]

theorem contains_eq_isSome (m : QHash β) (k : String) :
    m.contains k = (m.find? k).isSome := by
  obtain ⟨l⟩ := m
  simp only [contains, find?]
  induction l with
  | nil => simp
  | cons e l ih =>
    by_cases h : e.1 = k
    · simp [List.find?_cons, h]
    · simp [List.find?_cons, h, ih]

theorem remove_entries_of_not_contains (m : QHash β) (k : String) (h : m.contains k = false) :
    m.remove k = m := by
  obtain ⟨l⟩ := m
  simp only [remove, QHash.mk.injEq, List.filter_eq_self]
  intro e he
  simp only [contains, List.any_eq_false, beq_iff_eq] at h
  simpa using h e he

theorem mem_remove_entries (m : QHash β) (k : String) (e : String × β) :
    e ∈ (m.remove k).entries ↔ e ∈ m.entries ∧ e.1 ≠ k := by
  simp [remove, List.mem_filter]

theorem keys_remove_nodup (m : QHash β) (k : String) (h : m.keys.Nodup) :
    (m.remove k).keys.Nodup := by
  simp only [keys, remove] at *
  exact (List.Sublist.map _ (List.filter_sublist _)).nodup h

theorem find?_insert (m : QHash β) (k k2 : String) (v : β) :
    (m.insert k v).find? k2 = if k = k2 then some v else m.find? k2 := by
  by_cases h : k = k2
  · simp [insert, find?, h]
  · have h2 : k2 ≠ k := fun h3 => h h3.symm
    have := find?_remove_ne m h2
    simp only [find?] at this
    simp [insert, find?, h, List.find?_cons, this]

theorem find?_entry_of_nodup (m : QHash β) (h : m.keys.Nodup) (e : String × β)
    (he : e ∈ m.entries) : m.find? e.1 = some e.2 := by
  obtain ⟨l⟩ := m
  simp only [keys, find?] at *
  induction l with
  | nil => simp at he
  | cons a l ih =>
    simp only [List.map_cons, List.nodup_cons] at h
    rcases List.mem_cons.mp he with rfl | he2
    · simp
    · have hne : a.1 ≠ e.1 := by
        intro h3
        exact h.1 (h3 ▸ List.mem_map_of_mem Prod.fst he2)
      simp [List.find?_cons, hne, ih h.2 he2]

theorem mem_entries_of_find? (m : QHash β) (k : String) (v : β) (h : m.find? k = some v) :
    (k, v) ∈ m.entries := by
  obtain ⟨l⟩ := m
  simp only [find?] at h
  cases he : l.find? (fun e => e.1 == k) with
  | none => simp [he] at h
  | some e =>
    simp only [he, Option.map_some', Option.some.injEq] at h
    have h1 := List.find?_some he
    have h2 := List.mem_of_find?_eq_some he
    simp only [beq_iff_eq] at h1
    subst h1
    subst h
    exact h2

theorem find?_removeAll_of_not_mem (ks : List String) (m : QHash β) (k : String)
    (h : k ∉ ks) : (m.removeAll ks).find? k = m.find? k := by
  induction ks generalizing m with
  | nil => rfl
  | cons a ks ih =>
    simp only [List.mem_cons, not_or] at h
    simp only [removeAll, List.foldl_cons] at *
    rw [ih _ h.2, find?_remove_ne m h.1]

theorem mem_removeAll_entries (ks : List String) (m : QHash β) (e : String × β) :
    e ∈ (m.removeAll ks).entries ↔ e ∈ m.entries ∧ e.1 ∉ ks := by
  induction ks generalizing m with
  | nil => simp [removeAll]
  | cons a ks ih =>
    simp only [removeAll, List.foldl_cons] at *
    rw [ih, mem_remove_entries]
    simp only [List.mem_cons, not_or]
    tauto

theorem keys_removeAll_nodup (ks : List String) (m : QHash β) (h : m.keys.Nodup) :
    (m.removeAll ks).keys.Nodup := by
  induction ks generalizing m with
  | nil => exact h
  | cons a ks ih =>
    simp only [removeAll, List.foldl_cons] at *
    exact ih _ (keys_remove_nodup m a h)

end QHash

/-! ## Facts about the differ -/

theorem compareLocalFile_mem (st : CompareState) (f : MerginFile) (c : Category) (p : String) :
    p ∈ (compareLocalFile st f).diff.get c ↔
      p ∈ st.diff.get c ∨ (p = f.path ∧ LocalCond st.oldServerFilesMap st.newServerFilesMap f c) := by
  cases ho : st.oldServerFilesMap.contains f.path <;>
  cases hn : st.newServerFilesMap.contains f.path <;>
  by_cases h1 : (st.oldServerFilesMap.value f.path).checksum = f.checksum <;>
  by_cases h2 : (st.newServerFilesMap.value f.path).checksum = f.checksum <;>
  by_cases h3 : (st.oldServerFilesMap.value f.path).checksum =
      (st.newServerFilesMap.value f.path).checksum <;>
  cases c <;>
  simp_all [compareLocalFile, LocalCond, ProjectDiff.get]

theorem compareServerFile_mem (st : ProjectDiff × QHash MerginFile) (f : MerginFile)
    (c : Category) (p : String) :
    p ∈ (compareServerFile st f).1.get c ↔
      p ∈ st.1.get c ∨ (p = f.path ∧ ServerCond st.2 f c) := by
  cases ho : st.2.contains f.path <;>
  by_cases h1 : (st.2.value f.path).checksum = f.checksum <;>
  cases c <;>
  simp_all [compareServerFile, ServerCond, ProjectDiff.get]

theorem compareLocalFile_old (st : CompareState) (f : MerginFile) :
    (compareLocalFile st f).oldServerFilesMap = st.oldServerFilesMap.remove f.path := by
  cases h : st.oldServerFilesMap.contains f.path
  · simp [compareLocalFile, h, QHash.remove_entries_of_not_contains _ _ h]
  · simp [compareLocalFile, h]

theorem compareLocalFile_new (st : CompareState) (f : MerginFile) :
    (compareLocalFile st f).newServerFilesMap = st.newServerFilesMap.remove f.path := by
  cases h : st.newServerFilesMap.contains f.path
  · simp [compareLocalFile, h, QHash.remove_entries_of_not_contains _ _ h]
  · simp [compareLocalFile, h]

theorem compareServerFile_old (st : ProjectDiff × QHash MerginFile) (f : MerginFile) :
    (compareServerFile st f).2 = st.2.remove f.path := by
  cases h : st.2.contains f.path
  · simp [compareServerFile, h, QHash.remove_entries_of_not_contains _ _ h]
  · simp [compareServerFile, h]

theorem LocalCond_remove (om nm : QHash MerginFile) (f : MerginFile) (k : String)
    (h : f.path ≠ k) (c : Category) :
    LocalCond (om.remove k) (nm.remove k) f c ↔ LocalCond om nm f c := by
  cases c <;>
  simp [LocalCond, QHash.contains_remove, QHash.value_remove_ne _ h, h]

theorem ServerCond_remove (om : QHash MerginFile) (f : MerginFile) (k : String)
    (h : f.path ≠ k) (c : Category) :
    ServerCond (om.remove k) f c ↔ ServerCond om f c := by
  cases c <;>
  simp [ServerCond, QHash.contains_remove, QHash.value_remove_ne _ h, h]

theorem foldl_compareLocalFile_old (l : List MerginFile) (st : CompareState) :
    (l.foldl compareLocalFile st).oldServerFilesMap =
      st.oldServerFilesMap.removeAll (l.map MerginFile.path) := by
  induction l generalizing st with
  | nil => rfl
  | cons f l ih =>
    simp only [List.foldl_cons, List.map_cons, QHash.removeAll]
    rw [ih, compareLocalFile_old]
    rfl

theorem foldl_compareLocalFile_new (l : List MerginFile) (st : CompareState) :
    (l.foldl compareLocalFile st).newServerFilesMap =
      st.newServerFilesMap.removeAll (l.map MerginFile.path) := by
  induction l generalizing st with
  | nil => rfl
  | cons f l ih =>
    simp only [List.foldl_cons, List.map_cons, QHash.removeAll]
    rw [ih, compareLocalFile_new]
    rfl

/-- The first loop, for a local list whose paths are pairwise different: a
path lands in a category exactly when it was there before or some local file
with that path satisfies the category's condition on the initial maps. -/
theorem foldl_compareLocalFile_mem (l : List MerginFile) (st : CompareState)
    (hl : (l.map MerginFile.path).Nodup) (c : Category) (p : String) :
    p ∈ (l.foldl compareLocalFile st).diff.get c ↔
      p ∈ st.diff.get c ∨
        ∃ f ∈ l, f.path = p ∧ LocalCond st.oldServerFilesMap st.newServerFilesMap f c := by
  induction l generalizing st with
  | nil => simp
  | cons g l ih =>
    simp only [List.map_cons, List.nodup_cons] at hl
    simp only [List.foldl_cons]
    rw [ih _ hl.2, compareLocalFile_mem, compareLocalFile_old, compareLocalFile_new]
    have key : ∀ f ∈ l, (LocalCond (st.oldServerFilesMap.remove g.path)
        (st.newServerFilesMap.remove g.path) f c ↔
        LocalCond st.oldServerFilesMap st.newServerFilesMap f c) := by
      intro f hf
      apply LocalCond_remove
      intro h
      exact hl.1 (h ▸ List.mem_map_of_mem MerginFile.path hf)
    constructor
    · rintro ((h | ⟨rfl, h⟩) | ⟨f, hf, rfl, h⟩)
      · exact Or.inl h
      · exact Or.inr ⟨g, List.mem_cons_self _ _, rfl, h⟩
      · exact Or.inr ⟨f, List.mem_cons_of_mem _ hf, rfl, (key f hf).mp h⟩
    · rintro (h | ⟨f, hf, rfl, h⟩)
      · exact Or.inl (Or.inl h)
      · rcases List.mem_cons.mp hf with rfl | hf2
        · exact Or.inl (Or.inr ⟨rfl, h⟩)
        · exact Or.inr ⟨f, hf2, rfl, (key f hf2).mpr h⟩

/-- The first loop, for any local list: whatever lands in a category was there
before or is the path of a local file. -/
theorem foldl_compareLocalFile_mem_imp (l : List MerginFile) (st : CompareState)
    (c : Category) (p : String) (h : p ∈ (l.foldl compareLocalFile st).diff.get c) :
    p ∈ st.diff.get c ∨ p ∈ l.map MerginFile.path := by
  induction l generalizing st with
  | nil => exact Or.inl h
  | cons g l ih =>
    simp only [List.foldl_cons] at h
    rcases ih _ h with h1 | h1
    · rcases (compareLocalFile_mem st g c p).mp h1 with h2 | ⟨rfl, _⟩
      · exact Or.inl h2
      · exact Or.inr (by simp)
    · exact Or.inr (by simp [List.mem_map] at h1 ⊢; exact Or.inr h1)

/-- The second loop, for a list of remote files whose paths are pairwise
different. -/
theorem foldl_compareServerFile_mem (l : List MerginFile) (st : ProjectDiff × QHash MerginFile)
    (hl : (l.map MerginFile.path).Nodup) (c : Category) (p : String) :
    p ∈ (l.foldl compareServerFile st).1.get c ↔
      p ∈ st.1.get c ∨ ∃ f ∈ l, f.path = p ∧ ServerCond st.2 f c := by
  induction l generalizing st with
  | nil => simp
  | cons g l ih =>
    simp only [List.map_cons, List.nodup_cons] at hl
    simp only [List.foldl_cons]
    rw [ih _ hl.2, compareServerFile_mem, compareServerFile_old]
    have key : ∀ f ∈ l, (ServerCond (st.2.remove g.path) f c ↔ ServerCond st.2 f c) := by
      intro f hf
      apply ServerCond_remove
      intro h
      exact hl.1 (h ▸ List.mem_map_of_mem MerginFile.path hf)
    constructor
    · rintro ((h | ⟨rfl, h⟩) | ⟨f, hf, rfl, h⟩)
      · exact Or.inl h
      · exact Or.inr ⟨g, List.mem_cons_self _ _, rfl, h⟩
      · exact Or.inr ⟨f, List.mem_cons_of_mem _ hf, rfl, (key f hf).mp h⟩
    · rintro (h | ⟨f, hf, rfl, h⟩)
      · exact Or.inl (Or.inl h)
      · rcases List.mem_cons.mp hf with rfl | hf2
        · exact Or.inl (Or.inr ⟨rfl, h⟩)
        · exact Or.inr ⟨f, hf2, rfl, (key f hf2).mpr h⟩

theorem WFMap_empty : WFMap QHash.empty := by
  simp [WFMap, QHash.empty, QHash.keys]

theorem WFMap_insert (m : QHash MerginFile) (f : MerginFile) (h : WFMap m) :
    WFMap (m.insert f.path f) := by
  refine ⟨?_, ?_⟩
  · have h1 := QHash.keys_remove_nodup m f.path h.1
    simp only [QHash.keys, QHash.insert, List.map_cons, List.nodup_cons] at *
    refine ⟨?_, h1⟩
    intro hmem
    obtain ⟨e, he, hk⟩ := List.mem_map.mp hmem
    exact ((QHash.mem_remove_entries m f.path e).mp he).2 hk
  · intro e he
    simp only [QHash.insert, List.mem_cons] at he
    rcases he with rfl | he
    · rfl
    · exact h.2 e ((QHash.mem_remove_entries m f.path e).mp he).1

theorem WFMap_foldl_insert (l : List MerginFile) (m : QHash MerginFile) (h : WFMap m) :
    WFMap (l.foldl (fun m file => m.insert file.path file) m) := by
  induction l generalizing m with
  | nil => exact h
  | cons f l ih => exact ih _ (WFMap_insert m f h)

theorem WFMap_filesMap (l : List MerginFile) : WFMap (filesMap l) :=
  WFMap_foldl_insert l _ WFMap_empty

theorem WFMap_removeAll (m : QHash MerginFile) (ks : List String) (h : WFMap m) :
    WFMap (m.removeAll ks) :=
  ⟨QHash.keys_removeAll_nodup ks m h.1,
    fun e he => h.2 e ((QHash.mem_removeAll_entries ks m e).mp he).1⟩

theorem WFMap_values_path (m : QHash MerginFile) (h : WFMap m) :
    m.values.map MerginFile.path = m.keys := by
  simp only [QHash.values, QHash.keys, List.map_map]
  exact List.map_congr_left (fun e he => h.2 e he)

theorem foldl_insert_find?_of_not_mem (l : List MerginFile) (m : QHash MerginFile) (p : String)
    (h : p ∉ l.map MerginFile.path) :
    (l.foldl (fun m file => m.insert file.path file) m).find? p = m.find? p := by
  induction l generalizing m with
  | nil => rfl
  | cons f l ih =>
    simp only [List.map_cons, List.mem_cons, not_or] at h
    simp only [List.foldl_cons]
    have hne : f.path ≠ p := fun h3 => h.1 h3.symm
    rw [ih _ h.2, QHash.find?_insert]
    simp [hne]

theorem foldl_insert_find?_of_mem (l : List MerginFile) (m : QHash MerginFile)
    (hl : (l.map MerginFile.path).Nodup) (f : MerginFile) (hf : f ∈ l) :
    (l.foldl (fun m file => m.insert file.path file) m).find? f.path = some f := by
  induction l generalizing m with
  | nil => simp at hf
  | cons g l ih =>
    simp only [List.map_cons, List.nodup_cons] at hl
    simp only [List.foldl_cons]
    rcases List.mem_cons.mp hf with rfl | hf2
    · rw [foldl_insert_find?_of_not_mem l _ _ hl.1, QHash.find?_insert]
      simp
    · exact ih _ hl.2 hf2

theorem foldl_insert_find?_isSome (l : List MerginFile) (m : QHash MerginFile) (p : String) :
    ((l.foldl (fun m file => m.insert file.path file) m).find? p).isSome = true ↔
      (m.find? p).isSome = true ∨ p ∈ l.map MerginFile.path := by
  induction l generalizing m with
  | nil => simp
  | cons f l ih =>
    simp only [List.foldl_cons, List.map_cons, List.mem_cons]
    rw [ih, QHash.find?_insert]
    by_cases h : f.path = p
    · simp [h]
    · have h2 : ¬ p = f.path := fun h3 => h h3.symm
      simp [h, h2]

/-- A path is a key of `filesMap files` exactly when some file has it. -/
theorem filesMap_contains (l : List MerginFile) (p : String) :
    (filesMap l).contains p = true ↔ p ∈ l.map MerginFile.path := by
  rw [QHash.contains_eq_isSome, filesMap, foldl_insert_find?_isSome]
  simp [QHash.empty, QHash.find?]

theorem filesMap_contains_false (l : List MerginFile) (p : String) :
    (filesMap l).contains p = false ↔ p ∉ l.map MerginFile.path := by
  rw [← filesMap_contains, Bool.not_eq_true]

/-- With pairwise different paths, `filesMap` stores every file of the list
under its path. -/
theorem filesMap_value (l : List MerginFile) (hl : (l.map MerginFile.path).Nodup)
    (f : MerginFile) (hf : f ∈ l) : (filesMap l).value f.path = f := by
  simp [QHash.value, filesMap, foldl_insert_find?_of_mem l _ hl f hf]

theorem ServerCond_removeAll (om : QHash MerginFile) (f : MerginFile) (ks : List String)
    (h : f.path ∉ ks) (c : Category) :
    ServerCond (om.removeAll ks) f c ↔ ServerCond om f c := by
  have h1 : (om.removeAll ks).find? f.path = om.find? f.path :=
    QHash.find?_removeAll_of_not_mem ks om f.path h
  cases c <;> simp [ServerCond, QHash.contains_eq_isSome, QHash.value, h1]

/-- Characterisation of `compareProjectFiles` for a local list whose paths are
pairwise different: a path is in a category exactly when a local file with that
path satisfies the condition of the first loop, or no local file has the path,
the remote list has it and the condition of the second loop holds. -/
theorem compareProjectFiles_mem (old new loc : List MerginFile)
    (hl : (loc.map MerginFile.path).Nodup) (c : Category) (p : String) :
    p ∈ (compareProjectFiles old new loc).get c ↔
      (∃ f ∈ loc, f.path = p ∧ LocalCond (filesMap old) (filesMap new) f c) ∨
      (p ∉ loc.map MerginFile.path ∧
        ∃ f, (filesMap new).find? p = some f ∧ ServerCond (filesMap old) f c) := by
  have hwf := WFMap_removeAll (filesMap new) (loc.map MerginFile.path) (WFMap_filesMap new)
  have hnd : (((filesMap new).removeAll (loc.map MerginFile.path)).values.map
      MerginFile.path).Nodup := by
    rw [WFMap_values_path _ hwf]
    exact hwf.1
  simp only [compareProjectFiles]
  rw [foldl_compareLocalFile_new, foldl_compareServerFile_mem _ _ hnd,
    foldl_compareLocalFile_mem _ _ hl, foldl_compareLocalFile_old]
  simp only [ProjectDiff.get]
  have hempty : p ∉ ({} : ProjectDiff).get c := by cases c <;> simp [ProjectDiff.get]
  simp only [ProjectDiff.get] at hempty
  constructor
  · rintro ((h | h) | ⟨f, hf, rfl, h⟩)
    · exact absurd h hempty
    · exact Or.inl h
    · right
      simp only [QHash.values, List.mem_map] at hf
      obtain ⟨e, he, rfl⟩ := hf
      have he2 := (QHash.mem_removeAll_entries _ _ e).mp he
      have hpath : e.2.path = e.1 := (WFMap_filesMap new).2 e he2.1
      refine ⟨by rw [hpath]; exact he2.2, e.2, ?_, ?_⟩
      · rw [hpath]
        exact QHash.find?_entry_of_nodup _ (WFMap_filesMap new).1 e he2.1
      · exact (ServerCond_removeAll _ _ _ (by rw [hpath]; exact he2.2) c).mp h
  · rintro (h | ⟨hp, f, hf, h⟩)
    · exact Or.inl (Or.inr h)
    · right
      have he := QHash.mem_entries_of_find? _ _ _ hf
      have hpath : f.path = p := (WFMap_filesMap new).2 _ he
      refine ⟨f, ?_, hpath, ?_⟩
      · simp only [QHash.values, List.mem_map]
        exact ⟨(p, f), (QHash.mem_removeAll_entries _ _ _).mpr ⟨he, hp⟩, rfl⟩
      · exact (ServerCond_removeAll _ _ _ (by rw [hpath]; exact hp) c).mpr h

/-- For a local file (local paths pairwise different), membership of its path
in a category is decided by the condition of the first loop alone. -/
theorem compareProjectFiles_mem_local (old new loc : List MerginFile)
    (hl : (loc.map MerginFile.path).Nodup) (fl : MerginFile) (hfl : fl ∈ loc) (c : Category) :
    fl.path ∈ (compareProjectFiles old new loc).get c ↔
      LocalCond (filesMap old) (filesMap new) fl c := by
  rw [compareProjectFiles_mem old new loc hl]
  constructor
  · rintro (⟨f, hf, hp, h⟩ | ⟨hp, _⟩)
    · have : f = fl := List.inj_on_of_nodup_map hl hf hfl hp
      exact this ▸ h
    · exact absurd (List.mem_map_of_mem MerginFile.path hfl) hp
  · intro h
    exact Or.inl ⟨fl, hfl, rfl, h⟩

/-- For a path that no local file has (local paths pairwise different),
membership in a category is decided by the condition of the second loop. -/
theorem compareProjectFiles_mem_absent (old new loc : List MerginFile)
    (hl : (loc.map MerginFile.path).Nodup) (p : String) (hp : p ∉ loc.map MerginFile.path)
    (c : Category) :
    p ∈ (compareProjectFiles old new loc).get c ↔
      ∃ f, (filesMap new).find? p = some f ∧ ServerCond (filesMap old) f c := by
  rw [compareProjectFiles_mem old new loc hl]
  constructor
  · rintro (⟨f, hf, rfl, _⟩ | ⟨_, h⟩)
    · exact absurd (List.mem_map_of_mem MerginFile.path hf) hp
    · exact h
  · intro h
    exact Or.inr ⟨hp, h⟩

theorem filesMap_find?_of_mem (l : List MerginFile) (hl : (l.map MerginFile.path).Nodup)
    (f : MerginFile) (hf : f ∈ l) : (filesMap l).find? f.path = some f :=
  foldl_insert_find?_of_mem l _ hl f hf

theorem filesMap_find?_none (l : List MerginFile) (p : String)
    (hp : p ∉ l.map MerginFile.path) : (filesMap l).find? p = none := by
  rw [filesMap, foldl_insert_find?_of_not_mem l _ p hp]
  rfl

/-! ## The classification table of the differ -/

/-- C1: for a path present in the baseline, the remote and the local list
(paths pairwise different within each list) with checksums `cOld`, `cNew`,
`cLocal`, the path is in `localUpdated` exactly when `cOld = cNew` and
`cNew ≠ cLocal`; in `remoteUpdated` exactly when `cOld ≠ cNew`, `cOld = cLocal`
and `cNew ≠ cLocal`; in `conflictRemoteUpdatedLocalUpdated` exactly when
`cOld ≠ cNew`, `cOld ≠ cLocal` and `cNew ≠ cLocal`; and in no category at all
when `cNew = cLocal`. -/
theorem compareProjectFiles_present_in_all (old new loc : List MerginFile)
    (ho : (old.map MerginFile.path).Nodup) (hn : (new.map MerginFile.path).Nodup)
    (hl : (loc.map MerginFile.path).Nodup)
    (fo fn fl : MerginFile) (hfo : fo ∈ old) (hfn : fn ∈ new) (hfl : fl ∈ loc)
    (hpo : fo.path = fl.path) (hpn : fn.path = fl.path) :
    (fl.path ∈ (compareProjectFiles old new loc).localUpdated ↔
      fo.checksum = fn.checksum ∧ fn.checksum ≠ fl.checksum) ∧
    (fl.path ∈ (compareProjectFiles old new loc).remoteUpdated ↔
      fo.checksum ≠ fn.checksum ∧ fo.checksum = fl.checksum ∧ fn.checksum ≠ fl.checksum) ∧
    (fl.path ∈ (compareProjectFiles old new loc).conflictRemoteUpdatedLocalUpdated ↔
      fo.checksum ≠ fn.checksum ∧ fo.checksum ≠ fl.checksum ∧ fn.checksum ≠ fl.checksum) ∧
    (fn.checksum = fl.checksum →
      ∀ c : Category, fl.path ∉ (compareProjectFiles old new loc).get c) := by
  have hco : (filesMap old).contains fl.path = true :=
    (filesMap_contains old fl.path).mpr (hpo ▸ List.mem_map_of_mem MerginFile.path hfo)
  have hcn : (filesMap new).contains fl.path = true :=
    (filesMap_contains new fl.path).mpr (hpn ▸ List.mem_map_of_mem MerginFile.path hfn)
  have hvo : (filesMap old).value fl.path = fo := hpo ▸ filesMap_value old ho fo hfo
  have hvn : (filesMap new).value fl.path = fn := hpn ▸ filesMap_value new hn fn hfn
  have key := compareProjectFiles_mem_local old new loc hl fl hfl
  refine ⟨?_, ?_, ?_, ?_⟩
  · have := key .localUpdated
    simp only [ProjectDiff.get, LocalCond, hco, hcn, hvo, hvn, true_and] at this
    exact this
  · have := key .remoteUpdated
    simp only [ProjectDiff.get, LocalCond, hco, hcn, hvo, hvn, true_and] at this
    rw [this]
    tauto
  · have := key .conflictRemoteUpdatedLocalUpdated
    simp only [ProjectDiff.get, LocalCond, hco, hcn, hvo, hvn, true_and] at this
    rw [this]
    tauto
  · intro heq c
    rw [key c]
    cases c <;> simp [LocalCond, hco, hcn, hvo, hvn, heq]

/-- Witness for C1: scenario S2 of the specification (baseline `A`, remote
`B`, local `C`). -/
theorem compareProjectFiles_present_in_all_witness :
    ("x" ∈ (compareProjectFiles [mkFile "x" "A"] [mkFile "x" "B"]
        [mkFile "x" "C"]).conflictRemoteUpdatedLocalUpdated ↔
      "A" ≠ "B" ∧ "A" ≠ "C" ∧ "B" ≠ "C") :=
  (compareProjectFiles_present_in_all [mkFile "x" "A"] [mkFile "x" "B"] [mkFile "x" "C"]
    (by decide) (by decide) (by decide) (mkFile "x" "A") (mkFile "x" "B") (mkFile "x" "C")
    (by decide) (by decide) (by decide) rfl rfl).2.2.1

/-- C2: for a path of the local list that is missing from the baseline or from
the remote list (paths pairwise different within each list): in neither, it is
in `localAdded`; in the baseline only, it is in `remoteDeleted` when
`cOld = cLocal` and in `conflictRemoteDeletedLocalUpdated` when `cOld ≠ cLocal`;
in the remote only, it is in `conflictRemoteAddedLocalAdded` when
`cNew ≠ cLocal` and in no category when `cNew = cLocal`. -/
theorem compareProjectFiles_local_not_in_both (old new loc : List MerginFile)
    (ho : (old.map MerginFile.path).Nodup) (hn : (new.map MerginFile.path).Nodup)
    (hl : (loc.map MerginFile.path).Nodup) (fl : MerginFile) (hfl : fl ∈ loc) :
    (fl.path ∉ old.map MerginFile.path → fl.path ∉ new.map MerginFile.path →
      fl.path ∈ (compareProjectFiles old new loc).localAdded) ∧
    (∀ fo ∈ old, fo.path = fl.path → fl.path ∉ new.map MerginFile.path →
      (fo.checksum = fl.checksum →
        fl.path ∈ (compareProjectFiles old new loc).remoteDeleted) ∧
      (fo.checksum ≠ fl.checksum →
        fl.path ∈ (compareProjectFiles old new loc).conflictRemoteDeletedLocalUpdated)) ∧
    (∀ fn ∈ new, fn.path = fl.path → fl.path ∉ old.map MerginFile.path →
      (fn.checksum ≠ fl.checksum →
        fl.path ∈ (compareProjectFiles old new loc).conflictRemoteAddedLocalAdded) ∧
      (fn.checksum = fl.checksum →
        ∀ c : Category, fl.path ∉ (compareProjectFiles old new loc).get c)) := by
  have key := compareProjectFiles_mem_local old new loc hl fl hfl
  refine ⟨?_, ?_, ?_⟩
  · intro h1 h2
    have := key .localAdded
    simp only [ProjectDiff.get] at this
    rw [this]
    exact ⟨(filesMap_contains_false old _).mpr h1, (filesMap_contains_false new _).mpr h2⟩
  · intro fo hfo hpo h2
    have hco : (filesMap old).contains fl.path = true :=
      (filesMap_contains old fl.path).mpr (hpo ▸ List.mem_map_of_mem MerginFile.path hfo)
    have hcn := (filesMap_contains_false new _).mpr h2
    have hvo : (filesMap old).value fl.path = fo := hpo ▸ filesMap_value old ho fo hfo
    refine ⟨fun h => ?_, fun h => ?_⟩
    · have := key .remoteDeleted
      simp only [ProjectDiff.get] at this
      rw [this]
      exact ⟨hco, hcn, by rw [hvo]; exact h⟩
    · have := key .conflictRemoteDeletedLocalUpdated
      simp only [ProjectDiff.get] at this
      rw [this]
      exact ⟨hco, hcn, by rw [hvo]; exact h⟩
  · intro fn hfn hpn h1
    have hcn : (filesMap new).contains fl.path = true :=
      (filesMap_contains new fl.path).mpr (hpn ▸ List.mem_map_of_mem MerginFile.path hfn)
    have hco := (filesMap_contains_false old _).mpr h1
    have hvn : (filesMap new).value fl.path = fn := hpn ▸ filesMap_value new hn fn hfn
    refine ⟨fun h => ?_, fun h c => ?_⟩
    · have := key .conflictRemoteAddedLocalAdded
      simp only [ProjectDiff.get] at this
      rw [this]
      exact ⟨hco, hcn, by rw [hvn]; exact h⟩
    · rw [key c]
      cases c <;> simp [LocalCond, hco, hcn, hvn, h]

/-- Witness for C2: scenario S6 of the specification with different
contents: remote and local both add `y`, with checksums `H` and `G`. -/
theorem compareProjectFiles_local_not_in_both_witness :
    "y" ∈ (compareProjectFiles [] [mkFile "y" "H"]
      [mkFile "y" "G"]).conflictRemoteAddedLocalAdded :=
  ((compareProjectFiles_local_not_in_both [] [mkFile "y" "H"] [mkFile "y" "G"]
    (by decide) (by decide) (by decide) (mkFile "y" "G") (by decide)).2.2
      (mkFile "y" "H") (by decide) rfl (by decide)).1 (by decide)

/-- C3: for a path that is absent from the local list (paths pairwise
different within each list): in both baseline and remote, it is in
`localDeleted` when `cOld = cNew` and in `conflictRemoteUpdatedLocalDeleted`
when `cOld ≠ cNew`; in the remote only, it is in `remoteAdded`; in the baseline
only, it is in no category. -/
theorem compareProjectFiles_absent_locally (old new loc : List MerginFile)
    (ho : (old.map MerginFile.path).Nodup) (hn : (new.map MerginFile.path).Nodup)
    (hl : (loc.map MerginFile.path).Nodup) (p : String) (hp : p ∉ loc.map MerginFile.path) :
    (∀ fo ∈ old, ∀ fn ∈ new, fo.path = p → fn.path = p →
      (fo.checksum = fn.checksum → p ∈ (compareProjectFiles old new loc).localDeleted) ∧
      (fo.checksum ≠ fn.checksum →
        p ∈ (compareProjectFiles old new loc).conflictRemoteUpdatedLocalDeleted)) ∧
    (∀ fn ∈ new, fn.path = p → p ∉ old.map MerginFile.path →
      p ∈ (compareProjectFiles old new loc).remoteAdded) ∧
    (∀ fo ∈ old, fo.path = p → p ∉ new.map MerginFile.path →
      ∀ c : Category, p ∉ (compareProjectFiles old new loc).get c) := by
  have key := compareProjectFiles_mem_absent old new loc hl p hp
  refine ⟨?_, ?_, ?_⟩
  · intro fo hfo fn hfn hpo hpn
    have hco : (filesMap old).contains fn.path = true :=
      (filesMap_contains old _).mpr (hpn ▸ hpo ▸ List.mem_map_of_mem MerginFile.path hfo)
    have hvo : (filesMap old).value fn.path = fo := by
      rw [hpn, ← hpo]; exact filesMap_value old ho fo hfo
    have hfind : (filesMap new).find? p = some fn := hpn ▸ filesMap_find?_of_mem new hn fn hfn
    refine ⟨fun h => ?_, fun h => ?_⟩
    · have := key .localDeleted
      simp only [ProjectDiff.get] at this
      rw [this]
      exact ⟨fn, hfind, hco, by rw [hvo]; exact h⟩
    · have := key .conflictRemoteUpdatedLocalDeleted
      simp only [ProjectDiff.get] at this
      rw [this]
      exact ⟨fn, hfind, hco, by rw [hvo]; exact h⟩
  · intro fn hfn hpn h1
    have hfind : (filesMap new).find? p = some fn := hpn ▸ filesMap_find?_of_mem new hn fn hfn
    have := key .remoteAdded
    simp only [ProjectDiff.get] at this
    rw [this]
    exact ⟨fn, hfind, (filesMap_contains_false old _).mpr (hpn ▸ h1)⟩
  · intro fo _ _ h2 c
    rw [key c, filesMap_find?_none new p h2]
    simp

/-- Witness for C3: scenario S3 of the specification (the local copy of
`old.gpkg` was removed, the remote still has the baseline's content). -/
theorem compareProjectFiles_absent_locally_witness :
    "old.gpkg" ∈ (compareProjectFiles [mkFile "old.gpkg" "A"] [mkFile "old.gpkg" "A"]
      []).localDeleted :=
  ((compareProjectFiles_absent_locally [mkFile "old.gpkg" "A"] [mkFile "old.gpkg" "A"] []
    (by decide) (by decide) (by decide) "old.gpkg" (by decide)).1
      (mkFile "old.gpkg" "A") (by decide) (mkFile "old.gpkg" "A") (by decide) rfl rfl).1 rfl

/-- The second loop, for any list: whatever lands in a category was there
before or is the path of a file of the list. -/
theorem foldl_compareServerFile_mem_imp (l : List MerginFile)
    (st : ProjectDiff × QHash MerginFile) (c : Category) (p : String)
    (h : p ∈ (l.foldl compareServerFile st).1.get c) :
    p ∈ st.1.get c ∨ p ∈ l.map MerginFile.path := by
  induction l generalizing st with
  | nil => exact Or.inl h
  | cons g l ih =>
    simp only [List.foldl_cons] at h
    rcases ih _ h with h1 | h1
    · rcases (compareServerFile_mem st g c p).mp h1 with h2 | ⟨rfl, _⟩
      · exact Or.inl h2
      · exact Or.inr (by simp)
    · exact Or.inr (by simp [List.mem_map] at h1 ⊢; exact Or.inr h1)

/-- Every path that `compareProjectFiles` reports comes from the local or the
remote list, whatever the three lists are. -/
theorem compareProjectFiles_mem_source (old new loc : List MerginFile) (c : Category)
    (p : String) (h : p ∈ (compareProjectFiles old new loc).get c) :
    p ∈ new.map MerginFile.path ∨ p ∈ loc.map MerginFile.path := by
  simp only [compareProjectFiles] at h
  rcases foldl_compareServerFile_mem_imp _ _ c p h with h1 | h1
  · rcases foldl_compareLocalFile_mem_imp _ _ c p h1 with h2 | h2
    · cases c <;> simp [ProjectDiff.get] at h2
    · exact Or.inr h2
  · left
    rw [foldl_compareLocalFile_new] at h1
    simp only [QHash.values, List.map_map, List.mem_map, Function.comp] at h1
    obtain ⟨e, he, rfl⟩ := h1
    have he2 := ((QHash.mem_removeAll_entries _ _ e).mp he).1
    have hpath : e.2.path = e.1 := (WFMap_filesMap new).2 e he2
    have hfind := QHash.find?_entry_of_nodup _ (WFMap_filesMap new).1 e he2
    rw [hpath, ← filesMap_contains, QHash.contains_eq_isSome, hfind]
    rfl

theorem LocalCond_unique (om nm : QHash MerginFile) (f : MerginFile) (c1 c2 : Category)
    (h1 : LocalCond om nm f c1) (h2 : LocalCond om nm f c2) : c1 = c2 := by
  cases c1 <;> cases c2 <;> simp_all [LocalCond]

theorem ServerCond_unique (om : QHash MerginFile) (f : MerginFile) (c1 c2 : Category)
    (h1 : ServerCond om f c1) (h2 : ServerCond om f c2) : c1 = c2 := by
  cases c1 <;> cases c2 <;> simp_all [ServerCond]

/-- C4 as stated fails: when the local list names a path twice, the second
occurrence no longer finds the path in the maps and is reported as a local
addition, so `"x"` is in `remoteDeleted` and in `localAdded`. -/
theorem compareProjectFiles_not_disjoint :
    "x" ∈ (compareProjectFiles [mkFile "x" "A"] []
        [mkFile "x" "A", mkFile "x" "A"]).remoteDeleted ∧
    "x" ∈ (compareProjectFiles [mkFile "x" "A"] []
        [mkFile "x" "A", mkFile "x" "A"]).localAdded := by
  decide

/-- C4, amended: when the paths of the local list are pairwise different,
every path is in at most one of the ten sets of the returned diff; and for
all three lists, every path in some set occurs in one of the input lists. -/
theorem compareProjectFiles_disjoint (old new loc : List MerginFile) :
    ((loc.map MerginFile.path).Nodup →
      ∀ (p : String) (c1 c2 : Category), p ∈ (compareProjectFiles old new loc).get c1 →
        p ∈ (compareProjectFiles old new loc).get c2 → c1 = c2) ∧
    (∀ (p : String) (c : Category), p ∈ (compareProjectFiles old new loc).get c →
      p ∈ old.map MerginFile.path ∨ p ∈ new.map MerginFile.path ∨
        p ∈ loc.map MerginFile.path) := by
  refine ⟨?_, ?_⟩
  · intro hl p c1 c2 h1 h2
    rw [compareProjectFiles_mem old new loc hl] at h1 h2
    rcases h1 with ⟨f1, hf1, hp1, hc1⟩ | ⟨hn1, f1, hf1, hc1⟩
    · rcases h2 with ⟨f2, hf2, hp2, hc2⟩ | ⟨hn2, _⟩
      · have : f1 = f2 := List.inj_on_of_nodup_map hl hf1 hf2 (hp1.trans hp2.symm)
        subst this
        exact LocalCond_unique _ _ _ _ _ hc1 hc2
      · exact absurd (hp1 ▸ List.mem_map_of_mem MerginFile.path hf1) hn2
    · rcases h2 with ⟨f2, hf2, hp2, _⟩ | ⟨_, f2, hf2, hc2⟩
      · exact absurd (hp2 ▸ List.mem_map_of_mem MerginFile.path hf2) hn1
      · have : f1 = f2 := Option.some.inj (hf1.symm.trans hf2)
        subst this
        exact ServerCond_unique _ _ _ _ hc1 hc2
  · intro p c h
    exact Or.inr (compareProjectFiles_mem_source old new loc c p h)

/-- Witness for C4 (amended): in scenario S2 the path `x`, reported as a
conflict, is not reported as a remote update as well. -/
theorem compareProjectFiles_disjoint_witness :
    "x" ∉ (compareProjectFiles [mkFile "x" "A"] [mkFile "x" "B"]
      [mkFile "x" "C"]).remoteUpdated := by
  intro h
  have h2 := (compareProjectFiles_disjoint [mkFile "x" "A"] [mkFile "x" "B"]
    [mkFile "x" "C"]).1 (by decide) "x" Category.remoteUpdated
    Category.conflictRemoteUpdatedLocalUpdated h (by decide)
  cases h2

/-- C5: when the baseline, the remote and the local list contain the same
paths with the same checksums (paths pairwise different within each list),
every category of the returned diff is empty. -/
theorem compareProjectFiles_unchanged (old new loc : List MerginFile)
    (ho : (old.map MerginFile.path).Nodup) (hn : (new.map MerginFile.path).Nodup)
    (hl : (loc.map MerginFile.path).Nodup)
    (hon : ∀ x, x ∈ signature old ↔ x ∈ signature new)
    (hnl : ∀ x, x ∈ signature new ↔ x ∈ signature loc) :
    ∀ c : Category, (compareProjectFiles old new loc).get c = [] := by
  intro c
  rw [List.eq_nil_iff_forall_not_mem]
  intro p hp
  rw [compareProjectFiles_mem old new loc hl] at hp
  rcases hp with ⟨f, hf, rfl, hc⟩ | ⟨hnp, f, hf, _⟩
  · have h1 : (f.path, f.checksum) ∈ signature new :=
      (hnl _).mpr (List.mem_map_of_mem (fun f => (f.path, f.checksum)) hf)
    have h2 := (hon _).mpr h1
    simp only [signature, List.mem_map, Prod.mk.injEq] at h1 h2
    obtain ⟨fn, hfn, hpn, hcn⟩ := h1
    obtain ⟨fo, hfo, hpo, hco⟩ := h2
    have hconto : (filesMap old).contains f.path = true :=
      (filesMap_contains old f.path).mpr (hpo ▸ List.mem_map_of_mem MerginFile.path hfo)
    have hcontn : (filesMap new).contains f.path = true :=
      (filesMap_contains new f.path).mpr (hpn ▸ List.mem_map_of_mem MerginFile.path hfn)
    have hvo : (filesMap old).value f.path = fo := hpo ▸ filesMap_value old ho fo hfo
    have hvn : (filesMap new).value f.path = fn := hpn ▸ filesMap_value new hn fn hfn
    cases c <;> simp [LocalCond, hconto, hcontn, hvo, hvn, hco, hcn] at hc
  · have he := QHash.mem_entries_of_find? _ _ _ hf
    have hpath : f.path = p := (WFMap_filesMap new).2 _ he
    have hmem : f ∈ new := by
      have h3 : p ∈ new.map MerginFile.path := by
        rw [← filesMap_contains, QHash.contains_eq_isSome, hf]; rfl
      obtain ⟨g, hg, hgp⟩ := List.mem_map.mp h3
      have := filesMap_find?_of_mem new hn g hg
      rw [hgp, hf] at this
      exact (Option.some.inj this) ▸ hg
    have h1 : (f.path, f.checksum) ∈ signature loc :=
      (hnl _).mp (List.mem_map_of_mem (fun f => (f.path, f.checksum)) hmem)
    simp only [signature, List.mem_map, Prod.mk.injEq] at h1
    obtain ⟨g, hg, hgp, _⟩ := h1
    exact hnp (hpath ▸ hgp ▸ List.mem_map_of_mem MerginFile.path hg)

/-- Witness for C5: three lists that agree on their two paths and checksums
(listed in different orders) plan no download and no upload. -/
theorem compareProjectFiles_unchanged_witness :
    (compareProjectFiles [mkFile "a" "1", mkFile "b" "2"]
      [mkFile "b" "2", mkFile "a" "1"] [mkFile "a" "1", mkFile "b" "2"]).remoteAdded = [] ∧
    (compareProjectFiles [mkFile "a" "1", mkFile "b" "2"]
      [mkFile "b" "2", mkFile "a" "1"] [mkFile "a" "1", mkFile "b" "2"]).localUpdated = [] :=
  ⟨compareProjectFiles_unchanged [mkFile "a" "1", mkFile "b" "2"]
      [mkFile "b" "2", mkFile "a" "1"] [mkFile "a" "1", mkFile "b" "2"]
      (by decide) (by decide) (by decide)
      (fun x => by simp [signature, mkFile, or_comm])
      (fun x => by simp [signature, mkFile, or_comm]) Category.remoteAdded,
    compareProjectFiles_unchanged [mkFile "a" "1", mkFile "b" "2"]
      [mkFile "b" "2", mkFile "a" "1"] [mkFile "a" "1", mkFile "b" "2"]
      (by decide) (by decide) (by decide)
      (fun x => by simp [signature, mkFile, or_comm])
      (fun x => by simp [signature, mkFile, or_comm]) Category.localUpdated⟩

/-! ## Facts about the arithmetic model -/

theorem floorLog2Aux_spec (fuel n : Nat) (hn : n ≠ 0) (hf : n ≤ fuel) :
    2 ^ floorLog2Aux fuel n ≤ n ∧ n < 2 ^ (floorLog2Aux fuel n + 1) := by
  induction fuel generalizing n with
  | zero => omega
  | succ fuel ih =>
    simp only [floorLog2Aux]
    split_ifs with h
    · constructor
      · simp; omega
      · simp; omega
    · have h2 : n / 2 ≠ 0 := by omega
      have h3 : n / 2 ≤ fuel := by omega
      obtain ⟨h4, h5⟩ := ih (n / 2) h2 h3
      constructor
      · rw [pow_succ]; omega
      · rw [pow_succ]; omega

theorem floorLog2_spec (n : Nat) (hn : n ≠ 0) :
    2 ^ floorLog2 n ≤ n ∧ n < 2 ^ (floorLog2 n + 1) :=
  floorLog2Aux_spec n n hn (le_refl n)

theorem scaleFraction_den_ne_zero (num den : Nat) (s : Int) (hd : den ≠ 0) :
    (scaleFraction num den s).2 ≠ 0 := by
  unfold scaleFraction
  split_ifs
  · exact hd
  · exact Nat.mul_ne_zero hd (by positivity)

theorem scaleFraction_ratio (num den : Nat) (s : Int) (hd : den ≠ 0) :
    ((scaleFraction num den s).1 : ℚ) / ((scaleFraction num den s).2 : ℚ) =
      (num : ℚ) / den * (2 : ℚ) ^ s := by
  have hd2 : (den : ℚ) ≠ 0 := by exact_mod_cast hd
  unfold scaleFraction
  split_ifs with h
  · have hs : (2 : ℚ) ^ s = (2 : ℚ) ^ s.toNat := by
      conv_lhs => rw [← Int.toNat_of_nonneg h]
      exact zpow_natCast 2 _
    simp only [Nat.cast_mul, Nat.cast_pow, Nat.cast_ofNat, hs]
    ring
  · have hs : (2 : ℚ) ^ s = ((2 : ℚ) ^ (-s).toNat)⁻¹ := by
      have h1 : s = -(((-s).toNat : Int)) := by
        rw [Int.toNat_of_nonneg (by omega)]; ring
      conv_lhs => rw [h1]
      rw [zpow_neg, zpow_natCast]
    simp only [Nat.cast_mul, Nat.cast_pow, Nat.cast_ofNat, hs]
    field_simp

theorem roundHalfEven_spec (num den : Nat) (hd : den ≠ 0) :
    |(num : ℚ) / den - (roundHalfEven num den : ℚ)| ≤ 1 / 2 := by
  have hd2 : (0 : ℚ) < den := by exact_mod_cast Nat.pos_of_ne_zero hd
  have hdiv : (num : ℚ) = (den : ℚ) * ((num / den : Nat) : ℚ) + ((num % den : Nat) : ℚ) := by
    exact_mod_cast (Nat.div_add_mod num den).symm
  have hr : ((num % den : Nat) : ℚ) < den := by exact_mod_cast Nat.mod_lt num (Nat.pos_of_ne_zero hd)
  have hr0 : (0 : ℚ) ≤ ((num % den : Nat) : ℚ) := by positivity
  have hx : (num : ℚ) / den = ((num / den : Nat) : ℚ) + ((num % den : Nat) : ℚ) / den := by
    rw [div_eq_iff (ne_of_gt hd2), add_mul, div_mul_cancel₀ _ (ne_of_gt hd2)]
    linarith
  rw [abs_le]
  unfold roundHalfEven
  simp only
  split_ifs with h1 h2 h3
  · have h1q : 2 * ((num % den : Nat) : ℚ) < den := by exact_mod_cast h1
    rw [hx]
    have : ((num % den : Nat) : ℚ) / den < 1 / 2 := by
      rw [div_lt_iff₀ hd2]; linarith
    have : 0 ≤ ((num % den : Nat) : ℚ) / den := by positivity
    constructor <;> linarith
  · have h2q : (den : ℚ) < 2 * ((num % den : Nat) : ℚ) := by exact_mod_cast h2
    rw [hx]
    have : 1 / 2 < ((num % den : Nat) : ℚ) / den := by
      rw [lt_div_iff₀ hd2]; linarith
    have : ((num % den : Nat) : ℚ) / den < 1 := by
      rw [div_lt_iff₀ hd2]; linarith
    push_cast
    constructor <;> linarith
  · have heq : 2 * (num % den) = den := by omega
    have heqq : 2 * ((num % den : Nat) : ℚ) = den := by exact_mod_cast heq
    rw [hx]
    have : ((num % den : Nat) : ℚ) / den = 1 / 2 := by
      rw [div_eq_iff (ne_of_gt hd2)]; linarith
    constructor <;> linarith
  · have heq : 2 * (num % den) = den := by omega
    have heqq : 2 * ((num % den : Nat) : ℚ) = den := by exact_mod_cast heq
    rw [hx]
    have : ((num % den : Nat) : ℚ) / den = 1 / 2 := by
      rw [div_eq_iff (ne_of_gt hd2)]; linarith
    push_cast
    constructor <;> linarith

theorem binaryExponent_spec (num den : Nat) (hn : num ≠ 0) (hd : den ≠ 0) :
    (2 : ℚ) ^ binaryExponent num den ≤ (num : ℚ) / den ∧
      (num : ℚ) / den < (2 : ℚ) ^ (binaryExponent num den + 1) := by
  have hd2 : (0 : ℚ) < den := by exact_mod_cast Nat.pos_of_ne_zero hd
  obtain ⟨hn1, hn2⟩ := floorLog2_spec num hn
  obtain ⟨hd1, hd3⟩ := floorLog2_spec den hd
  have hn1q : (2 : ℚ) ^ (floorLog2 num : Int) ≤ num := by
    rw [zpow_natCast]; exact_mod_cast hn1
  have hn2q : (num : ℚ) < (2 : ℚ) ^ ((floorLog2 num : Int) + 1) := by
    rw [show ((floorLog2 num : Int) + 1) = ((floorLog2 num + 1 : Nat) : Int) by push_cast; ring,
      zpow_natCast]
    exact_mod_cast hn2
  have hd1q : (2 : ℚ) ^ (floorLog2 den : Int) ≤ den := by
    rw [zpow_natCast]; exact_mod_cast hd1
  have hd3q : (den : ℚ) < (2 : ℚ) ^ ((floorLog2 den : Int) + 1) := by
    rw [show ((floorLog2 den : Int) + 1) = ((floorLog2 den + 1 : Nat) : Int) by push_cast; ring,
      zpow_natCast]
    exact_mod_cast hd3
  have h2 : (0 : ℚ) < 2 := by norm_num
  have hpos : ∀ z : Int, (0 : ℚ) < (2 : ℚ) ^ z := fun z => zpow_pos h2 z
  have hratio := scaleFraction_ratio num den (-((floorLog2 num : Int) - (floorLog2 den : Int))) hd
  have hden := scaleFraction_den_ne_zero num den
    (-((floorLog2 num : Int) - (floorLog2 den : Int))) hd
  have hden2 : (0 : ℚ) <
      ((scaleFraction num den (-((floorLog2 num : Int) - (floorLog2 den : Int)))).2 : ℚ) := by
    exact_mod_cast Nat.pos_of_ne_zero hden
  have hsplit : ∀ a b : Int, (2 : ℚ) ^ (a - b) = (2 : ℚ) ^ a / (2 : ℚ) ^ b := fun a b =>
    zpow_sub₀ (by norm_num) a b
  have hadd : ∀ a : Int, (2 : ℚ) ^ (a + 1) = (2 : ℚ) ^ a * 2 := fun a => by
    rw [zpow_add₀ (by norm_num), zpow_one]
  unfold binaryExponent
  simp only
  split_ifs with h
  · -- the scaled fraction is at least one
    have h1 : (1 : ℚ) ≤ (num : ℚ) / den *
        (2 : ℚ) ^ (-((floorLog2 num : Int) - (floorLog2 den : Int))) := by
      rw [← hratio, le_div_iff₀ hden2, one_mul]
      exact_mod_cast h
    rw [zpow_neg] at h1
    constructor
    · have := hpos ((floorLog2 num : Int) - (floorLog2 den : Int))
      rw [← div_eq_mul_inv, le_div_iff₀ this] at h1
      linarith
    · rw [hadd, hsplit, div_mul_eq_mul_div, div_lt_div_iff₀ hd2 (hpos _)]
      rw [hadd] at hn2q
      nlinarith [hpos (floorLog2 num : Int), hpos (floorLog2 den : Int)]
  · have h1 : (num : ℚ) / den *
        (2 : ℚ) ^ (-((floorLog2 num : Int) - (floorLog2 den : Int))) < 1 := by
      rw [← hratio, div_lt_iff₀ hden2, one_mul]
      exact_mod_cast not_le.mp h
    rw [zpow_neg] at h1
    constructor
    · rw [show ((floorLog2 num : Int) - (floorLog2 den : Int) - 1) =
        (floorLog2 num : Int) - ((floorLog2 den : Int) + 1) by ring, hsplit,
        div_le_div_iff₀ (hpos _) hd2]
      nlinarith [hpos (floorLog2 num : Int), hpos ((floorLog2 den : Int) + 1)]
    · have := hpos ((floorLog2 num : Int) - (floorLog2 den : Int))
      rw [← div_eq_mul_inv, div_lt_iff₀ this] at h1
      rw [show ((floorLog2 num : Int) - (floorLog2 den : Int) - 1 + 1) =
        (floorLog2 num : Int) - (floorLog2 den : Int) by ring]
      linarith

/-- The rounding `roundToDouble` is a rounding to 53 significant bits: the
scaled fraction lies in `[2 ^ 52, 2 ^ 53)` and the mantissa is an integer
nearest to it. -/
theorem roundToDouble_spec (neg : Bool) (num den : Nat) (hn : num ≠ 0) (hd : den ≠ 0) :
    (roundToDouble neg num den).neg = neg ∧
    |(num : ℚ) / den * (2 : ℚ) ^ (-(roundToDouble neg num den).exp) -
        ((roundToDouble neg num den).mant : ℚ)| ≤ 1 / 2 ∧
    (2 : ℚ) ^ (52 : Nat) ≤ (num : ℚ) / den * (2 : ℚ) ^ (-(roundToDouble neg num den).exp) ∧
    (num : ℚ) / den * (2 : ℚ) ^ (-(roundToDouble neg num den).exp) < (2 : ℚ) ^ (53 : Nat) := by
  obtain ⟨he1, he2⟩ := binaryExponent_spec num den hn hd
  have hexp : -(roundToDouble neg num den).exp = 52 - binaryExponent num den := by
    simp [roundToDouble, hn]
  have hmant : (roundToDouble neg num den).mant =
      roundHalfEven (scaleFraction num den (52 - binaryExponent num den)).1
        (scaleFraction num den (52 - binaryExponent num den)).2 := by
    simp [roundToDouble, hn]
  have hpos : ∀ z : Int, (0 : ℚ) < (2 : ℚ) ^ z := fun z => zpow_pos (by norm_num) z
  have hsplit : (2 : ℚ) ^ (52 - binaryExponent num den) =
      (2 : ℚ) ^ (52 : Nat) / (2 : ℚ) ^ binaryExponent num den := by
    rw [zpow_sub₀ (by norm_num)]; norm_num
  refine ⟨by simp [roundToDouble, hn], ?_, ?_, ?_⟩
  · rw [hexp, hmant, ← scaleFraction_ratio num den _ hd]
    exact roundHalfEven_spec _ _ (scaleFraction_den_ne_zero num den _ hd)
  · rw [hexp, hsplit, mul_div_assoc', le_div_iff₀ (hpos _)]
    have : (0 : ℚ) < (2 : ℚ) ^ (52 : Nat) := by positivity
    nlinarith
  · rw [hexp, hsplit, mul_div_assoc', div_lt_iff₀ (hpos _)]
    have h53 : (2 : ℚ) ^ (53 : Nat) = (2 : ℚ) ^ (52 : Nat) * 2 := by norm_num
    rw [zpow_add₀ (by norm_num), zpow_one] at he2
    have : (0 : ℚ) < (2 : ℚ) ^ (52 : Nat) := by positivity
    rw [h53]
    nlinarith

/-- A binary64 value whose scaled magnitude is at least `2 ^ 52` while the
magnitude itself is below `2 ^ 53` has a non-positive exponent. -/
theorem exp_nonpos_of_small (x : ℚ) (e : Int) (hx : x < (2 : ℚ) ^ (53 : Nat))
    (h : (2 : ℚ) ^ (52 : Nat) ≤ x * (2 : ℚ) ^ (-e)) : e ≤ 0 := by
  by_contra hcon
  have he : 1 ≤ e := by omega
  have h1 : (2 : ℚ) ^ (-e) ≤ (2 : ℚ) ^ (-1 : Int) :=
    zpow_le_zpow_right₀ (by norm_num) (by omega)
  have h2 : (2 : ℚ) ^ (-1 : Int) = 1 / 2 := by norm_num
  have hpos : (0 : ℚ) < (2 : ℚ) ^ (-e) := zpow_pos (by norm_num) _
  have hx0 : 0 < x := by
    by_contra hneg
    have : x * (2 : ℚ) ^ (-e) ≤ 0 := mul_nonpos_of_nonpos_of_nonneg (not_lt.mp hneg) hpos.le
    have : (0 : ℚ) < (2 : ℚ) ^ (52 : Nat) := by positivity
    linarith
  have h3 : x * (2 : ℚ) ^ (-e) ≤ x * (1 / 2) := by
    rw [← h2]; exact mul_le_mul_of_nonneg_left h1 hx0.le
  have h53 : (2 : ℚ) ^ (53 : Nat) = (2 : ℚ) ^ (52 : Nat) * 2 := by norm_num
  linarith

/-- The conversion `qreal( s )` is exact for `0 < s < 2 ^ 53`. -/
theorem Dbl_ofInt_exact (s : Int) (h0 : 0 < s) (h53 : s < 2 ^ (53 : Nat)) :
    (Dbl.ofInt s).neg = false ∧ (Dbl.ofInt s).exp ≤ 0 ∧
      ((Dbl.ofInt s).mant : ℚ) = (s : ℚ) * (2 : ℚ) ^ (-(Dbl.ofInt s).exp) := by
  have hn : s.natAbs ≠ 0 := by omega
  have hcast : ((s.natAbs : Nat) : ℚ) = (s : ℚ) := by
    rw [Nat.cast_natAbs, abs_of_pos h0]
  obtain ⟨h1, h2, h3, _⟩ := roundToDouble_spec (decide (s < 0)) s.natAbs 1 hn one_ne_zero
  have hneg : decide (s < 0) = false := by simp; omega
  rw [hcast] at h2 h3
  simp only [Nat.cast_one, div_one] at h2 h3
  have hsq : (s : ℚ) < (2 : ℚ) ^ (53 : Nat) := by exact_mod_cast h53
  have hexp : (roundToDouble (decide (s < 0)) s.natAbs 1).exp ≤ 0 :=
    exp_nonpos_of_small _ _ hsq h3
  refine ⟨by rw [Dbl.ofInt, h1, hneg], hexp, ?_⟩
  unfold Dbl.ofInt
  generalize roundToDouble (decide (s < 0)) s.natAbs 1 = d at *
  obtain ⟨k, hk⟩ : ∃ k : Nat, -d.exp = (k : Int) := ⟨(-d.exp).toNat, by omega⟩
  rw [hk, zpow_natCast] at h2 ⊢
  have h4 : |s * (2 : Int) ^ k - (d.mant : Int)| < 1 := by
    have : ((|s * (2 : Int) ^ k - (d.mant : Int)| : Int) : ℚ) < ((1 : Int) : ℚ) := by
      push_cast
      calc |(s : ℚ) * 2 ^ k - (d.mant : ℚ)| ≤ 1 / 2 := h2
        _ < 1 := by norm_num
    exact_mod_cast this
  have h5 : s * (2 : Int) ^ k - (d.mant : Int) = 0 := by
    rw [abs_lt] at h4; omega
  have h6 : (d.mant : Int) = s * (2 : Int) ^ k := by omega
  exact_mod_cast h6

/-- For a non-negative value, `Dbl.ceil` is the ceiling of the rational
number the value stands for. -/
theorem Dbl_ceil_spec (x : Dbl) (hx : x.neg = false) : x.ceil = ⌈x.toRat⌉ := by
  have hden := scaleFraction_den_ne_zero x.mant 1 x.exp one_ne_zero
  have hratio := scaleFraction_ratio x.mant 1 x.exp one_ne_zero
  simp only [Nat.cast_one, div_one] at hratio
  have hval : x.toRat = ((scaleFraction x.mant 1 x.exp).1 : ℚ) /
      ((scaleFraction x.mant 1 x.exp).2 : ℚ) := by
    rw [hratio]; simp [Dbl.toRat, hx]
  unfold Dbl.ceil
  simp only [hx, Bool.false_eq_true, if_false]
  rw [hval]
  generalize (scaleFraction x.mant 1 x.exp).1 = N at *
  generalize (scaleFraction x.mant 1 x.exp).2 = D at *
  have hD : 0 < D := Nat.pos_of_ne_zero hden
  have hDq : (0 : ℚ) < D := by exact_mod_cast hD
  symm
  rw [Int.ceil_eq_iff]
  have hdm := Nat.div_add_mod (N + D - 1) D
  have hml := Nat.mod_lt (N + D - 1) hD
  have hq1 : D * ((N + D - 1) / D) < N + D := by omega
  have hq2 : N ≤ D * ((N + D - 1) / D) := by omega
  generalize (N + D - 1) / D = q at *
  have hq1q : (D : ℚ) * q < N + D := by exact_mod_cast hq1
  have hq2q : (N : ℚ) ≤ D * q := by exact_mod_cast hq2
  rw [Int.cast_natCast]
  constructor
  · rw [lt_div_iff₀ hDq]
    linarith
  · rw [div_le_iff₀ hDq]
    linarith

/-- The arithmetic heart of the chunk count: a quotient `s / C` of integers
with `s < 2 ^ 53`, rounded to an integer multiple `m / 2 ^ k` of `2 ^ (-k)` at a
scale where `s / C * 2 ^ k ≥ 2 ^ 52`, keeps its ceiling. -/
theorem ceil_of_rounded_quotient (s C : Int) (m k : Nat) (hC : 0 < C)
    (h53 : (s : ℚ) < (2 : ℚ) ^ (53 : Nat))
    (h1 : |(s : ℚ) / C * (2 : ℚ) ^ k - (m : ℚ)| ≤ 1 / 2)
    (h2 : (2 : ℚ) ^ (52 : Nat) ≤ (s : ℚ) / C * (2 : ℚ) ^ k) :
    ⌈(m : ℚ) / (2 : ℚ) ^ k⌉ = ⌈(s : ℚ) / C⌉ := by
  have hCq : (0 : ℚ) < C := by exact_mod_cast hC
  have hP : (0 : ℚ) < (2 : ℚ) ^ k := by positivity
  set t : ℚ := (s : ℚ) / C with ht
  have htC : t * C = s := by rw [ht]; field_simp
  set P : ℚ := (2 : ℚ) ^ k with hPdef
  set n : Int := ⌈t⌉ with hn
  have hn1 : (n : ℚ) < t + 1 := Int.ceil_lt_add_one t
  have hn2 : t ≤ n := Int.le_ceil t
  obtain ⟨h1a, h1b⟩ := abs_le.mp h1
  -- `s` exceeds `(n - 1) * C` by at least one
  have hstep : ((n : ℚ) - 1) * C + 1 ≤ t * C := by
    have h3 : ((n : ℚ) - 1) * C < s := by rw [← htC]; nlinarith
    have h4 : (n - 1) * C < s := by exact_mod_cast h3
    have h5 : (n - 1) * C + 1 ≤ s := by omega
    have h6 : (((n - 1) * C + 1 : Int) : ℚ) ≤ (s : ℚ) := by exact_mod_cast h5
    rw [htC]
    push_cast at h6
    linarith
  -- the scale is fine enough: `C < 2 * P`
  have hscale : (C : ℚ) < 2 * P := by
    have h3 : (2 : ℚ) ^ (52 : Nat) * C ≤ t * P * C := mul_le_mul_of_nonneg_right h2 hCq.le
    have h4 : t * P * C = s * P := by rw [← htC]; ring
    have h5 : (s : ℚ) * P < (2 : ℚ) ^ (53 : Nat) * P := mul_lt_mul_of_pos_right h53 hP
    have h6 : (2 : ℚ) ^ (53 : Nat) = (2 : ℚ) ^ (52 : Nat) * 2 := by norm_num
    have h7 : (0 : ℚ) < (2 : ℚ) ^ (52 : Nat) := by positivity
    rw [h4] at h3
    rw [h6] at h5
    have h8 : (2 : ℚ) ^ (52 : Nat) * C < (2 : ℚ) ^ (52 : Nat) * (2 * P) := by linarith
    exact lt_of_mul_lt_mul_left h8 h7.le
  rw [Int.ceil_eq_iff]
  constructor
  · rw [lt_div_iff₀ hP]
    by_contra hcon
    have h3 : (t - ((n : ℚ) - 1)) * P ≤ 1 / 2 := by linarith
    have h4 : (t - ((n : ℚ) - 1)) * P * C ≤ 1 / 2 * C := mul_le_mul_of_nonneg_right h3 hCq.le
    have h5 : P ≤ (t - ((n : ℚ) - 1)) * P * C := by
      have : (1 : ℚ) ≤ (t - ((n : ℚ) - 1)) * C := by linarith
      calc P = 1 * P := by ring
        _ ≤ (t - ((n : ℚ) - 1)) * C * P := mul_le_mul_of_nonneg_right this hP.le
        _ = (t - ((n : ℚ) - 1)) * P * C := by ring
    linarith
  · rw [div_le_iff₀ hP]
    have h3 : (m : ℚ) < (n : ℚ) * P + 1 := by nlinarith
    have h4 : (m : Int) < n * (2 : Int) ^ k + 1 := by
      have : (((m : Int)) : ℚ) < ((n * (2 : Int) ^ k + 1 : Int) : ℚ) := by
        push_cast; exact h3
      exact_mod_cast this
    have h5 : (m : Int) ≤ n * (2 : Int) ^ k := by omega
    have h6 : (((m : Int)) : ℚ) ≤ ((n * (2 : Int) ^ k : Int) : ℚ) := by exact_mod_cast h5
    push_cast at h6
    exact h6

/-- The number of chunks that the planner computes in `qreal` arithmetic,
before the conversion to `int`: for `0 < s < 2 ^ 53` and a positive chunk size
it is the exact ceiling of the quotient. -/
theorem ceil_divInt_ofInt (s C : Int) (h0 : 0 < s) (h53 : s < 2 ^ (53 : Nat)) (hC : 0 < C) :
    ((Dbl.ofInt s).divInt C).ceil = ⌈(s : ℚ) / C⌉ := by
  obtain ⟨hneg0, hexp0, hmant0⟩ := Dbl_ofInt_exact s h0 h53
  have hCn : C.natAbs ≠ 0 := by omega
  have hCcast : ((C.natAbs : Nat) : ℚ) = (C : ℚ) := by
    rw [Nat.cast_natAbs, abs_of_pos hC]
  have hCq : (0 : ℚ) < C := by exact_mod_cast hC
  have hsq : (0 : ℚ) < s := by exact_mod_cast h0
  have hs53 : (s : ℚ) < (2 : ℚ) ^ (53 : Nat) := by exact_mod_cast h53
  have hden := scaleFraction_den_ne_zero (Dbl.ofInt s).mant C.natAbs (Dbl.ofInt s).exp hCn
  have hratio := scaleFraction_ratio (Dbl.ofInt s).mant C.natAbs (Dbl.ofInt s).exp hCn
  have hpos : ∀ z : Int, (0 : ℚ) < (2 : ℚ) ^ z := fun z => zpow_pos (by norm_num) z
  have hx : ((scaleFraction (Dbl.ofInt s).mant C.natAbs (Dbl.ofInt s).exp).1 : ℚ) /
      ((scaleFraction (Dbl.ofInt s).mant C.natAbs (Dbl.ofInt s).exp).2 : ℚ) = (s : ℚ) / C := by
    rw [hratio, hmant0, hCcast, zpow_neg]
    field_simp
    ring
  have hnum : (scaleFraction (Dbl.ofInt s).mant C.natAbs (Dbl.ofInt s).exp).1 ≠ 0 := by
    intro h
    rw [h] at hx
    simp only [Nat.cast_zero, zero_div] at hx
    have : (0 : ℚ) < (s : ℚ) / C := div_pos hsq hCq
    linarith
  have hnegC : decide (C < 0) = false := by simp; omega
  unfold Dbl.divInt
  simp only [hneg0, hnegC, bne_self_eq_false]
  generalize (scaleFraction (Dbl.ofInt s).mant C.natAbs (Dbl.ofInt s).exp).1 = N at *
  generalize (scaleFraction (Dbl.ofInt s).mant C.natAbs (Dbl.ofInt s).exp).2 = D at *
  obtain ⟨hn, hr1, hr2, _⟩ := roundToDouble_spec false N D hnum hden
  rw [hx] at hr1 hr2
  have hxle : (s : ℚ) / C < (2 : ℚ) ^ (53 : Nat) := by
    have h1 : (1 : ℚ) ≤ C := by exact_mod_cast hC
    have : (s : ℚ) / C ≤ s := div_le_self hsq.le h1
    linarith
  have hexp : (roundToDouble false N D).exp ≤ 0 := exp_nonpos_of_small _ _ hxle hr2
  rw [Dbl_ceil_spec _ hn]
  generalize roundToDouble false N D = d at *
  obtain ⟨k, hk⟩ : ∃ k : Nat, -d.exp = (k : Int) := ⟨(-d.exp).toNat, by omega⟩
  rw [hk, zpow_natCast] at hr1 hr2
  have hval : d.toRat = (d.mant : ℚ) / (2 : ℚ) ^ k := by
    have : d.exp = -(k : Int) := by omega
    simp only [Dbl.toRat, hn, Bool.false_eq_true, if_false, one_mul, this, zpow_neg, zpow_natCast]
    rfl
  rw [hval]
  exact ceil_of_rounded_quotient s C d.mant k hC hs53 hr1 hr2

theorem generateChunkIdsForSize_zero (createUuid : Nat → String) :
    generateChunkIdsForSize createUuid 0 = [] := by
  have h : qCeil ((Dbl.ofInt 0).divInt UPLOAD_CHUNK_SIZE) = 0 := by decide
  simp [generateChunkIdsForSize, h]

/-- C6 as stated fails: a file of `858993460 * UPLOAD_CHUNK_SIZE + 1` bytes
needs `858993461` chunks, but `qreal( fileSize )` rounds the size to the
nearest binary64 value, the exact multiple, and the planner returns
`858993460` ids. -/
theorem generateChunkIdsForSize_not_ceil :
    (generateChunkIdsForSize sampleUuid 9007199263129601).length = 858993460 ∧
    ⌈((9007199263129601 : Int) : ℚ) / (UPLOAD_CHUNK_SIZE : ℚ)⌉ = 858993461 := by
  constructor
  · have h : (qCeil ((Dbl.ofInt 9007199263129601).divInt UPLOAD_CHUNK_SIZE)).toNat =
        858993460 := by decide
    simp only [generateChunkIdsForSize, List.length_map, List.length_range, h]
  · rw [Int.ceil_eq_iff]
    norm_num [UPLOAD_CHUNK_SIZE]

/-- C6, amended: for every file size `0 ≤ s < 2 ^ 53` the planner returns
exactly `ceil( s / UPLOAD_CHUNK_SIZE )` ids; in particular the empty list for
`s = 0` and a single id for `1 ≤ s ≤ UPLOAD_CHUNK_SIZE`. -/
theorem generateChunkIdsForSize_length (createUuid : Nat → String) (s : Int) (h0 : 0 ≤ s)
    (h53 : s < 2 ^ (53 : Nat)) :
    ((generateChunkIdsForSize createUuid s).length : Int) =
        ⌈(s : ℚ) / (UPLOAD_CHUNK_SIZE : ℚ)⌉ ∧
    (s = 0 → generateChunkIdsForSize createUuid s = []) ∧
    (1 ≤ s → s ≤ UPLOAD_CHUNK_SIZE → (generateChunkIdsForSize createUuid s).length = 1) := by
  have hC : (0 : Int) < UPLOAD_CHUNK_SIZE := by decide
  have hCq : (0 : ℚ) < (UPLOAD_CHUNK_SIZE : ℚ) := by exact_mod_cast hC
  have hlen : ((generateChunkIdsForSize createUuid s).length : Int) =
      ⌈(s : ℚ) / (UPLOAD_CHUNK_SIZE : ℚ)⌉ := by
    rcases eq_or_lt_of_le h0 with h | h
    · subst h
      rw [generateChunkIdsForSize_zero]
      simp
    · have hceil := ceil_divInt_ofInt s UPLOAD_CHUNK_SIZE h h53 hC
      have hsq : (0 : ℚ) < s := by exact_mod_cast h
      have hlo : 0 ≤ ⌈(s : ℚ) / (UPLOAD_CHUNK_SIZE : ℚ)⌉ :=
        Int.ceil_nonneg (div_pos hsq hCq).le
      have hhi : ⌈(s : ℚ) / (UPLOAD_CHUNK_SIZE : ℚ)⌉ ≤ INT_MAX := by
        rw [Int.ceil_le, div_le_iff₀ hCq]
        have h1 : (s : ℚ) < (2 : ℚ) ^ (53 : Nat) := by exact_mod_cast h53
        have h2 : ((INT_MAX : Int) : ℚ) * (UPLOAD_CHUNK_SIZE : ℚ) = 22517998126366720 := by
          norm_num [INT_MAX, UPLOAD_CHUNK_SIZE]
        rw [h2]
        norm_num at h1
        linarith
      have hmin : INT_MIN ≤ ⌈(s : ℚ) / (UPLOAD_CHUNK_SIZE : ℚ)⌉ := by
        have : INT_MIN ≤ 0 := by decide
        omega
      have hq : qCeil ((Dbl.ofInt s).divInt UPLOAD_CHUNK_SIZE) =
          ⌈(s : ℚ) / (UPLOAD_CHUNK_SIZE : ℚ)⌉ := by
        unfold qCeil
        simp only [hceil]
        rw [if_pos ⟨hmin, hhi⟩]
      simp only [generateChunkIdsForSize, List.length_map, List.length_range, hq]
      exact Int.toNat_of_nonneg hlo
  refine ⟨hlen, ?_, ?_⟩
  · rintro rfl
    exact generateChunkIdsForSize_zero createUuid
  · intro h1 h2
    have hsq : (1 : ℚ) ≤ s := by exact_mod_cast h1
    have hsC : (s : ℚ) ≤ (UPLOAD_CHUNK_SIZE : ℚ) := by exact_mod_cast h2
    have : ⌈(s : ℚ) / (UPLOAD_CHUNK_SIZE : ℚ)⌉ = 1 := by
      rw [Int.ceil_eq_iff]
      constructor
      · simp only [Int.cast_one, sub_self]
        exact div_pos (by linarith) hCq
      · rw [Int.cast_one, div_le_iff₀ hCq]
        linarith
    rw [this] at hlen
    exact_mod_cast hlen

/-- Witness for C6 (amended): a file of two chunks and one byte gets three
chunk ids. -/
theorem generateChunkIdsForSize_length_witness :
    ((generateChunkIdsForSize sampleUuid 20971521).length : Int) =
      ⌈((20971521 : Int) : ℚ) / (UPLOAD_CHUNK_SIZE : ℚ)⌉ :=
  (generateChunkIdsForSize_length sampleUuid 20971521 (by decide) (by decide)).1

/-! ## The `Range` header of a chunk download -/

/-- While `UPLOAD_CHUNK_SIZE * ( chunkNo + 1 ) - 1` fits into an `int`, that is
for chunk indices `0 … 203`, the range is the one the protocol asks for. -/
theorem rangeHeader_in_range (i : Int) (h0 : 0 ≤ i) (h1 : i ≤ 203) :
    rangeFrom i = UPLOAD_CHUNK_SIZE * i ∧ rangeTo i = UPLOAD_CHUNK_SIZE * (i + 1) - 1 := by
  simp only [rangeFrom, rangeTo, wrapInt32, UPLOAD_CHUNK_SIZE]
  omega

/-- C7 fails on the code at chunk index 204 (the 205th chunk, reached by every
file larger than `204 * UPLOAD_CHUNK_SIZE` = 2 139 095 040 bytes): the claim asks
for `bytes=2139095040-2149580799`, but the end of the range does not fit into
the `int to` and the header carries a negative end. -/
theorem rangeHeader_overflow :
    rangeHeader 204 = "bytes=2139095040--2145386497" ∧
    rangeFrom 204 = UPLOAD_CHUNK_SIZE * 204 ∧
    rangeTo 204 ≠ UPLOAD_CHUNK_SIZE * (204 + 1) - 1 := by
  decide

/-! ## Facts about the engine -/

namespace QHash

variable {β : Type}

theorem value_insert_self [Inhabited β] (m : QHash β) (k : String) (v : β) :
    (m.insert k v).value k = v := by
  simp [value, find?_insert]

theorem contains_insert_self (m : QHash β) (k : String) (v : β) :
    (m.insert k v).contains k = true := by
  simp [contains_eq_isSome, find?_insert]

theorem value_of_not_contains [Inhabited β] (m : QHash β) (k : String)
    (h : m.contains k = false) : m.value k = default := by
  rw [contains_eq_isSome] at h
  cases hf : m.find? k with
  | none => simp [value, hf]
  | some v => simp [hf] at h

end QHash

namespace MerginApi

theorem SameWorld.trans {a b c : MerginApi} (h1 : SameWorld a b) (h2 : SameWorld b c) :
    SameWorld a c :=
  ⟨h2.1.trans h1.1, h2.2.1.trans h1.2.1, h2.2.2.1.trans h1.2.2.1, h2.2.2.2.trans h1.2.2.2⟩

theorem ref_transaction (s : MerginApi) (p : String) :
    (s.ref p).transaction p = s.transaction p := by
  unfold ref
  split
  · rfl
  · rename_i h
    simp only [Bool.not_eq_true] at h
    simp only [transaction, QHash.value_insert_self, QHash.value_of_not_contains _ _ h]
    rfl

theorem ref_sameWorld (s : MerginApi) (p : String) : SameWorld s (s.ref p) := by
  unfold ref
  split <;> exact ⟨rfl, rfl, rfl, rfl⟩

theorem ref_trace (s : MerginApi) (p : String) : (s.ref p).trace = s.trace := by
  unfold ref
  split <;> rfl

theorem transaction_setTransaction (s : MerginApi) (p : String) (t : TransactionStatus) :
    (s.setTransaction p t).transaction p = t := by
  simp [transaction, setTransaction, QHash.value_insert_self]

theorem emit_trace (s : MerginApi) (sig : Signal) :
    (s.emit sig).trace = s.trace ++ [Event.signal sig] := by
  unfold emit
  split <;> rfl

theorem emit_store (s : MerginApi) (sig : Signal) :
    (s.emit sig).mTransactionalStatus = s.mTransactionalStatus := by
  unfold emit
  split <;> rfl

theorem authorizeFinished_store (s : MerginApi) (r : AuthReply) :
    (s.authorizeFinished r).mTransactionalStatus = s.mTransactionalStatus := by
  cases r with
  | session token expire userId diskUsage storageLimit username =>
    simp [authorizeFinished, emit_store]
  | notAnObject => simp [authorizeFinished, emit_store]
  | error status serverMsg =>
    simp only [authorizeFinished, clearTokenData]
    split <;> simp [emit_store]

theorem validateAuthAndContinute_store (s : MerginApi) :
    s.validateAuthAndContinute.1.mTransactionalStatus = s.mTransactionalStatus := by
  unfold validateAuthAndContinute
  split
  · exact emit_store _ _
  · split
    · simp [authorizeFinished_store, authorize, send]
    · rfl

/-- With an open gate, `validateAuthAndContinute` returns `true` and leaves the
state as it is. -/
theorem validateAuthAndContinute_of_gateOpen (s : MerginApi) (h : s.gateOpen) :
    s.validateAuthAndContinute = (s, true) := by
  obtain ⟨h1, h2, h3, _⟩ := h
  unfold validateAuthAndContinute
  simp [h1, h2, h3]

theorem getProjectInfo_store (s : MerginApi) (p : String) :
    (s.getProjectInfo p).1.mTransactionalStatus = s.mTransactionalStatus := by
  unfold getProjectInfo
  simp only
  split
  · exact validateAuthAndContinute_store s
  · simp [send, validateAuthAndContinute_store]

/-- After `uploadProject` the store has an entry for the project, whether or
not the project-info request was issued. -/
theorem uploadProject_contains (s : MerginApi) (ns name : String) :
    (s.uploadProject ns name).mTransactionalStatus.contains (getFullProjectName ns name) =
      true := by
  unfold uploadProject
  simp only
  split <;> simp [emit_store, setTransaction, QHash.contains_insert_self]

/-- `uploadProject` emits no `syncProjectFinished`. -/
theorem uploadProject_no_finished (s : MerginApi) (ns name : String) :
    (s.uploadProject ns name).trace.filter Event.isSyncProjectFinished =
      s.trace.filter Event.isSyncProjectFinished := by
  have hemit : ∀ (a : MerginApi) (sig : Signal), Event.isSyncProjectFinished (Event.signal sig) = false →
      (a.emit sig).trace.filter Event.isSyncProjectFinished =
        a.trace.filter Event.isSyncProjectFinished := by
    intro a sig h
    simp [emit_trace, h]
  have hauth : ∀ (a : MerginApi) (r : AuthReply),
      (a.authorizeFinished r).trace.filter Event.isSyncProjectFinished =
        a.trace.filter Event.isSyncProjectFinished := by
    intro a r
    cases r with
    | session token expire userId diskUsage storageLimit username =>
      simp [authorizeFinished, emit_trace, Event.isSyncProjectFinished]
    | notAnObject => simp [authorizeFinished, emit_trace, Event.isSyncProjectFinished]
    | error status serverMsg =>
      simp only [authorizeFinished, clearTokenData]
      split <;> simp [emit_trace, Event.isSyncProjectFinished]
  have hval : ∀ a : MerginApi,
      a.validateAuthAndContinute.1.trace.filter Event.isSyncProjectFinished =
        a.trace.filter Event.isSyncProjectFinished := by
    intro a
    unfold validateAuthAndContinute
    split
    · exact hemit _ _ rfl
    · split
      · rw [hauth]
        simp [authorize, send, Event.isSyncProjectFinished]
      · rfl
  have hget : ∀ (a : MerginApi) (p : String),
      (a.getProjectInfo p).1.trace.filter Event.isSyncProjectFinished =
        a.trace.filter Event.isSyncProjectFinished := by
    intro a p
    unfold getProjectInfo
    simp only
    split
    · exact hval a
    · simp [send, hval a, Event.isSyncProjectFinished]
  unfold uploadProject
  simp only
  have h2 := hget (s.setTransaction (getFullProjectName ns name) {}) (getFullProjectName ns name)
  split
  · simp [emit_trace, setTransaction, Event.isSyncProjectFinished] at h2 ⊢
    exact h2
  · simp [setTransaction] at h2 ⊢
    exact h2

theorem createEmptyFile_store (s : MerginApi) (path : String) :
    (s.createEmptyFile path).mTransactionalStatus = s.mTransactionalStatus := rfl

theorem generateChunkIds_eq (s : MerginApi) (fileSize : Int) :
    (s.generateChunkIds fileSize).1 =
      { s with uuidCount := (s.generateChunkIds fileSize).1.uuidCount } := rfl

theorem foldl_queueDownload_eq (serverProject : MerginProjectMetadata) (l : List String)
    (st : MerginApi × List MerginFile × Int) :
    (l.foldl (queueDownload serverProject) st).1 =
      { st.1 with uuidCount := (l.foldl (queueDownload serverProject) st).1.uuidCount } := by
  induction l generalizing st with
  | nil => rfl
  | cons a l ih =>
    simp only [List.foldl_cons]
    rw [ih]
    simp [queueDownload, generateChunkIds]

theorem foldl_queueUpload_eq (localFiles : List MerginFile) (l : List String)
    (st : MerginApi × List MerginFile) :
    (l.foldl (queueUpload localFiles) st).1 =
      { st.1 with uuidCount := (l.foldl (queueUpload localFiles) st).1.uuidCount } := by
  induction l generalizing st with
  | nil => rfl
  | cons a l ih =>
    simp only [List.foldl_cons]
    rw [ih]
    simp [queueUpload, generateChunkIds]

theorem planProjectUpdate_eq (s : MerginApi) (t : TransactionStatus) (data : String) :
    (s.planProjectUpdate t data).1 =
      { s with uuidCount := (s.planProjectUpdate t data).1.uuidCount } := by
  unfold planProjectUpdate
  simp only
  rw [foldl_queueDownload_eq, foldl_queueDownload_eq, foldl_queueDownload_eq,
    foldl_queueDownload_eq]

theorem ref_projectFromMerginName (s : MerginApi) (p q : String) :
    (s.ref p).projectFromMerginName q = s.projectFromMerginName q := by
  unfold projectFromMerginName
  rw [(ref_sameWorld s p).2.1]

theorem ref_env (s : MerginApi) (p : String) : (s.ref p).env = s.env :=
  (ref_sameWorld s p).2.2.1

theorem planProjectUpload_eq (s : MerginApi) (t : TransactionStatus)
    (serverProject : MerginProjectMetadata) :
    (s.planProjectUpload t serverProject).1 =
      { s with
          uuidCount := (s.planProjectUpload t serverProject).1.uuidCount
          mLocalProjects := (s.updateMerginServerVersion t.projectDir
            serverProject.version).mLocalProjects } := by
  unfold planProjectUpload
  simp only
  rw [foldl_queueUpload_eq, foldl_queueUpload_eq]
  rfl

/-- With an open gate, `uploadStart` issues exactly the `uploadStart` request. -/
theorem uploadStart_trace_of_gateOpen (s : MerginApi) (p : String) (json : PushJson)
    (h : s.gateOpen) :
    (s.uploadStart p json).trace =
      s.trace ++ [Event.request s.nextReply (Request.uploadStart p json)] := by
  unfold uploadStart
  rw [validateAuthAndContinute_of_gateOpen s h]
  have h4 : s.mApiVersionStatus = VersionStatus.OK := h.2.2.2
  simp only [h4, ne_eq, not_true_eq_false, or_false, Bool.not_true, Bool.false_eq_true,
    if_false]
  simp only [setTransaction, send, ref_trace]
  unfold ref
  split <;> rfl

end MerginApi

/-! ## End of a sync -/

/-- C8 fails on the code: after a failed update that ran before an upload
(`updateBeforeUpload` set), `finishProjectSync( "ns/proj", false )` calls
`uploadProject` all the same: the store holds an entry for the project again,
the project-info request of a new upload is issued, and `syncProjectFinished`
is not emitted. -/
theorem finishProjectSync_failure_chains_into_upload :
    (sampleUpdateBeforeUpload.transaction "ns/proj").updateBeforeUpload = true ∧
    (sampleUpdateBeforeUpload.finishProjectSync "ns/proj" false).mTransactionalStatus.contains
      "ns/proj" = true ∧
    (sampleUpdateBeforeUpload.finishProjectSync "ns/proj" false).trace =
      [Event.signal (Signal.syncProjectStatusChanged "ns/proj" { num := -1 }),
       Event.request 0 (Request.projectInfo "ns/proj" "token"),
       Event.signal (Signal.syncProjectStatusChanged "ns/proj" { num := 0 })] := by
  decide

/-- The defect behind C8 in general: whenever `updateBeforeUpload` is set,
`finishProjectSync` ends in `uploadProject`, for a failed sync as for a
successful one; the store has an entry for the project that `uploadProject` is
called for, and no `syncProjectFinished` is emitted. -/
theorem finishProjectSync_updateBeforeUpload (s : MerginApi) (p : String) (ok : Bool)
    (h : (s.transaction p).updateBeforeUpload = true) :
    (s.finishProjectSync p ok).mTransactionalStatus.contains
      (MerginApi.getFullProjectName (MerginApi.extractProjectName p "").2.1
        (MerginApi.extractProjectName p "").2.2) = true ∧
    (s.finishProjectSync p ok).trace.filter Event.isSyncProjectFinished =
      s.trace.filter Event.isSyncProjectFinished := by
  unfold MerginApi.finishProjectSync
  simp only [MerginApi.ref_transaction, h, if_true]
  refine ⟨MerginApi.uploadProject_contains _ _ _, ?_⟩
  rw [MerginApi.uploadProject_no_finished]
  cases ok <;>
    simp [MerginApi.emit_trace, MerginApi.ref_trace, Event.isSyncProjectFinished,
      MerginApi.updateMerginServerVersion, MerginApi.updateMerginLocalVersion,
      MerginApi.writeData, MerginApi.createPathIfNotExists]

/-! ## The project-info reply of an upload -/

namespace MerginApi

/-- The code of `takeFirstAndDownload` in the source: an empty first file is
created and `continueDownloadFiles( …, 0 )` is called, else chunk 0 of the
first file is requested. -/
theorem takeFirstAndDownload_eq (s : MerginApi) (p version : String) :
    s.takeFirstAndDownload p version =
      match (s.transaction p).files with
      | [] => s
      | nextFile :: _ =>
        if nextFile.size = 0 then
          (s.createEmptyFile (s.getTempProjectDir p ++ "/" ++ nextFile.path)).continueDownloadFiles
            p version 0
        else
          s.downloadFile p nextFile.path version 0 := by
  unfold takeFirstAndDownload
  cases hfiles : (s.transaction p).files with
  | nil => rfl
  | cons nextFile rest =>
    simp only [takeFirstAndDownloadAux]
    split
    · have h1 : (((s.createEmptyFile (s.getTempProjectDir p ++ "/" ++ nextFile.path)).ref
          p).transaction p).files = nextFile :: rest := by
        rw [ref_transaction]
        exact hfiles
      unfold continueDownloadFiles
      simp only [h1]
      split
      · rfl
      · split
        · rw [takeFirstAndDownload, transaction_setTransaction]
        · rfl
    · rfl

end MerginApi

/-! ## Iteration order of the differ -/

/-- The second loop of `compareProjectFiles` runs over a `QHash`, whose
iteration order is not specified: for remote files with pairwise different
paths, the order does not change what is in which category. -/
theorem foldl_compareServerFile_perm (l l2 : List MerginFile)
    (st : ProjectDiff × QHash MerginFile) (hl : (l.map MerginFile.path).Nodup)
    (hperm : l2.Perm l) (c : Category) (p : String) :
    p ∈ (l2.foldl compareServerFile st).1.get c ↔ p ∈ (l.foldl compareServerFile st).1.get c := by
  have hl2 : (l2.map MerginFile.path).Nodup := (hperm.map MerginFile.path).nodup_iff.mpr hl
  rw [foldl_compareServerFile_mem l st hl, foldl_compareServerFile_mem l2 st hl2]
  constructor
  · rintro (h | ⟨f, hf, h⟩)
    · exact Or.inl h
    · exact Or.inr ⟨f, hperm.mem_iff.mp hf, h⟩
  · rintro (h | ⟨f, hf, h⟩)
    · exact Or.inl h
    · exact Or.inr ⟨f, hperm.mem_iff.mpr hf, h⟩

/-! ## The auth gate after a refused login -/

/-- C16 fails on the code: with credentials, an expired token and a server that
refuses the login, `validateAuthAndContinute` returns `true` although the
token is empty on return (and the credentials are cleared), and the guarded
`getProjectInfo` issues its request all the same, with an empty token. -/
theorem validateAuthAndContinute_true_after_refused_login :
    sampleExpired.hasAuthData = true ∧
    sampleExpired.mTokenExpiration < sampleExpired.now ∧
    sampleExpired.env.authReply sampleExpired.authCount = AuthReply.error 401 "refused" ∧
    sampleExpired.validateAuthAndContinute.2 = true ∧
    sampleExpired.validateAuthAndContinute.1.mAuthToken = "" ∧
    sampleExpired.validateAuthAndContinute.1.hasAuthData = false ∧
    (sampleExpired.getProjectInfo "ns/proj").2 = some 1 ∧
    (sampleExpired.getProjectInfo "ns/proj").1.trace =
      [Event.request 0 (Request.authorize "user" "secret"),
       Event.signal Signal.authFailed,
       Event.signal (Signal.notify "refused"),
       Event.request 1 (Request.projectInfo "ns/proj" "")] := by
  decide

/-! ## Chunks written to the temporary directory -/

/-- C17 fails on the code: for `b.bin`, a file of two chunks whose temporary
file holds `OLD`, the bytes `abc` of chunk 0 are appended (the flag `overwrite`
is `chunks.size() <= 1`, not `chunkNo == 0`), so that after the last chunk the
file is `OLDabcdef` and not `abcdef`. -/
theorem downloadFileReplyFinished_appends_chunk_zero :
    MerginApi.overwriteFlag (sampleDownloading.transaction "ns/proj").files = false ∧
    sampleDownloading.fs.read "/data/.temp/ns/proj/b.bin" = some "OLD" ∧
    (sampleDownloading.downloadFileReplyFinished "ns/proj" "b.bin" "v6" 0
      { noError := true, data := "abc" }).fs.read "/data/.temp/ns/proj/b.bin" =
        some "OLDabc" ∧
    ((sampleDownloading.downloadFileReplyFinished "ns/proj" "b.bin" "v6" 0
      { noError := true, data := "abc" }).downloadFileReplyFinished "ns/proj" "b.bin" "v6" 1
      { noError := true, data := "def" }).fs.read "/data/proj/b.bin" = some "OLDabcdef" := by
  decide

/-- C19 as stated fails: the checksums `ab` and `AB` differ only in the case of
their hexadecimal digits, and a local file with `AB` over a baseline and a
server with `ab` is reported as `localUpdated`; with `ab` throughout nothing
is reported. -/
theorem compareProjectFiles_case_sensitive :
    (compareProjectFiles [mkFile "a" "ab"] [mkFile "a" "ab"] [mkFile "a" "AB"]).localUpdated =
      ["a"] ∧
    (compareProjectFiles [mkFile "a" "ab"] [mkFile "a" "ab"] [mkFile "a" "ab"]).localUpdated =
      [] := by
  decide

/-- C15 as stated fails: without credentials `uploadCancel` stops at its auth
gate.  For a project with no transaction it emits `authRequested`, so the
state changes; for a project with an outstanding chunk upload it aborts
nothing, sends no cancel request and leaves the transaction in the store. -/
theorem uploadCancel_stops_at_gate :
    sampleLoggedOut.mTransactionalStatus.contains "ns/proj" = false ∧
    sampleLoggedOut.trace = [] ∧
    (sampleLoggedOut.uploadCancel "ns/proj").trace = [Event.signal Signal.authRequested] ∧
    ({ sampleUploadingChunk with mUsername := "" }.transaction "ns/proj").replyUploadFile =
      some 0 ∧
    ({ sampleUploadingChunk with mUsername := "" }.uploadCancel "ns/proj").trace =
      sampleUploadingChunk.trace ++ [Event.signal Signal.authRequested] ∧
    (({ sampleUploadingChunk with mUsername := "" }.uploadCancel "ns/proj").transaction
      "ns/proj").replyUploadFile = some 0 := by
  decide

namespace QHash

variable {β : Type}

theorem contains_mapValues (g : β → β) (m : QHash β) (k : String) :
    (m.mapValues g).contains k = m.contains k := by
  simp only [contains, mapValues, List.any_map]
  rfl

theorem find?_mapValues (g : β → β) (m : QHash β) (k : String) :
    (m.mapValues g).find? k = (m.find? k).map g := by
  obtain ⟨l⟩ := m
  simp only [find?, mapValues]
  induction l with
  | nil => rfl
  | cons e l ih =>
    simp only [List.map_cons, List.find?_cons]
    by_cases h : e.1 == k
    · simp [h]
    · simp only [h]
      exact ih

theorem remove_mapValues (g : β → β) (m : QHash β) (k : String) :
    (m.mapValues g).remove k = (m.remove k).mapValues g := by
  simp only [remove, mapValues, List.filter_map]
  rfl

theorem insert_mapValues (g : β → β) (m : QHash β) (k : String) (v : β) :
    (m.mapValues g).insert k (g v) = (m.insert k v).mapValues g := by
  simp only [insert, remove_mapValues]
  simp [mapValues]

theorem values_mapValues (g : β → β) (m : QHash β) :
    (m.mapValues g).values = m.values.map g := by
  simp [values, mapValues]

theorem value_mem_values [Inhabited β] (m : QHash β) (k : String) (h : m.contains k = true) :
    m.value k ∈ m.values := by
  rw [contains_eq_isSome] at h
  obtain ⟨v, hv⟩ := Option.isSome_iff_exists.mp h
  have := mem_entries_of_find? m k v hv
  simp only [value, hv, Option.getD_some, values, List.mem_map]
  exact ⟨(k, v), this, rfl⟩

theorem value_mapValues [Inhabited β] (g : β → β) (m : QHash β) (k : String)
    (h : m.contains k = true) : (m.mapValues g).value k = g (m.value k) := by
  rw [contains_eq_isSome] at h
  obtain ⟨v, hv⟩ := Option.isSome_iff_exists.mp h
  simp [value, find?_mapValues, hv]

theorem values_remove_subset (m : QHash β) (k : String) (v : β) (h : v ∈ (m.remove k).values) :
    v ∈ m.values := by
  simp only [values, remove, List.mem_map, List.mem_filter] at h ⊢
  obtain ⟨e, ⟨he, _⟩, rfl⟩ := h
  exact ⟨e, he, rfl⟩

end QHash
/-! ## `compareProjectFiles` reads checksums by equality only -/

theorem beq_of_injOn (g : String → String) (P : String → Prop)
    (hg : ∀ a b, P a → P b → g a = g b → a = b) (a b : String) (ha : P a) (hb : P b) :
    (g a == g b) = (a == b) := by
  by_cases h : a = b
  · subst h
    simp
  · have : g a ≠ g b := fun h2 => h (hg a b ha hb h2)
    simp [h, this]

theorem bne_of_injOn (g : String → String) (P : String → Prop)
    (hg : ∀ a b, P a → P b → g a = g b → a = b) (a b : String) (ha : P a) (hb : P b) :
    (g a != g b) = (a != b) := by
  simp only [bne, beq_of_injOn g P hg a b ha hb]

theorem compareLocalFile_mapChecksum (g : String → String) (P : String → Prop)
    (hg : ∀ a b, P a → P b → g a = g b → a = b) (st : CompareState) (f : MerginFile)
    (ho : ∀ v ∈ st.oldServerFilesMap.values, P v.checksum)
    (hn : ∀ v ∈ st.newServerFilesMap.values, P v.checksum) (hf : P f.checksum) :
    compareLocalFile (st.mapChecksum g) (f.mapChecksum g) =
      (compareLocalFile st f).mapChecksum g := by
  have hpath : (f.mapChecksum g).path = f.path := rfl
  have hchk : (f.mapChecksum g).checksum = g f.checksum := rfl
  unfold compareLocalFile CompareState.mapChecksum
  simp only [hpath, hchk, QHash.contains_mapValues]
  cases hco : st.oldServerFilesMap.contains f.path <;>
    cases hcn : st.newServerFilesMap.contains f.path
  · simp
  · have hv := QHash.value_mapValues (MerginFile.mapChecksum g) _ _ hcn
    have hP := hn _ (QHash.value_mem_values _ _ hcn)
    simp only [hv, MerginFile.mapChecksum, bne_of_injOn g P hg _ _ hP hf]
    simp [QHash.remove_mapValues, MerginFile.mapChecksum]
  · have hv := QHash.value_mapValues (MerginFile.mapChecksum g) _ _ hco
    have hP := ho _ (QHash.value_mem_values _ _ hco)
    simp only [hv, MerginFile.mapChecksum, beq_of_injOn g P hg _ _ hP hf]
    simp [QHash.remove_mapValues, MerginFile.mapChecksum]
  · have hv := QHash.value_mapValues (MerginFile.mapChecksum g) _ _ hco
    have hP := ho _ (QHash.value_mem_values _ _ hco)
    have hv2 := QHash.value_mapValues (MerginFile.mapChecksum g) _ _ hcn
    have hP2 := hn _ (QHash.value_mem_values _ _ hcn)
    simp only [hv, hv2, MerginFile.mapChecksum, beq_of_injOn g P hg _ _ hP hP2,
      bne_of_injOn g P hg _ _ hP hf, bne_of_injOn g P hg _ _ hP2 hf]
    simp [QHash.remove_mapValues, MerginFile.mapChecksum]

theorem compareLocalFile_values_old (st : CompareState) (f v : MerginFile)
    (h : v ∈ (compareLocalFile st f).oldServerFilesMap.values) :
    v ∈ st.oldServerFilesMap.values := by
  unfold compareLocalFile at h
  simp only at h
  split at h
  · exact QHash.values_remove_subset _ _ _ h
  · exact h

theorem compareLocalFile_values_new (st : CompareState) (f v : MerginFile)
    (h : v ∈ (compareLocalFile st f).newServerFilesMap.values) :
    v ∈ st.newServerFilesMap.values := by
  unfold compareLocalFile at h
  simp only at h
  split at h
  · exact QHash.values_remove_subset _ _ _ h
  · exact h

theorem foldl_compareLocalFile_mapChecksum (g : String → String) (P : String → Prop)
    (hg : ∀ a b, P a → P b → g a = g b → a = b) (l : List MerginFile) (st : CompareState)
    (ho : ∀ v ∈ st.oldServerFilesMap.values, P v.checksum)
    (hn : ∀ v ∈ st.newServerFilesMap.values, P v.checksum)
    (hl : ∀ f ∈ l, P f.checksum) :
    (l.map (MerginFile.mapChecksum g)).foldl compareLocalFile (st.mapChecksum g) =
      (l.foldl compareLocalFile st).mapChecksum g ∧
    (∀ v ∈ (l.foldl compareLocalFile st).oldServerFilesMap.values, P v.checksum) ∧
    (∀ v ∈ (l.foldl compareLocalFile st).newServerFilesMap.values, P v.checksum) := by
  induction l generalizing st with
  | nil => exact ⟨rfl, ho, hn⟩
  | cons f l ih =>
    simp only [List.map_cons, List.foldl_cons]
    rw [compareLocalFile_mapChecksum g P hg st f ho hn (hl f (List.mem_cons_self _ _))]
    exact ih (compareLocalFile st f)
      (fun v hv => ho v (compareLocalFile_values_old st f v hv))
      (fun v hv => hn v (compareLocalFile_values_new st f v hv))
      (fun f2 hf2 => hl f2 (List.mem_cons_of_mem _ hf2))

theorem compareServerFile_mapChecksum (g : String → String) (P : String → Prop)
    (hg : ∀ a b, P a → P b → g a = g b → a = b) (d : ProjectDiff) (om : QHash MerginFile)
    (f : MerginFile) (ho : ∀ v ∈ om.values, P v.checksum) (hf : P f.checksum) :
    compareServerFile (d, om.mapValues (MerginFile.mapChecksum g)) (f.mapChecksum g) =
      ((compareServerFile (d, om) f).1,
        (compareServerFile (d, om) f).2.mapValues (MerginFile.mapChecksum g)) := by
  have hpath : (f.mapChecksum g).path = f.path := rfl
  have hchk : (f.mapChecksum g).checksum = g f.checksum := rfl
  unfold compareServerFile
  simp only [hpath, hchk, QHash.contains_mapValues]
  cases hco : om.contains f.path
  · simp
  · have hv := QHash.value_mapValues (MerginFile.mapChecksum g) _ _ hco
    have hP := ho _ (QHash.value_mem_values _ _ hco)
    simp only [hv, MerginFile.mapChecksum, beq_of_injOn g P hg _ _ hP hf]
    simp [QHash.remove_mapValues, MerginFile.mapChecksum]

theorem compareServerFile_values (st : ProjectDiff × QHash MerginFile) (f v : MerginFile)
    (h : v ∈ (compareServerFile st f).2.values) : v ∈ st.2.values := by
  unfold compareServerFile at h
  simp only at h
  split at h
  · exact QHash.values_remove_subset _ _ _ h
  · exact h

theorem foldl_compareServerFile_mapChecksum (g : String → String) (P : String → Prop)
    (hg : ∀ a b, P a → P b → g a = g b → a = b) (l : List MerginFile) (d : ProjectDiff)
    (om : QHash MerginFile) (ho : ∀ v ∈ om.values, P v.checksum)
    (hl : ∀ f ∈ l, P f.checksum) :
    ((l.map (MerginFile.mapChecksum g)).foldl compareServerFile
        (d, om.mapValues (MerginFile.mapChecksum g))).1 =
      (l.foldl compareServerFile (d, om)).1 := by
  induction l generalizing d om with
  | nil => rfl
  | cons f l ih =>
    simp only [List.map_cons, List.foldl_cons]
    rw [compareServerFile_mapChecksum g P hg d om f ho (hl f (List.mem_cons_self _ _))]
    exact ih _ _ (fun v hv => ho v (compareServerFile_values (d, om) f v hv))
      (fun f2 hf2 => hl f2 (List.mem_cons_of_mem _ hf2))

theorem foldl_insert_mapChecksum (g : String → String) (l : List MerginFile)
    (m : QHash MerginFile) :
    (l.map (MerginFile.mapChecksum g)).foldl (fun m file => m.insert file.path file)
        (m.mapValues (MerginFile.mapChecksum g)) =
      (l.foldl (fun m file => m.insert file.path file) m).mapValues (MerginFile.mapChecksum g) := by
  induction l generalizing m with
  | nil => rfl
  | cons f l ih =>
    simp only [List.map_cons, List.foldl_cons]
    have : (f.mapChecksum g).path = f.path := rfl
    rw [this, QHash.insert_mapValues]
    exact ih _

theorem filesMap_mapChecksum (g : String → String) (l : List MerginFile) :
    filesMap (l.map (MerginFile.mapChecksum g)) =
      (filesMap l).mapValues (MerginFile.mapChecksum g) := by
  unfold filesMap
  exact foldl_insert_mapChecksum g l QHash.empty

theorem foldl_insert_values (l : List MerginFile) (m : QHash MerginFile) (v : MerginFile)
    (h : v ∈ (l.foldl (fun m file => m.insert file.path file) m).values) :
    v ∈ m.values ∨ v ∈ l := by
  induction l generalizing m with
  | nil => exact Or.inl h
  | cons f l ih =>
    simp only [List.foldl_cons] at h
    rcases ih _ h with h1 | h1
    · simp only [QHash.insert, QHash.values, List.map_cons, List.mem_cons] at h1
      rcases h1 with h1 | h1
      · exact Or.inr (h1 ▸ List.mem_cons_self _ _)
      · exact Or.inl (QHash.values_remove_subset _ _ _ h1)
    · exact Or.inr (List.mem_cons_of_mem _ h1)

theorem filesMap_values (l : List MerginFile) (v : MerginFile) (h : v ∈ (filesMap l).values) :
    v ∈ l := by
  rcases foldl_insert_values l QHash.empty v h with h1 | h1
  · simp [QHash.empty, QHash.values] at h1
  · exact h1

theorem compareProjectFiles_mapChecksum (g : String → String) (P : String → Prop)
    (hg : ∀ a b, P a → P b → g a = g b → a = b)
    (oldServerFiles newServerFiles localFiles : List MerginFile)
    (ho : ∀ f ∈ oldServerFiles, P f.checksum) (hn : ∀ f ∈ newServerFiles, P f.checksum)
    (hl : ∀ f ∈ localFiles, P f.checksum) :
    compareProjectFiles (oldServerFiles.map (MerginFile.mapChecksum g))
        (newServerFiles.map (MerginFile.mapChecksum g))
        (localFiles.map (MerginFile.mapChecksum g)) =
      compareProjectFiles oldServerFiles newServerFiles localFiles := by
  unfold compareProjectFiles
  simp only [filesMap_mapChecksum]
  have h := foldl_compareLocalFile_mapChecksum g P hg localFiles
    { diff := {}, oldServerFilesMap := filesMap oldServerFiles,
      newServerFilesMap := filesMap newServerFiles }
    (fun v hv => ho v (filesMap_values _ v hv)) (fun v hv => hn v (filesMap_values _ v hv)) hl
  obtain ⟨h1, h2, h3⟩ := h
  simp only [CompareState.mapChecksum] at h1
  rw [h1]
  simp only [QHash.values_mapValues]
  exact foldl_compareServerFile_mapChecksum g P hg _ _ _ h2
    (fun f hf => h3 f hf)

/-- C19 (amended): `compareProjectFiles` compares checksums as exact strings.
Renaming the checksums of the three lists by any `g` that keeps different
checksums of the lists different leaves the returned diff unchanged; the
letter case of a checksum is not ignored. -/
theorem compareProjectFiles_checksum_renaming (g : String → String)
    (oldServerFiles newServerFiles localFiles : List MerginFile)
    (hg : ∀ a ∈ checksums oldServerFiles ++ checksums newServerFiles ++ checksums localFiles,
      ∀ b ∈ checksums oldServerFiles ++ checksums newServerFiles ++ checksums localFiles,
        g a = g b → a = b) :
    compareProjectFiles (oldServerFiles.map (MerginFile.mapChecksum g))
        (newServerFiles.map (MerginFile.mapChecksum g))
        (localFiles.map (MerginFile.mapChecksum g)) =
      compareProjectFiles oldServerFiles newServerFiles localFiles := by
  apply compareProjectFiles_mapChecksum g
    (fun a => a ∈ checksums oldServerFiles ++ checksums newServerFiles ++ checksums localFiles)
    (fun a b ha hb => hg a ha b hb)
  · intro f hf
    simp only [checksums, List.mem_append, List.mem_map]
    exact Or.inl (Or.inl ⟨f, hf, rfl⟩)
  · intro f hf
    simp only [checksums, List.mem_append, List.mem_map]
    exact Or.inl (Or.inr ⟨f, hf, rfl⟩)
  · intro f hf
    simp only [checksums, List.mem_append, List.mem_map]
    exact Or.inr ⟨f, hf, rfl⟩

/-- Witness for C19 (amended): in the example no two checksums differ only in
letter case, so putting them into lower case keeps them apart and the diff is
the same. -/
theorem compareProjectFiles_checksum_renaming_witness :
    compareProjectFiles
        ([mkFile "a" "AB", mkFile "b" "CD"].map (MerginFile.mapChecksum lowerHex))
        ([mkFile "a" "EF"].map (MerginFile.mapChecksum lowerHex))
        ([mkFile "a" "AB", mkFile "c" "CD"].map (MerginFile.mapChecksum lowerHex)) =
      compareProjectFiles [mkFile "a" "AB", mkFile "b" "CD"] [mkFile "a" "EF"]
        [mkFile "a" "AB", mkFile "c" "CD"] :=
  compareProjectFiles_checksum_renaming lowerHex _ _ _ (by decide)

/-! ## The push request and the upload queue -/

theorem findFile_of_mem (p : String) (l : List MerginFile) (h : p ∈ l.map MerginFile.path) :
    findFile p l ∈ l ∧ (findFile p l).path = p := by
  unfold findFile
  cases hf : l.find? (fun merginFile => merginFile.path == p) with
  | none =>
    rw [List.find?_eq_none] at hf
    simp only [List.mem_map] at h
    obtain ⟨f, hfl, rfl⟩ := h
    exact absurd (by simp) (hf f hfl)
  | some f =>
    simp only [Option.getD_some]
    exact ⟨List.mem_of_find?_eq_some hf, by simpa using List.find?_some hf⟩

theorem foldl_compareLocalFile_mem_keep (l : List MerginFile) (st : CompareState)
    (c : Category) (hc : ∀ om nm f, ¬ LocalCond om nm f c) (p : String)
    (h : p ∈ (l.foldl compareLocalFile st).diff.get c) : p ∈ st.diff.get c := by
  induction l generalizing st with
  | nil => exact h
  | cons g l ih =>
    simp only [List.foldl_cons] at h
    rcases (compareLocalFile_mem st g c p).mp (ih _ h) with h2 | ⟨_, h2⟩
    · exact h2
    · exact absurd h2 (hc _ _ _)

theorem foldl_compareServerFile_mem_keep (l : List MerginFile)
    (st : ProjectDiff × QHash MerginFile) (c : Category) (hc : ∀ om f, ¬ ServerCond om f c)
    (p : String) (h : p ∈ (l.foldl compareServerFile st).1.get c) : p ∈ st.1.get c := by
  induction l generalizing st with
  | nil => exact h
  | cons g l ih =>
    simp only [List.foldl_cons] at h
    rcases (compareServerFile_mem st g c p).mp (ih _ h) with h2 | ⟨_, h2⟩
    · exact h2
    · exact absurd h2 (hc _ _)

/-- A path reported in a category of the first loop is the path of a local
file, whatever the three lists are. -/
theorem compareProjectFiles_mem_of_local_category (old new loc : List MerginFile)
    (c : Category) (hc : ∀ om f, ¬ ServerCond om f c) (p : String)
    (h : p ∈ (compareProjectFiles old new loc).get c) : p ∈ loc.map MerginFile.path := by
  simp only [compareProjectFiles] at h
  have h1 := foldl_compareServerFile_mem_keep _ _ c hc p h
  rcases foldl_compareLocalFile_mem_imp _ _ c p h1 with h2 | h2
  · cases c <;> simp [ProjectDiff.get] at h2
  · exact h2

/-- A path reported in a category of the second loop is the path of a remote
file and of no local file, whatever the three lists are. -/
theorem compareProjectFiles_mem_of_server_category (old new loc : List MerginFile)
    (c : Category) (hc : ∀ om nm f, ¬ LocalCond om nm f c) (p : String)
    (h : p ∈ (compareProjectFiles old new loc).get c) :
    p ∈ new.map MerginFile.path ∧ p ∉ loc.map MerginFile.path := by
  simp only [compareProjectFiles] at h
  rcases foldl_compareServerFile_mem_imp _ _ c p h with h1 | h1
  · have h2 := foldl_compareLocalFile_mem_keep _ _ c hc p h1
    cases c <;> simp [ProjectDiff.get] at h2
  · rw [foldl_compareLocalFile_new] at h1
    simp only [QHash.values, List.map_map, List.mem_map, Function.comp] at h1
    obtain ⟨e, he, rfl⟩ := h1
    have he2 := (QHash.mem_removeAll_entries _ _ e).mp he
    have hpath : e.2.path = e.1 := (WFMap_filesMap new).2 e he2.1
    have hfind := QHash.find?_entry_of_nodup _ (WFMap_filesMap new).1 e he2.1
    refine ⟨?_, ?_⟩
    · rw [hpath, ← filesMap_contains, QHash.contains_eq_isSome, hfind]
      rfl
    · rw [hpath]
      exact he2.2

namespace MerginApi

/-- The records that the loops over `localAdded` and `localUpdated` queue: the
local record of each path, with fresh chunk ids. -/
theorem foldl_queueUpload_records (localFiles : List MerginFile) (l : List String)
    (st : MerginApi × List MerginFile) :
    ∃ tail, (l.foldl (queueUpload localFiles) st).2 = st.2 ++ tail ∧
      List.Forall₂ (fun (f : MerginFile) (path : String) =>
          f = { findFile path localFiles with chunks := f.chunks }) tail l := by
  induction l generalizing st with
  | nil => exact ⟨[], by simp, List.Forall₂.nil⟩
  | cons a l ih =>
    simp only [List.foldl_cons]
    obtain ⟨tail, h1, h2⟩ := ih (queueUpload localFiles st a)
    have hq : (queueUpload localFiles st a).2 =
        st.2 ++ [{ findFile a localFiles with
          chunks := (st.1.generateChunkIds (findFile a localFiles).size).2 }] := rfl
    rw [hq, List.append_assoc] at h1
    exact ⟨_, h1, List.Forall₂.cons rfl h2⟩

end MerginApi

namespace MerginApi

theorem getLocalProjectFiles_congr (s s' : MerginApi) (h : SameWorld s s') (d : String) :
    s'.getLocalProjectFiles d = s.getLocalProjectFiles d := by
  obtain ⟨hfs, _, henv, _⟩ := h
  simp only [getLocalProjectFiles, listFiles, getChecksum, hfs, henv]

theorem fromCachedJson_congr (s s' : MerginApi) (h : SameWorld s s') (d : String) :
    s'.fromCachedJson d = s.fromCachedJson d := by
  obtain ⟨hfs, _, henv, _⟩ := h
  simp only [fromCachedJson, hfs, henv]

theorem ref_gateOpen (s : MerginApi) (p : String) (h : s.gateOpen) : (s.ref p).gateOpen := by
  unfold ref
  split <;> exact h

theorem ref_nextReply (s : MerginApi) (p : String) : (s.ref p).nextReply = s.nextReply := by
  unfold ref
  split <;> rfl

/-- With an open gate, `uploadStart` stores the handle of its request in the
transaction and changes nothing else of it. -/
theorem uploadStart_transaction_of_gateOpen (s : MerginApi) (p : String) (json : PushJson)
    (h : s.gateOpen) :
    (s.uploadStart p json).transaction p =
      { s.transaction p with replyUploadStart := some s.nextReply } := by
  unfold uploadStart
  rw [validateAuthAndContinute_of_gateOpen s h]
  have h4 : s.mApiVersionStatus = VersionStatus.OK := h.2.2.2
  simp only [h4, ne_eq, not_true_eq_false, or_false, Bool.not_true, Bool.false_eq_true,
    if_false]
  rw [transaction_setTransaction]
  have h1 : ((s.ref p).send (Request.uploadStart p json)).1.transaction p =
      (s.ref p).transaction p := rfl
  have h2 : ((s.ref p).send (Request.uploadStart p json)).2 = s.nextReply := ref_nextReply s p
  rw [h1, h2, ref_transaction]

/-- The branch of `uploadInfoReplyFinished` that does not divert into an
update: the plan of the upload is stored and `uploadStart` is called. -/
theorem uploadInfoReplyFinished_upload_eq (s : MerginApi) (p : String) (r : NetworkReply)
    (hr : r.noError = true)
    (hcase : (s.projectFromMerginName p).isValid = false ∨
      (s.projectFromMerginName p).localVersion = -1 ∨
      ¬ (s.projectFromMerginName p).localVersion < (s.env.fromJson r.data).version) :
    s.uploadInfoReplyFinished p r =
      (((s.ref p).planProjectUpload
          { s.transaction p with
              replyUploadProjectInfo := none
              projectDir := (s.projectFromMerginName p).projectDir }
          (s.env.fromJson r.data)).1.setTransaction p
        ((s.ref p).planProjectUpload
          { s.transaction p with
              replyUploadProjectInfo := none
              projectDir := (s.projectFromMerginName p).projectDir }
          (s.env.fromJson r.data)).2.1).uploadStart p
        ((s.ref p).planProjectUpload
          { s.transaction p with
              replyUploadProjectInfo := none
              projectDir := (s.projectFromMerginName p).projectDir }
          (s.env.fromJson r.data)).2.2 := by
  have hcond : ((!(s.projectFromMerginName p).projectDir.isEmpty) &&
      (s.projectFromMerginName p).localVersion != -1 &&
      decide ((s.projectFromMerginName p).localVersion < (s.env.fromJson r.data).version)) =
        false := by
    rcases hcase with h | h | h
    · simp only [LocalProjectInfo.isValid] at h
      simp [h]
    · simp [h]
    · simp [h]
  unfold MerginApi.uploadInfoReplyFinished
  simp only [hr, if_true, MerginApi.ref_projectFromMerginName, MerginApi.ref_env,
    MerginApi.ref_transaction, LocalProjectInfo.isValid, hcond, Bool.false_eq_true,
    if_false]

/-- What `planProjectUpload` builds, in terms of the diff and the local files:
the queue is the records of `localAdded` followed by those of `localUpdated`,
each the local record of its path with fresh chunk ids. -/
theorem planProjectUpload_plan (s : MerginApi) (t : TransactionStatus)
    (serverProject : MerginProjectMetadata) :
    ∃ added updated : List MerginFile,
      (s.planProjectUpload t serverProject).2.1.files = added ++ updated ∧
      (s.planProjectUpload t serverProject).2.1.totalSize =
        ((added ++ updated).map MerginFile.size).sum ∧
      (s.planProjectUpload t serverProject).2.2.added = prepareUploadChangesJSON added ∧
      (s.planProjectUpload t serverProject).2.2.updated = prepareUploadChangesJSON updated ∧
      (s.planProjectUpload t serverProject).2.2.removed =
        prepareUploadChangesJSON
          ((compareProjectFiles (s.fromCachedJson (t.projectDir ++ "/" ++ sMetadataFile)).files
            serverProject.files (s.getLocalProjectFiles (t.projectDir ++ "/"))).localDeleted.map
            (fun filePath => findFile filePath serverProject.files)) ∧
      (s.planProjectUpload t serverProject).2.2.renamed = [] ∧
      (s.planProjectUpload t serverProject).2.2.version =
        "v" ++ toString serverProject.version ∧
      List.Forall₂ (fun (f : MerginFile) (path : String) =>
          f = { findFile path (s.getLocalProjectFiles (t.projectDir ++ "/")) with
                chunks := f.chunks }) added
        (compareProjectFiles (s.fromCachedJson (t.projectDir ++ "/" ++ sMetadataFile)).files
          serverProject.files (s.getLocalProjectFiles (t.projectDir ++ "/"))).localAdded ∧
      List.Forall₂ (fun (f : MerginFile) (path : String) =>
          f = { findFile path (s.getLocalProjectFiles (t.projectDir ++ "/")) with
                chunks := f.chunks }) updated
        (compareProjectFiles (s.fromCachedJson (t.projectDir ++ "/" ++ sMetadataFile)).files
          serverProject.files (s.getLocalProjectFiles (t.projectDir ++ "/"))).localUpdated := by
  obtain ⟨ta, ha1, ha2⟩ := foldl_queueUpload_records (s.getLocalProjectFiles (t.projectDir ++ "/"))
    (compareProjectFiles (s.fromCachedJson (t.projectDir ++ "/" ++ sMetadataFile)).files
      serverProject.files (s.getLocalProjectFiles (t.projectDir ++ "/"))).localAdded
    (s.updateMerginServerVersion t.projectDir serverProject.version, [])
  obtain ⟨tu, hu1, hu2⟩ := foldl_queueUpload_records (s.getLocalProjectFiles (t.projectDir ++ "/"))
    (compareProjectFiles (s.fromCachedJson (t.projectDir ++ "/" ++ sMetadataFile)).files
      serverProject.files (s.getLocalProjectFiles (t.projectDir ++ "/"))).localUpdated
    (((compareProjectFiles (s.fromCachedJson (t.projectDir ++ "/" ++ sMetadataFile)).files
      serverProject.files (s.getLocalProjectFiles (t.projectDir ++ "/"))).localAdded.foldl
      (queueUpload (s.getLocalProjectFiles (t.projectDir ++ "/")))
      (s.updateMerginServerVersion t.projectDir serverProject.version, [])).1, [])
  simp only [List.nil_append] at ha1 hu1
  refine ⟨ta, tu, ?_, ?_, ?_, ?_, rfl, rfl, rfl, ha2, hu2⟩
  · rw [← ha1, ← hu1]; rfl
  · rw [← ha1, ← hu1]; rfl
  · rw [← ha1]; rfl
  · rw [← hu1]; rfl

end MerginApi
/-! ## Events that a function does not produce -/

namespace MerginApi

theorem Quiet.quiet_refl (q : Event → Bool) (s : MerginApi) : Quiet q s s :=
  ⟨[], by simp, by simp⟩

theorem Quiet.quiet_trans {q : Event → Bool} {a b c : MerginApi} (h1 : Quiet q a b)
    (h2 : Quiet q b c) : Quiet q a c := by
  obtain ⟨l1, e1, f1⟩ := h1
  obtain ⟨l2, e2, f2⟩ := h2
  refine ⟨l1 ++ l2, by rw [e2, e1, List.append_assoc], ?_⟩
  intro e he
  rcases List.mem_append.mp he with h | h
  · exact f1 e h
  · exact f2 e h

theorem Quiet.of_trace_eq {q : Event → Bool} {a b : MerginApi} (h : b.trace = a.trace) :
    Quiet q a b :=
  ⟨[], by simp [h], by simp⟩

theorem Quiet.filter {q : Event → Bool} {a b : MerginApi} (h : Quiet q a b) :
    b.trace.filter q = a.trace.filter q := by
  obtain ⟨l, e, f⟩ := h
  rw [e, List.filter_append]
  have : l.filter q = [] := by
    rw [List.filter_eq_nil_iff]
    intro x hx
    simp [f x hx]
  rw [this, List.append_nil]

theorem emit_quiet (q : Event → Bool) (hq : Event.Foreground q) (s : MerginApi) (sig : Signal) :
    Quiet q s (s.emit sig) :=
  ⟨[Event.signal sig], emit_trace s sig, by simp [hq.1]⟩

theorem ref_quiet (q : Event → Bool) (s : MerginApi) (p : String) : Quiet q s (s.ref p) :=
  Quiet.of_trace_eq (ref_trace s p)

theorem authorizeFinished_quiet (q : Event → Bool) (hq : Event.Foreground q) (s : MerginApi)
    (r : AuthReply) : Quiet q s (s.authorizeFinished r) := by
  cases r with
  | session token expire userId diskUsage storageLimit username =>
    exact Quiet.quiet_trans (Quiet.of_trace_eq rfl) (emit_quiet q hq _ _)
  | notAnObject => exact emit_quiet q hq _ _
  | error status serverMsg =>
    simp only [authorizeFinished]
    split
    · exact Quiet.quiet_trans (Quiet.quiet_trans (emit_quiet q hq _ _) (emit_quiet q hq _ _))
        (Quiet.of_trace_eq rfl)
    · exact Quiet.quiet_trans (emit_quiet q hq _ _) (Quiet.of_trace_eq rfl)

theorem validateAuthAndContinute_quiet (q : Event → Bool) (hq : Event.Foreground q)
    (s : MerginApi) : Quiet q s s.validateAuthAndContinute.1 := by
  unfold validateAuthAndContinute
  split
  · exact emit_quiet q hq _ _
  · split
    · refine Quiet.quiet_trans ?_ (authorizeFinished_quiet q hq _ _)
      exact ⟨[Event.request s.nextReply (Request.authorize s.mUsername s.mPassword)], rfl,
        by simp [hq.2.1]⟩
    · exact Quiet.quiet_refl q s

theorem getProjectInfo_quiet (q : Event → Bool) (hq : Event.Foreground q) (s : MerginApi)
    (p : String) : Quiet q s (s.getProjectInfo p).1 := by
  unfold getProjectInfo
  simp only
  split
  · exact validateAuthAndContinute_quiet q hq s
  · refine Quiet.quiet_trans (validateAuthAndContinute_quiet q hq s) ?_
    exact ⟨[Event.request _ (Request.projectInfo p _)], rfl, by simp [hq.2.2]⟩

theorem uploadProject_quiet (q : Event → Bool) (hq : Event.Foreground q) (s : MerginApi)
    (ns name : String) : Quiet q s (s.uploadProject ns name) := by
  unfold uploadProject
  simp only
  have h1 : Quiet q s ((s.setTransaction (getFullProjectName ns name) {}).getProjectInfo
      (getFullProjectName ns name)).1 :=
    Quiet.quiet_trans (Quiet.of_trace_eq rfl) (getProjectInfo_quiet q hq _ _)
  split
  · exact Quiet.quiet_trans (Quiet.quiet_trans h1 (Quiet.of_trace_eq rfl)) (emit_quiet q hq _ _)
  · exact Quiet.quiet_trans h1 (Quiet.of_trace_eq rfl)

theorem finishProjectSync_quiet (q : Event → Bool) (hq : Event.Foreground q) (s : MerginApi)
    (p : String) (ok : Bool) : Quiet q s (s.finishProjectSync p ok) := by
  unfold finishProjectSync
  simp only
  have h0 : Quiet q s ((s.ref p).emit (Signal.syncProjectStatusChanged p { num := -1 })) :=
    Quiet.quiet_trans (ref_quiet q s p) (emit_quiet q hq _ _)
  split
  · refine Quiet.quiet_trans ?_ (uploadProject_quiet q hq _ _ _)
    refine Quiet.quiet_trans h0 (Quiet.of_trace_eq ?_)
    cases ok <;> rfl
  · refine Quiet.quiet_trans ?_ (emit_quiet q hq _ _)
    refine Quiet.quiet_trans h0 (Quiet.of_trace_eq ?_)
    cases ok <;> rfl

theorem finalizeProjectUpdate_quiet (q : Event → Bool) (hq : Event.Foreground q) (s : MerginApi)
    (p : String) : Quiet q s (s.finalizeProjectUpdate p) := by
  unfold finalizeProjectUpdate
  simp only
  refine Quiet.quiet_trans ?_ (finishProjectSync_quiet q hq _ _ _)
  refine Quiet.of_trace_eq ?_
  split <;> simp [ref_trace, addMerginProject, copyTempFilesToProject]

end MerginApi

/-! ## The reply to the push request -/

namespace MerginApi

theorem setTransaction_gateOpen (s : MerginApi) (p : String) (t : TransactionStatus)
    (h : s.gateOpen) : (s.setTransaction p t).gateOpen := h

end MerginApi
namespace MerginApi

end MerginApi

namespace MerginApi

theorem setTransaction_quiet (q : Event → Bool) (s : MerginApi) (p : String)
    (t : TransactionStatus) : Quiet q s (s.setTransaction p t) :=
  Quiet.of_trace_eq rfl

theorem uploadInfoReplyFinished_error_quiet (q : Event → Bool) (hq : Event.Foreground q)
    (s : MerginApi) (p : String) (r : NetworkReply) (hr : r.noError = false) :
    Quiet q s (s.uploadInfoReplyFinished p r) := by
  unfold uploadInfoReplyFinished
  simp only [hr, Bool.false_eq_true, if_false]
  exact Quiet.quiet_trans (Quiet.quiet_trans (ref_quiet q s p) (setTransaction_quiet q _ _ _))
    (finishProjectSync_quiet q hq _ _ _)

theorem uploadStartReplyFinished_error_quiet (q : Event → Bool) (hq : Event.Foreground q)
    (s : MerginApi) (p : String) (r : NetworkReply) (hr : r.noError = false) :
    Quiet q s (s.uploadStartReplyFinished p r) := by
  unfold uploadStartReplyFinished
  simp only [hr, Bool.false_eq_true, if_false]
  exact Quiet.quiet_trans (Quiet.quiet_trans (Quiet.quiet_trans (ref_quiet q s p) (setTransaction_quiet q _ _ _))
    (emit_quiet q hq _ _)) (finishProjectSync_quiet q hq _ _ _)

theorem uploadFileReplyFinished_error_quiet (q : Event → Bool) (hq : Event.Foreground q)
    (s : MerginApi) (p uuid chunkID : String) (r : NetworkReply) (hr : r.noError = false) :
    Quiet q s (s.uploadFileReplyFinished p uuid chunkID r) := by
  unfold uploadFileReplyFinished
  simp only [hr, Bool.false_eq_true, if_false]
  exact Quiet.quiet_trans (Quiet.quiet_trans (Quiet.quiet_trans (ref_quiet q s p) (emit_quiet q hq _ _))
    (setTransaction_quiet q _ _ _)) (finishProjectSync_quiet q hq _ _ _)

theorem deliverUploadFile_error_quiet (q : Event → Bool) (hq : Event.Foreground q)
    (s : MerginApi) (p : String) (reply : Nat) (r : NetworkReply) (hr : r.noError = false) :
    Quiet q s (s.deliverUploadFile p reply r) := by
  unfold deliverUploadFile
  split <;> exact uploadFileReplyFinished_error_quiet q hq _ _ _ _ _ hr

theorem uploadFinishReplyFinished_error_quiet (q : Event → Bool) (hq : Event.Foreground q)
    (s : MerginApi) (p : String) (r : NetworkReply) (hr : r.noError = false) :
    Quiet q s (s.uploadFinishReplyFinished p r) := by
  unfold uploadFinishReplyFinished
  simp only [hr, Bool.false_eq_true, if_false]
  exact Quiet.quiet_trans (Quiet.quiet_trans (ref_quiet q s p) (setTransaction_quiet q _ _ _))
    (finishProjectSync_quiet q hq _ _ _)

/-- The events of a slot that runs after an abort: the abort, then events of
the slot. -/
theorem abort_then_quiet (q : Event → Bool) (s s' : MerginApi) (reply : Nat)
    (h : Quiet q (s.abort reply) s') :
    ∃ l, s'.trace = s.trace ++ Event.abort reply :: l ∧ ∀ e ∈ l, q e = false := by
  obtain ⟨l, h1, h2⟩ := h
  refine ⟨l, ?_, h2⟩
  rw [h1]
  simp [abort]

/-- What `uploadCancel` does after its gate. -/
theorem uploadCancel_eq (s : MerginApi) (p : String) :
    s.uploadCancel p =
      if s.validateAuthAndContinute.2 = false ∨
          s.validateAuthAndContinute.1.mApiVersionStatus ≠ VersionStatus.OK ∨
          s.mTransactionalStatus.contains p = false then
        s.validateAuthAndContinute.1
      else
        s.validateAuthAndContinute.1.cancelUpload p (s.transaction p) := by
  have ht : s.validateAuthAndContinute.1.transaction p = s.transaction p := by
    simp only [MerginApi.transaction, validateAuthAndContinute_store]
  unfold uploadCancel
  simp only [validateAuthAndContinute_store, ht]
  cases s.validateAuthAndContinute.2 <;> cases s.mTransactionalStatus.contains p <;>
    by_cases h : s.validateAuthAndContinute.1.mApiVersionStatus = VersionStatus.OK <;> simp [h]

/-- The gate returns `false` exactly when there are no credentials. -/
theorem validateAuthAndContinute_false_iff (s : MerginApi) :
    s.validateAuthAndContinute.2 = false ↔ s.hasAuthData = false := by
  unfold validateAuthAndContinute
  cases h : s.hasAuthData
  · simp
  · simp only [Bool.not_true, Bool.false_eq_true, if_false]
    split <;> simp

/-- Without credentials the gate emits `authRequested` and does nothing else. -/
theorem validateAuthAndContinute_of_no_auth (s : MerginApi) (h : s.hasAuthData = false) :
    s.validateAuthAndContinute = (s.emit Signal.authRequested, false) := by
  unfold validateAuthAndContinute
  simp [h]

end MerginApi

/-- C15 (amended): `uploadCancel` first passes its gate,
`validateAuthAndContinute`.  The gate aborts nothing, sends no cancel request
and leaves the store as it is; it returns `false` exactly when there are no
credentials (it then emits `authRequested` and does nothing else), and with an
open gate it changes nothing.  `uploadCancel` does nothing more than its gate
when the gate returns `false`, when the API version is not accepted after it,
or when the project has no transaction in the store; `updateCancel` changes
nothing for a project with no transaction.  In all other cases — also after a
login attempt of the gate — `uploadCancel` aborts the outstanding upload
request of the transaction (project info, push start, chunk upload, push
finish, in this order); it sends the cancel request with the id of the
transaction when that request is a chunk upload or the finish request, and
sends no cancel request when it is the project-info or the push-start request;
with no upload request outstanding it does nothing more than its gate. -/
theorem uploadCancel_aborts_and_cancels (s : MerginApi) (p : String) :
    ((∃ l, s.validateAuthAndContinute.1.trace = s.trace ++ l ∧
        ∀ e ∈ l, (Event.isAbort e || Event.isUploadCancel e) = false) ∧
      s.validateAuthAndContinute.1.mTransactionalStatus = s.mTransactionalStatus ∧
      (s.validateAuthAndContinute.2 = false ↔ s.hasAuthData = false) ∧
      (s.hasAuthData = false →
        s.validateAuthAndContinute.1 = s.emit Signal.authRequested) ∧
      (s.gateOpen → s.validateAuthAndContinute = (s, true))) ∧
    ((s.validateAuthAndContinute.2 = false ∨
        s.validateAuthAndContinute.1.mApiVersionStatus ≠ VersionStatus.OK ∨
        s.mTransactionalStatus.contains p = false) →
      s.uploadCancel p = s.validateAuthAndContinute.1) ∧
    (s.mTransactionalStatus.contains p = false → s.updateCancel p = s) ∧
    (s.validateAuthAndContinute.2 = true →
      s.validateAuthAndContinute.1.mApiVersionStatus = VersionStatus.OK →
      s.mTransactionalStatus.contains p = true →
      (∀ reply, (s.transaction p).replyUploadProjectInfo = some reply →
        ∃ l, (s.uploadCancel p).trace =
            s.validateAuthAndContinute.1.trace ++ Event.abort reply :: l ∧
          ∀ e ∈ l, Event.isUploadCancel e = false) ∧
      (∀ reply, (s.transaction p).replyUploadProjectInfo = none →
        (s.transaction p).replyUploadStart = some reply →
        ∃ l, (s.uploadCancel p).trace =
            s.validateAuthAndContinute.1.trace ++ Event.abort reply :: l ∧
          ∀ e ∈ l, Event.isUploadCancel e = false) ∧
      (∀ reply, (s.transaction p).replyUploadProjectInfo = none →
        (s.transaction p).replyUploadStart = none →
        (s.transaction p).replyUploadFile = some reply →
        ∃ l n, (s.uploadCancel p).trace =
            s.validateAuthAndContinute.1.trace ++ Event.abort reply :: l ++
              [Event.request n (Request.uploadCancel p (s.transaction p).transactionUUID)] ∧
          ∀ e ∈ l, Event.isUploadCancel e = false) ∧
      (∀ reply, (s.transaction p).replyUploadProjectInfo = none →
        (s.transaction p).replyUploadStart = none →
        (s.transaction p).replyUploadFile = none →
        (s.transaction p).replyUploadFinish = some reply →
        ∃ l n, (s.uploadCancel p).trace =
            s.validateAuthAndContinute.1.trace ++ Event.abort reply :: l ++
              [Event.request n (Request.uploadCancel p (s.transaction p).transactionUUID)] ∧
          ∀ e ∈ l, Event.isUploadCancel e = false) ∧
      ((s.transaction p).replyUploadProjectInfo = none →
        (s.transaction p).replyUploadStart = none →
        (s.transaction p).replyUploadFile = none →
        (s.transaction p).replyUploadFinish = none →
        s.uploadCancel p = s.validateAuthAndContinute.1)) := by
  have hq : Event.Foreground Event.isUploadCancel :=
    ⟨fun _ => rfl, fun _ _ _ => rfl, fun _ _ _ => rfl⟩
  have hq2 : Event.Foreground (fun e => Event.isAbort e || Event.isUploadCancel e) :=
    ⟨fun _ => rfl, fun _ _ _ => rfl, fun _ _ _ => rfl⟩
  refine ⟨⟨MerginApi.validateAuthAndContinute_quiet _ hq2 s,
    MerginApi.validateAuthAndContinute_store s, MerginApi.validateAuthAndContinute_false_iff s,
    fun h => by rw [MerginApi.validateAuthAndContinute_of_no_auth s h],
    MerginApi.validateAuthAndContinute_of_gateOpen s⟩, ?_, ?_, ?_⟩
  · intro h
    rw [MerginApi.uploadCancel_eq, if_pos h]
  · intro hc
    unfold MerginApi.updateCancel
    simp [hc]
  · intro hok hv hc
    have hgo : ¬ (s.validateAuthAndContinute.2 = false ∨
        s.validateAuthAndContinute.1.mApiVersionStatus ≠ VersionStatus.OK ∨
        s.mTransactionalStatus.contains p = false) := by
      simp [hok, hv, hc]
    rw [MerginApi.uploadCancel_eq, if_neg hgo]
    generalize s.validateAuthAndContinute.1 = g
    refine ⟨?_, ?_, ?_, ?_, ?_⟩
    · intro reply h1
      unfold MerginApi.cancelUpload
      simp only [h1]
      exact MerginApi.abort_then_quiet _ _ _ _
        (MerginApi.uploadInfoReplyFinished_error_quiet _ hq _ _ _ rfl)
    · intro reply h1 h2
      unfold MerginApi.cancelUpload
      simp only [h1, h2]
      exact MerginApi.abort_then_quiet _ _ _ _
        (MerginApi.uploadStartReplyFinished_error_quiet _ hq _ _ _ rfl)
    · intro reply h1 h2 h3
      unfold MerginApi.cancelUpload
      simp only [h1, h2, h3]
      obtain ⟨l, hl1, hl2⟩ := MerginApi.abort_then_quiet _ _ _ _
        (MerginApi.deliverUploadFile_error_quiet _ hq (g.abort reply) p reply
          MerginApi.abortedReply rfl)
      refine ⟨l, ((g.abort reply).deliverUploadFile p reply MerginApi.abortedReply).nextReply,
        ?_, hl2⟩
      simp only [MerginApi.sendUploadCancelRequest, MerginApi.send, hl1]
    · intro reply h1 h2 h3 h4
      unfold MerginApi.cancelUpload
      simp only [h1, h2, h3, h4]
      obtain ⟨l, hl1, hl2⟩ := MerginApi.abort_then_quiet _ _ _ _
        (MerginApi.uploadFinishReplyFinished_error_quiet _ hq (g.abort reply) p
          MerginApi.abortedReply rfl)
      refine ⟨l, ((g.abort reply).uploadFinishReplyFinished p MerginApi.abortedReply).nextReply,
        ?_, hl2⟩
      simp only [MerginApi.sendUploadCancelRequest, MerginApi.send, hl1]
    · intro h1 h2 h3 h4
      unfold MerginApi.cancelUpload
      simp only [h1, h2, h3, h4]

set_option maxRecDepth 100000 in
/-- Witness for C15 (amended): the example engine has an outstanding chunk
upload in the transaction `T1` and a token that has expired.  The gate
attempts a login, which the server refuses, and returns `true`; `uploadCancel`
aborts the chunk upload and sends the cancel request for `T1`. -/
theorem uploadCancel_aborts_and_cancels_witness :
    ¬ sampleExpiredUploading.gateOpen ∧
    Event.abort 0 ∈ (sampleExpiredUploading.uploadCancel "ns/proj").trace ∧
    ∃ n, Event.request n (Request.uploadCancel "ns/proj" "T1") ∈
      (sampleExpiredUploading.uploadCancel "ns/proj").trace := by
  obtain ⟨l, n, h, _⟩ :=
    ((uploadCancel_aborts_and_cancels sampleExpiredUploading "ns/proj").2.2.2
      (by decide) (by decide) (by decide)).2.2.1 0 (by decide) (by decide) (by decide)
  rw [h]
  have hu : (sampleExpiredUploading.transaction "ns/proj").transactionUUID = "T1" := by decide
  rw [hu]
  refine ⟨?_, by simp, n, by simp⟩
  intro hg
  exact absurd hg.2.2.1 (by decide)

/-! ## At most one request of a transaction is outstanding -/

theorem TransactionStatus.handles_default : ({} : TransactionStatus).handles = 0 := rfl

namespace MerginApi

theorem StoreOK.of_store {s s' : MerginApi} (h : s.StoreOK)
    (he : s'.mTransactionalStatus = s.mTransactionalStatus) : s'.StoreOK := by
  unfold StoreOK
  rw [he]
  exact h

theorem StoreOK.transaction {s : MerginApi} (h : s.StoreOK) (p : String) :
    (s.transaction p).handles ≤ 1 := by
  unfold MerginApi.transaction QHash.value
  cases hf : s.mTransactionalStatus.find? p with
  | none =>
    show ({} : TransactionStatus).handles ≤ 1
    decide
  | some t => exact h (p, t) (QHash.mem_entries_of_find? _ _ _ hf)

theorem StoreOK.setTransaction {s : MerginApi} (h : s.StoreOK) (p : String)
    (t : TransactionStatus) (ht : t.handles ≤ 1) : (s.setTransaction p t).StoreOK := by
  intro e he
  simp only [MerginApi.setTransaction, QHash.insert, List.mem_cons] at he
  rcases he with rfl | he
  · exact ht
  · exact h e ((QHash.mem_remove_entries _ _ _).mp he).1

theorem StoreOK.remove {s : MerginApi} (h : s.StoreOK) (p : String) :
    StoreOK { s with mTransactionalStatus := s.mTransactionalStatus.remove p } := by
  intro e he
  exact h e ((QHash.mem_remove_entries _ _ _).mp he).1

theorem StoreOK.ref {s : MerginApi} (h : s.StoreOK) (p : String) : (s.ref p).StoreOK := by
  unfold MerginApi.ref
  split
  · exact h
  · exact StoreOK.setTransaction h p {} (by simp [TransactionStatus.handles])

end MerginApi
namespace MerginApi

theorem StoreOK.emit {s : MerginApi} (h : s.StoreOK) (sig : Signal) : (s.emit sig).StoreOK :=
  h.of_store (emit_store s sig)

theorem StoreOK.validate {s : MerginApi} (h : s.StoreOK) : s.validateAuthAndContinute.1.StoreOK :=
  h.of_store (validateAuthAndContinute_store s)

theorem validateAuthAndContinute_transaction (s : MerginApi) (p : String) :
    s.validateAuthAndContinute.1.transaction p = s.transaction p := by
  simp only [MerginApi.transaction, validateAuthAndContinute_store]

theorem emit_transaction (s : MerginApi) (sig : Signal) (p : String) :
    (s.emit sig).transaction p = s.transaction p := by
  simp only [MerginApi.transaction, emit_store]

theorem uploadProject_ok {s : MerginApi} (h : s.StoreOK) (ns name : String) :
    (s.uploadProject ns name).StoreOK := by
  unfold uploadProject
  simp only
  have h1 : (s.setTransaction (getFullProjectName ns name) {}).StoreOK :=
    h.setTransaction _ _ (by decide)
  have h2 : ((s.setTransaction (getFullProjectName ns name) {}).getProjectInfo
      (getFullProjectName ns name)).1.StoreOK := h1.of_store (getProjectInfo_store _ _)
  have h3 : (((s.setTransaction (getFullProjectName ns name) {}).getProjectInfo
      (getFullProjectName ns name)).1.transaction (getFullProjectName ns name)).handles = 0 := by
    simp only [MerginApi.transaction, getProjectInfo_store]
    simp [MerginApi.setTransaction, QHash.value_insert_self, TransactionStatus.handles]
  generalize ((s.setTransaction (getFullProjectName ns name) {}).getProjectInfo
      (getFullProjectName ns name)) = gi at h2 h3
  have h4 : (gi.1.setTransaction (getFullProjectName ns name)
      { gi.1.transaction (getFullProjectName ns name) with replyUploadProjectInfo := gi.2 }).StoreOK := by
    apply h2.setTransaction
    simp only [TransactionStatus.handles] at h3 ⊢
    cases gi.2 <;> simp <;> omega
  split
  · exact h4.emit _
  · exact h4

theorem updateProject_ok {s : MerginApi} (h : s.StoreOK) (ns name : String) :
    (s.updateProject ns name).StoreOK := by
  unfold updateProject
  simp only
  have h2 : (s.getProjectInfo (getFullProjectName ns name)).1.StoreOK :=
    h.of_store (getProjectInfo_store _ _)
  generalize s.getProjectInfo (getFullProjectName ns name) = gi at h2
  split
  · apply StoreOK.emit
    apply (h2.setTransaction _ _ (by decide)).setTransaction
    rw [transaction_setTransaction]
    simp only [TransactionStatus.handles]
    cases gi.2 <;> simp
  · exact h2

theorem finishProjectSync_ok {s : MerginApi} (h : s.StoreOK) (p : String) (ok : Bool) :
    (s.finishProjectSync p ok).StoreOK := by
  unfold finishProjectSync
  simp only
  have h1 : ((s.ref p).emit (Signal.syncProjectStatusChanged p { num := -1 })).StoreOK :=
    (h.ref p).emit _
  generalize (s.ref p).emit (Signal.syncProjectStatusChanged p { num := -1 }) = s1 at h1
  split
  · apply uploadProject_ok
    intro e he
    cases ok
    · exact h1 e ((QHash.mem_remove_entries _ _ _).mp he).1
    · exact h1 e ((QHash.mem_remove_entries _ _ _).mp he).1
  · apply StoreOK.emit
    intro e he
    cases ok
    · exact h1 e ((QHash.mem_remove_entries _ _ _).mp he).1
    · exact h1 e ((QHash.mem_remove_entries _ _ _).mp he).1

theorem finalizeProjectUpdate_ok {s : MerginApi} (h : s.StoreOK) (p : String) :
    (s.finalizeProjectUpdate p).StoreOK := by
  unfold finalizeProjectUpdate
  simp only
  apply finishProjectSync_ok
  split
  · exact (h.ref p).of_store rfl
  · exact (h.ref p).of_store rfl

theorem downloadFile_ok {s : MerginApi} (h : s.StoreOK) (p filename version : String)
    (chunkNo : Int) (hi : (s.transaction p).handles = 0) :
    (s.downloadFile p filename version chunkNo).StoreOK := by
  unfold downloadFile
  simp only
  split
  · exact h.validate
  · apply StoreOK.setTransaction
    · exact (h.validate.ref p).of_store rfl
    · have : ((s.validateAuthAndContinute.1.ref p).send
          (Request.downloadFile p filename version chunkNo (rangeHeader chunkNo))).1.transaction p =
          s.transaction p := by
        show (s.validateAuthAndContinute.1.ref p).transaction p = _
        rw [ref_transaction, validateAuthAndContinute_transaction]
      rw [this]
      simp only [TransactionStatus.handles] at hi ⊢
      simp
      omega

theorem takeFirstAndDownloadAux_ok (p version : String) (files : List MerginFile)
    {s : MerginApi} (h : s.StoreOK) (hi : (s.transaction p).handles = 0) :
    (takeFirstAndDownloadAux p version files s).StoreOK := by
  induction files generalizing s with
  | nil => exact h
  | cons nextFile rest ih =>
    simp only [takeFirstAndDownloadAux]
    have h0 : (s.createEmptyFile (s.getTempProjectDir p ++ "/" ++ nextFile.path)).StoreOK :=
      h.of_store (createEmptyFile_store _ _)
    have h1 : ((s.createEmptyFile (s.getTempProjectDir p ++ "/" ++ nextFile.path)).ref p).StoreOK :=
      StoreOK.ref h0 p
    have hi1 : (((s.createEmptyFile (s.getTempProjectDir p ++ "/" ++ nextFile.path)).ref
        p).transaction p).handles = 0 := by
      rw [ref_transaction]
      exact hi
    generalize (s.createEmptyFile (s.getTempProjectDir p ++ "/" ++ nextFile.path)).ref p = s1
      at h1 hi1
    split
    · split
      · exact downloadFile_ok h1 _ _ _ _ hi1
      · have h2 : (s1.setTransaction p { s1.transaction p with files := rest }).StoreOK :=
          h1.setTransaction _ _ (by rw [show ({ s1.transaction p with files := rest } :
            TransactionStatus).handles = (s1.transaction p).handles from rfl, hi1]; omega)
        have hi2 : ((s1.setTransaction p { s1.transaction p with files := rest }).transaction
            p).handles = 0 := by
          rw [transaction_setTransaction]
          exact hi1
        split
        · exact ih h2 hi2
        · exact finalizeProjectUpdate_ok h2 p
    · exact downloadFile_ok h _ _ _ _ hi

theorem takeFirstAndDownload_ok {s : MerginApi} (h : s.StoreOK) (p version : String)
    (hi : (s.transaction p).handles = 0) : (s.takeFirstAndDownload p version).StoreOK :=
  takeFirstAndDownloadAux_ok p version _ h hi

theorem continueDownloadFiles_ok {s : MerginApi} (h : s.StoreOK) (p version : String)
    (lastChunkNo : Int) (hi : (s.transaction p).handles = 0) :
    (s.continueDownloadFiles p version lastChunkNo).StoreOK := by
  unfold continueDownloadFiles
  simp only
  have h1 := h.ref p
  have hi1 : ((s.ref p).transaction p).handles = 0 := by rw [ref_transaction]; exact hi
  generalize s.ref p = s1 at h1 hi1
  split
  · exact h1
  · split
    · exact downloadFile_ok h1 _ _ _ _ hi1
    · rename_i currentFile rest _ _
      have h2 : (s1.setTransaction p { s1.transaction p with files := rest }).StoreOK :=
        h1.setTransaction _ _ (by rw [show ({ s1.transaction p with files := rest } :
          TransactionStatus).handles = (s1.transaction p).handles from rfl, hi1]; omega)
      have hi2 : ((s1.setTransaction p { s1.transaction p with files := rest }).transaction
          p).handles = 0 := by
        rw [transaction_setTransaction]
        exact hi1
      split
      · exact takeFirstAndDownload_ok h2 _ _ hi2
      · exact finalizeProjectUpdate_ok h2 p

end MerginApi

namespace MerginApi

theorem createUniqueProjectDirectory_store (s : MerginApi) (name : String) :
    (s.createUniqueProjectDirectory name).1.mTransactionalStatus = s.mTransactionalStatus := by
  unfold createUniqueProjectDirectory
  simp only
  split <;> rfl

theorem resolveProjectDir_store (s : MerginApi) (p : String) (t : TransactionStatus) :
    (s.resolveProjectDir p t).1.mTransactionalStatus = s.mTransactionalStatus := by
  unfold resolveProjectDir
  simp only
  split
  · rfl
  · exact createUniqueProjectDirectory_store _ _

theorem resolveProjectDir_handles (s : MerginApi) (p : String) (t : TransactionStatus) :
    (s.resolveProjectDir p t).2.handles = t.handles := by
  unfold resolveProjectDir
  simp only
  split <;> rfl

theorem planProjectUpdate_handles (s : MerginApi) (t : TransactionStatus) (data : String) :
    (s.planProjectUpdate t data).2.handles = t.handles := rfl

theorem planProjectUpdate_store (s : MerginApi) (t : TransactionStatus) (data : String) :
    (s.planProjectUpdate t data).1.mTransactionalStatus = s.mTransactionalStatus := by
  rw [planProjectUpdate_eq]

theorem startProjectUpdate_ok {s : MerginApi} (h : s.StoreOK) (p data : String)
    (hi : (s.transaction p).handles = 0) : (s.startProjectUpdate p data).StoreOK := by
  unfold startProjectUpdate
  simp only
  have h1 := h.ref p
  have hi1 : ((s.ref p).transaction p).handles = 0 := by rw [ref_transaction]; exact hi
  generalize s.ref p = s1 at h1 hi1
  have h2 : (s1.resolveProjectDir p (s1.transaction p)).1.StoreOK :=
    h1.of_store (resolveProjectDir_store _ _ _)
  have hi2 : (s1.resolveProjectDir p (s1.transaction p)).2.handles = 0 := by
    rw [resolveProjectDir_handles]
    exact hi1
  generalize s1.resolveProjectDir p (s1.transaction p) = resolved at h2 hi2
  have h3 : (resolved.1.planProjectUpdate resolved.2 data).1.StoreOK :=
    h2.of_store (planProjectUpdate_store _ _ _)
  have hi3 : (resolved.1.planProjectUpdate resolved.2 data).2.handles = 0 := by
    rw [planProjectUpdate_handles]
    exact hi2
  generalize resolved.1.planProjectUpdate resolved.2 data = planned at h3 hi3
  have h4 : (planned.1.setTransaction p planned.2).StoreOK :=
    h3.setTransaction _ _ (by omega)
  have hi4 : ((planned.1.setTransaction p planned.2).transaction p).handles = 0 := by
    rw [transaction_setTransaction]
    exact hi3
  split
  · exact (takeFirstAndDownload_ok h4 _ _ hi4).emit _
  · exact finalizeProjectUpdate_ok h4 p

/-- A transaction with at most one handle set has none set once a handle that
was set is reset. -/
theorem handles_reset (t t' : TransactionStatus) (h : t.handles ≤ 1)
    (h1 : t'.handles + 1 = t.handles) : t'.handles = 0 := by
  omega

theorem StoreOK.reset {s : MerginApi} (h : s.StoreOK) (p : String) (t' : TransactionStatus)
    (h1 : t'.handles + 1 = (s.transaction p).handles) :
    ((s.ref p).setTransaction p t').StoreOK ∧
      (((s.ref p).setTransaction p t').transaction p).handles = 0 := by
  have h0 : t'.handles = 0 := handles_reset _ _ (h.transaction p) h1
  refine ⟨(h.ref p).setTransaction _ _ (by omega), ?_⟩
  rw [transaction_setTransaction]
  exact h0

theorem updateInfoReplyFinished_ok {s : MerginApi} (h : s.StoreOK) (p : String)
    (r : NetworkReply) (reply : Nat) (hr : (s.transaction p).replyProjectInfo = some reply) :
    (s.updateInfoReplyFinished p r).StoreOK := by
  unfold updateInfoReplyFinished
  simp only [ref_transaction]
  obtain ⟨h1, hi1⟩ := h.reset p { s.transaction p with replyProjectInfo := none }
    (by simp [TransactionStatus.handles, hr]; omega)
  generalize (s.ref p).setTransaction p { s.transaction p with replyProjectInfo := none } = s1
    at h1 hi1
  split
  · exact startProjectUpdate_ok h1 _ _ hi1
  · exact finishProjectSync_ok h1 _ _

theorem createPathIfNotExists_store (s : MerginApi) (filePath : String) :
    (s.createPathIfNotExists filePath).mTransactionalStatus = s.mTransactionalStatus := rfl

theorem handleOctetStream_store (s : MerginApi) (data projectDir filename : String)
    (closeFile overwrite : Bool) :
    (s.handleOctetStream data projectDir filename closeFile overwrite).mTransactionalStatus =
      s.mTransactionalStatus := rfl

theorem storeChunk_store (s : MerginApi) (p filename : String) (chunkNo : Int)
    (data : String) :
    (s.storeChunk p filename chunkNo data).mTransactionalStatus =
      s.mTransactionalStatus.insert p
        { s.transaction p with
            transferedSize := (s.transaction p).transferedSize + (data.length : Int)
            replyDownloadFile := none } := by
  unfold storeChunk
  simp only [setTransaction, emit_store, MerginApi.transaction, handleOctetStream_store,
    createPathIfNotExists_store]

theorem failDownload_ok {s : MerginApi} (h : s.StoreOK) (p : String) (r : NetworkReply)
    (ht : ({ s.transaction p with replyDownloadFile := none } : TransactionStatus).handles ≤ 1) :
    (s.failDownload p r).StoreOK := by
  unfold failDownload
  simp only
  apply StoreOK.emit
  apply finishProjectSync_ok
  have h3 : (s.setTransaction p { s.transaction p with replyDownloadFile := none }).StoreOK :=
    h.setTransaction _ _ ht
  intro e he
  exact h3 e he

theorem downloadFileReplyFinished_ok {s : MerginApi} (h : s.StoreOK) (p filename version : String)
    (chunkNo : Int) (r : NetworkReply) (reply : Nat)
    (hr : (s.transaction p).replyDownloadFile = some reply) :
    (s.downloadFileReplyFinished p filename version chunkNo r).StoreOK := by
  unfold downloadFileReplyFinished
  simp only
  have h1 := h.ref p
  have ht1 : (s.ref p).transaction p = s.transaction p := ref_transaction s p
  have hle := h.transaction p
  generalize s.ref p = s1 at h1 ht1
  have hz : ∀ n : Int, ({ s.transaction p with transferedSize := n, replyDownloadFile := none } :
      TransactionStatus).handles = 0 := by
    intro n
    simp only [TransactionStatus.handles, hr, Option.toList_some, Option.toList_none,
      List.length_singleton, List.length_nil] at hle ⊢
    omega
  split
  · have h2 : (s1.storeChunk p filename chunkNo r.data).StoreOK := by
      intro e he
      rw [storeChunk_store, ht1] at he
      have h3 := h1.setTransaction p _
        ((le_of_eq (hz ((s.transaction p).transferedSize + (r.data.length : Int)))).trans
          (Nat.zero_le 1))
      exact h3 e he
    have hi2 : ((s1.storeChunk p filename chunkNo r.data).transaction p).handles = 0 := by
      simp only [MerginApi.transaction, storeChunk_store, QHash.value_insert_self]
      have := hz ((s.transaction p).transferedSize + (r.data.length : Int))
      rw [← ht1] at this
      exact this
    exact continueDownloadFiles_ok h2 _ _ _ hi2
  · apply failDownload_ok h1
    rw [ht1]
    have := hz (s.transaction p).transferedSize
    exact (le_of_eq this).trans (Nat.zero_le 1)

end MerginApi

namespace MerginApi

theorem handles_set_of_zero (t t' : TransactionStatus) (h : t.handles = 0)
    (h1 : t'.handles ≤ t.handles + 1) : t'.handles ≤ 1 := by
  omega

theorem uploadStart_ok {s : MerginApi} (h : s.StoreOK) (p : String) (json : PushJson)
    (hi : (s.transaction p).handles = 0) : (s.uploadStart p json).StoreOK := by
  unfold uploadStart
  simp only
  split
  · exact h.validate
  · apply StoreOK.setTransaction
    · exact (h.validate.ref p).of_store rfl
    · have : ((s.validateAuthAndContinute.1.ref p).send (Request.uploadStart p json)).1.transaction p
          = s.transaction p := by
        show (s.validateAuthAndContinute.1.ref p).transaction p = _
        rw [ref_transaction, validateAuthAndContinute_transaction]
      rw [this]
      apply handles_set_of_zero _ _ hi
      simp only [TransactionStatus.handles, Option.toList_some, List.length_singleton]
      omega

theorem uploadFile_ok {s : MerginApi} (h : s.StoreOK) (p uuid : String) (file : MerginFile)
    (chunkNo : Int) (hi : (s.transaction p).handles = 0) :
    (s.uploadFile p uuid file chunkNo).StoreOK := by
  unfold uploadFile
  simp only
  split
  · exact h.validate
  · apply StoreOK.setTransaction
    · exact (h.validate.ref p).of_store rfl
    · have : ∀ req, ((s.validateAuthAndContinute.1.ref p).send req).1.transaction p
          = s.transaction p := by
        intro req
        show (s.validateAuthAndContinute.1.ref p).transaction p = _
        rw [ref_transaction, validateAuthAndContinute_transaction]
      rw [this]
      apply handles_set_of_zero _ _ hi
      simp only [TransactionStatus.handles, Option.toList_some, List.length_singleton]
      omega

theorem uploadFinish_ok {s : MerginApi} (h : s.StoreOK) (p uuid : String)
    (hi : (s.transaction p).handles = 0) : (s.uploadFinish p uuid).StoreOK := by
  unfold uploadFinish
  simp only
  split
  · exact h.validate
  · apply StoreOK.setTransaction
    · exact (h.validate.ref p).of_store rfl
    · have : ((s.validateAuthAndContinute.1.ref p).send (Request.uploadFinish p uuid)).1.transaction p
          = s.transaction p := by
        show (s.validateAuthAndContinute.1.ref p).transaction p = _
        rw [ref_transaction, validateAuthAndContinute_transaction]
      rw [this]
      apply handles_set_of_zero _ _ hi
      simp only [TransactionStatus.handles, Option.toList_some, List.length_singleton]
      omega

theorem planProjectUpload_store (s : MerginApi) (t : TransactionStatus)
    (serverProject : MerginProjectMetadata) :
    (s.planProjectUpload t serverProject).1.mTransactionalStatus = s.mTransactionalStatus := by
  rw [planProjectUpload_eq]

theorem planProjectUpload_handles (s : MerginApi) (t : TransactionStatus)
    (serverProject : MerginProjectMetadata) :
    (s.planProjectUpload t serverProject).2.1.handles = t.handles := by
  unfold planProjectUpload
  simp only [TransactionStatus.handles]

theorem uploadInfoReplyFinished_ok {s : MerginApi} (h : s.StoreOK) (p : String)
    (r : NetworkReply) (reply : Nat)
    (hr : (s.transaction p).replyUploadProjectInfo = some reply) :
    (s.uploadInfoReplyFinished p r).StoreOK := by
  have hle := h.transaction p
  have hz : ∀ (d : String) (b : Bool),
      ({ s.transaction p with
          replyUploadProjectInfo := none, projectDir := d, updateBeforeUpload := b } :
        TransactionStatus).handles = 0 := by
    intro d b
    simp only [TransactionStatus.handles, hr, Option.toList_some, Option.toList_none,
      List.length_singleton, List.length_nil] at hle ⊢
    omega
  unfold uploadInfoReplyFinished
  simp only [ref_transaction]
  have h1 := h.ref p
  generalize s.ref p = s1 at h1
  split
  · split
    · apply startProjectUpdate_ok
      · exact h1.setTransaction _ _ ((le_of_eq (hz _ true)).trans (Nat.zero_le 1))
      · rw [transaction_setTransaction]
        exact hz _ true
    · have hp := planProjectUpload_store s1
        { s.transaction p with
            replyUploadProjectInfo := none
            projectDir := (s1.projectFromMerginName p).projectDir }
        (s1.env.fromJson r.data)
      have hh := planProjectUpload_handles s1
        { s.transaction p with
            replyUploadProjectInfo := none
            projectDir := (s1.projectFromMerginName p).projectDir }
        (s1.env.fromJson r.data)
      have hz2 := hz (s1.projectFromMerginName p).projectDir (s.transaction p).updateBeforeUpload
      generalize s1.planProjectUpload
        { s.transaction p with
            replyUploadProjectInfo := none
            projectDir := (s1.projectFromMerginName p).projectDir }
        (s1.env.fromJson r.data) = plan at hp hh
      have hh2 : plan.2.1.handles = 0 := by
        rw [hh]
        exact hz2
      apply uploadStart_ok
      · exact (h1.of_store hp).setTransaction _ _ (by omega)
      · rw [transaction_setTransaction]
        exact hh2
  · apply finishProjectSync_ok
    exact h1.setTransaction _ _
      ((le_of_eq (hz (s.transaction p).projectDir (s.transaction p).updateBeforeUpload)).trans
        (Nat.zero_le 1))

theorem commitPush_ok {s : MerginApi} (h : s.StoreOK) (p data : String) :
    (s.commitPush p data).StoreOK := by
  unfold commitPush
  simp only
  apply finishProjectSync_ok
  apply h.setTransaction
  exact h.transaction p

theorem startChunkUpload_ok {s : MerginApi} (h : s.StoreOK) (p data : String)
    (file : MerginFile) (hi : (s.transaction p).handles = 0) :
    (s.startChunkUpload p data file).StoreOK := by
  unfold startChunkUpload
  simp only
  apply StoreOK.emit
  cases s.env.jsonTransaction data with
  | none => exact uploadFile_ok h _ _ _ _ hi
  | some uuid =>
    apply uploadFile_ok
    · exact h.setTransaction _ _ (by
        rw [show ({ s.transaction p with transactionUUID := uuid } : TransactionStatus).handles =
          (s.transaction p).handles from rfl, hi]; omega)
    · rw [transaction_setTransaction]
      exact hi

theorem uploadStartReplyFinished_ok {s : MerginApi} (h : s.StoreOK) (p : String)
    (r : NetworkReply) (reply : Nat) (hr : (s.transaction p).replyUploadStart = some reply) :
    (s.uploadStartReplyFinished p r).StoreOK := by
  unfold uploadStartReplyFinished
  simp only [ref_transaction]
  obtain ⟨h1, hi1⟩ := h.reset p { s.transaction p with replyUploadStart := none }
    (by simp only [TransactionStatus.handles, hr, Option.toList_some, Option.toList_none,
          List.length_singleton, List.length_nil]; omega)
  generalize (s.ref p).setTransaction p { s.transaction p with replyUploadStart := none } = s1
    at h1 hi1
  split
  · split
    · exact startChunkUpload_ok h1 _ _ _ hi1
    · exact commitPush_ok h1 _ _
  · exact finishProjectSync_ok (h1.emit _) _ _

theorem continueUpload_ok {s : MerginApi} (h : s.StoreOK) (p uuid chunkID : String)
    (currentFile : MerginFile) (rest : List MerginFile) (hi : (s.transaction p).handles = 0) :
    (s.continueUpload p uuid chunkID currentFile rest).StoreOK := by
  unfold continueUpload
  simp only
  split
  · exact uploadFile_ok h _ _ _ _ hi
  · have h2 : ((s.emit (Signal.syncProjectStatusChanged p
        { num := (s.transaction p).transferedSize + currentFile.size,
          den := (s.transaction p).totalSize })).setTransaction p
        { s.transaction p with
            transferedSize := (s.transaction p).transferedSize + currentFile.size
            files := rest }).StoreOK :=
      (h.emit _).setTransaction _ _ (by
        rw [show ({ s.transaction p with
            transferedSize := (s.transaction p).transferedSize + currentFile.size
            files := rest } : TransactionStatus).handles = (s.transaction p).handles from rfl, hi]
        omega)
    have hi2 : (((s.emit (Signal.syncProjectStatusChanged p
        { num := (s.transaction p).transferedSize + currentFile.size,
          den := (s.transaction p).totalSize })).setTransaction p
        { s.transaction p with
            transferedSize := (s.transaction p).transferedSize + currentFile.size
            files := rest }).transaction p).handles = 0 := by
      rw [transaction_setTransaction]
      exact hi
    cases rest with
    | nil => exact uploadFinish_ok h2 _ _ hi2
    | cons nextFile tail => exact uploadFile_ok h2 _ _ _ _ hi2

theorem uploadFileReplyFinished_ok {s : MerginApi} (h : s.StoreOK) (p uuid chunkID : String)
    (r : NetworkReply) (reply : Nat) (hr : (s.transaction p).replyUploadFile = some reply) :
    (s.uploadFileReplyFinished p uuid chunkID r).StoreOK := by
  unfold uploadFileReplyFinished
  simp only [ref_transaction]
  obtain ⟨h1, hi1⟩ := h.reset p { s.transaction p with replyUploadFile := none }
    (by simp only [TransactionStatus.handles, hr, Option.toList_some, Option.toList_none,
          List.length_singleton, List.length_nil]; omega)
  split
  · generalize (s.ref p).setTransaction p { s.transaction p with replyUploadFile := none } = s1
      at h1 hi1
    split
    · exact continueUpload_ok h1 _ _ _ _ _ hi1
    · exact h1
  · apply finishProjectSync_ok
    have h2 := (h.ref p).emit
      (Signal.networkErrorOccurred ((s.ref p).extractServerErrorMsg r.data)
        "Mergin API error: uploadFile" false)
    have ht : (((s.ref p).emit
        (Signal.networkErrorOccurred ((s.ref p).extractServerErrorMsg r.data)
          "Mergin API error: uploadFile" false)).transaction p) = s.transaction p := by
      rw [emit_transaction, ref_transaction]
    rw [ht]
    apply h2.setTransaction
    have hle := h.transaction p
    simp only [TransactionStatus.handles, hr, Option.toList_some, Option.toList_none,
      List.length_singleton, List.length_nil] at hle ⊢
    omega

theorem uploadFinishReplyFinished_ok {s : MerginApi} (h : s.StoreOK) (p : String)
    (r : NetworkReply) (reply : Nat) (hr : (s.transaction p).replyUploadFinish = some reply) :
    (s.uploadFinishReplyFinished p r).StoreOK := by
  unfold uploadFinishReplyFinished
  simp only [ref_transaction]
  obtain ⟨h1, _⟩ := h.reset p { s.transaction p with replyUploadFinish := none }
    (by simp only [TransactionStatus.handles, hr, Option.toList_some, Option.toList_none,
          List.length_singleton, List.length_nil])
  split
  · exact commitPush_ok h1 _ _
  · exact finishProjectSync_ok h1 _ _

end MerginApi

namespace MerginApi

theorem deliverUploadFile_ok {s : MerginApi} (h : s.StoreOK) (p : String) (reply : Nat)
    (r : NetworkReply) (handle : Nat) (hr : (s.transaction p).replyUploadFile = some handle) :
    (s.deliverUploadFile p reply r).StoreOK := by
  unfold deliverUploadFile
  split <;> exact uploadFileReplyFinished_ok h _ _ _ _ handle hr

theorem deliverDownload_ok {s : MerginApi} (h : s.StoreOK) (p : String) (reply : Nat)
    (r : NetworkReply) (handle : Nat) (hr : (s.transaction p).replyDownloadFile = some handle) :
    (s.deliverDownload p reply r).StoreOK := by
  unfold deliverDownload
  split <;> exact downloadFileReplyFinished_ok h _ _ _ _ _ handle hr

theorem StoreOK.abort {s : MerginApi} (h : s.StoreOK) (reply : Nat) : (s.abort reply).StoreOK :=
  h

theorem cancelUpload_ok {s : MerginApi} (h : s.StoreOK) (p : String) :
    (s.cancelUpload p (s.transaction p)).StoreOK := by
  unfold cancelUpload
  split
  · rename_i reply hr
    exact uploadInfoReplyFinished_ok (h.abort reply) _ _ reply hr
  · split
    · rename_i reply hr
      exact uploadStartReplyFinished_ok (h.abort reply) _ _ reply hr
    · split
      · rename_i reply hr
        exact (deliverUploadFile_ok (h.abort reply) p reply _ reply hr).of_store rfl
      · split
        · rename_i reply hr
          exact (uploadFinishReplyFinished_ok (h.abort reply) p _ reply hr).of_store rfl
        · exact h

theorem uploadCancel_ok {s : MerginApi} (h : s.StoreOK) (p : String) :
    (s.uploadCancel p).StoreOK := by
  unfold uploadCancel
  simp only
  split
  · exact h.validate
  · split
    · exact h.validate
    · exact cancelUpload_ok h.validate p

theorem updateCancel_ok {s : MerginApi} (h : s.StoreOK) (p : String) :
    (s.updateCancel p).StoreOK := by
  unfold updateCancel
  simp only
  split
  · exact h
  · split
    · rename_i reply hr
      exact updateInfoReplyFinished_ok (h.abort reply) _ _ reply hr
    · split
      · rename_i reply hr
        exact deliverDownload_ok (h.abort reply) p reply _ reply hr
      · exact h

theorem finish_transaction (s : MerginApi) (reply : Option Nat) (p : String) :
    (s.finish reply).transaction p = s.transaction p := by
  cases reply <;> rfl

theorem StoreOK.finish {s : MerginApi} (h : s.StoreOK) (reply : Option Nat) :
    (s.finish reply).StoreOK := by
  cases reply
  · exact h
  · exact h.of_store rfl

theorem step_ok {s : MerginApi} (h : s.StoreOK) (a : Action) (ha : s.allows a = true) :
    (s.step a).StoreOK := by
  cases a with
  | updateProject ns name => exact updateProject_ok h ns name
  | uploadProject ns name => exact uploadProject_ok h ns name
  | updateCancel p => exact updateCancel_ok h p
  | uploadCancel p => exact uploadCancel_ok h p
  | updateInfoReply p r =>
    simp only [allows, Option.isSome_iff_exists] at ha
    obtain ⟨reply, hr⟩ := ha
    exact updateInfoReplyFinished_ok (h.finish _) p r reply (by rw [finish_transaction]; exact hr)
  | downloadFileReply p reply r =>
    simp only [allows, beq_iff_eq] at ha
    exact deliverDownload_ok (h.finish _) p reply r reply (by rw [finish_transaction]; exact ha)
  | uploadInfoReply p r =>
    simp only [allows, Option.isSome_iff_exists] at ha
    obtain ⟨reply, hr⟩ := ha
    exact uploadInfoReplyFinished_ok (h.finish _) p r reply (by rw [finish_transaction]; exact hr)
  | uploadStartReply p r =>
    simp only [allows, Option.isSome_iff_exists] at ha
    obtain ⟨reply, hr⟩ := ha
    exact uploadStartReplyFinished_ok (h.finish _) p r reply
      (by rw [finish_transaction]; exact hr)
  | uploadFileReply p reply r =>
    simp only [allows, beq_iff_eq] at ha
    exact deliverUploadFile_ok (h.finish _) p reply r reply
      (by rw [finish_transaction]; exact ha)
  | uploadFinishReply p r =>
    simp only [allows, Option.isSome_iff_exists] at ha
    obtain ⟨reply, hr⟩ := ha
    exact uploadFinishReplyFinished_ok (h.finish _) p r reply
      (by rw [finish_transaction]; exact hr)
  | outside world => exact h.of_store rfl

theorem run_ok {s : MerginApi} (h : s.StoreOK) (actions : List Action)
    (ha : s.allowsRun actions = true) : (s.run actions).StoreOK := by
  induction actions generalizing s with
  | nil => exact h
  | cons a l ih =>
    simp only [allowsRun, Bool.and_eq_true] at ha
    exact ih (step_ok h a ha.1) ha.2

end MerginApi

/-! ## Failing inputs of the update pipeline -/

/-- C12 fails on the code: `a.txt` is a conflicting path, the local file holds
`hello`, and a file `a.txt_conflict` exists already (left by an earlier
conflict).  The rename fails and is only logged, the download is copied over
`a.txt`, and the sync ends with `syncProjectFinished( …, true )`: after the
finalization `a.txt_conflict` still holds `older`, `a.txt` holds the download,
and the local content `hello` is in no file. -/
theorem finalizeProjectUpdate_conflict_copy_exists :
    "a.txt" ∈ (sampleConflictAgain.transaction "ns/proj").diff.conflictRemoteUpdatedLocalUpdated ∧
    sampleConflictAgain.fs.read "/data/proj/a.txt" = some "hello" ∧
    sampleConflictAgain.fs.read "/data/proj/a.txt_conflict" = some "older" ∧
    (sampleConflictAgain.finalizeProjectUpdate "ns/proj").fs.read "/data/proj/a.txt_conflict" =
      some "older" ∧
    (sampleConflictAgain.finalizeProjectUpdate "ns/proj").fs.read "/data/proj/a.txt" =
      some "remote" ∧
    (∀ e ∈ (sampleConflictAgain.finalizeProjectUpdate "ns/proj").fs.files.entries,
      e.2 ≠ "hello") ∧
    (sampleConflictAgain.finalizeProjectUpdate "ns/proj").trace =
      [Event.signal (Signal.syncProjectStatusChanged "ns/proj" { num := -1 }),
       Event.signal (Signal.syncProjectFinished "/data/proj" "ns/proj" true)] := by
  decide

/-- C13 fails on the code: the temporary directory of `ns/proj` holds a file
that an interrupted download has left, and the project-info request of the
update fails.  The failure branch of `updateInfoReplyFinished` only ends the
sync (`syncProjectFinished` with `false`) and removes nothing: the temporary
directory and the file in it are still there. -/
theorem updateInfoReplyFinished_keeps_temp :
    sampleStale.getTempProjectDir "ns/proj" = "/data/.temp/ns/proj" ∧
    (sampleStale.transaction "ns/proj").replyProjectInfo = some 0 ∧
    (sampleStale.updateInfoReplyFinished "ns/proj" { noError := false }).trace =
      [Event.signal (Signal.syncProjectStatusChanged "ns/proj" { num := -1 }),
       Event.signal (Signal.syncProjectFinished "" "ns/proj" false)] ∧
    (sampleStale.updateInfoReplyFinished "ns/proj" { noError := false }).fs.dirExists
      "/data/.temp/ns/proj" = true ∧
    (sampleStale.updateInfoReplyFinished "ns/proj" { noError := false }).fs.read
      "/data/.temp/ns/proj/b.bin" = some "OLD" ∧
    (sampleStale.updateCancel "ns/proj").fs.dirExists "/data/.temp/ns/proj" = true := by
  decide

set_option maxRecDepth 100000 in
/-- A failed update that has changed the project directory.  The server lists
a file under the path `../../../proj/a.txt`; its chunk is written to
`tempDir + "/" + filename`, which is the project file `/data/proj/a.txt`.  The
request for the next file fails: the temporary directory is removed, the sync
ends with `syncProjectFinished( …, false )`, and the project file holds the
bytes of the server instead of `hello`. -/
theorem downloadFileReplyFinished_writes_outside_temp :
    sampleTraversal.getTempProjectDir "ns/proj" = "/data/.temp/ns/proj" ∧
    cleanPath ("/data/.temp/ns/proj" ++ "/" ++ "../../../proj/a.txt") = "/data/proj/a.txt" ∧
    sampleTraversal.fs.read "/data/proj/a.txt" = some "hello" ∧
    sampleTraversal.allowsRun
      [Action.downloadFileReply "ns/proj" 0 { noError := true, data := "bad" },
       Action.downloadFileReply "ns/proj" 1 { noError := false }] = true ∧
    (sampleTraversal.run
      [Action.downloadFileReply "ns/proj" 0 { noError := true, data := "bad" }]).fs.read
      "/data/proj/a.txt" = some "bad" ∧
    (sampleTraversal.run
      [Action.downloadFileReply "ns/proj" 0 { noError := true, data := "bad" },
       Action.downloadFileReply "ns/proj" 1 { noError := false }]).fs.read
      "/data/proj/a.txt" = some "bad" ∧
    (sampleTraversal.run
      [Action.downloadFileReply "ns/proj" 0 { noError := true, data := "bad" },
       Action.downloadFileReply "ns/proj" 1 { noError := false }]).fs.dirExists
      "/data/.temp/ns/proj" = false ∧
    (sampleTraversal.run
      [Action.downloadFileReply "ns/proj" 0 { noError := true, data := "bad" },
       Action.downloadFileReply "ns/proj" 1 { noError := false }]).trace.drop 3 =
      [Event.signal (Signal.syncProjectStatusChanged "ns/proj" { num := -1 }),
       Event.signal (Signal.syncProjectFinished "/data/proj" "ns/proj" false),
       Event.signal (Signal.networkErrorOccurred "" "Mergin API error: downloadFile" false)] := by
  decide

/-- C18 fails on the code: the queue holds one file of size zero, `z.txt`, and
the temporary directory of the project holds a `z.txt` with the content `OLD`
that an interrupted download has left.  `createEmptyFile` opens the file
`ReadWrite` and closes it, so the content stays; the update is finalized with
`syncProjectFinished( …, true )` and has put `OLD` into the project directory:
no empty file was created. -/
theorem takeFirstAndDownload_keeps_stale_file :
    (sampleStaleQueue.transaction "ns/proj").files = [{ path := "z.txt", size := 0 }] ∧
    sampleStaleQueue.getTempProjectDir "ns/proj" = "/data/.temp/ns/proj" ∧
    sampleStaleQueue.fs.read "/data/.temp/ns/proj/z.txt" = some "OLD" ∧
    (sampleStaleQueue.createEmptyFile "/data/.temp/ns/proj/z.txt").fs.read
      "/data/.temp/ns/proj/z.txt" = some "OLD" ∧
    (sampleStaleQueue.takeFirstAndDownload "ns/proj" "v6").fs.read "/data/proj/z.txt" =
      some "OLD" ∧
    (sampleStaleQueue.takeFirstAndDownload "ns/proj" "v6").trace =
      [Event.signal (Signal.syncProjectStatusChanged "ns/proj" { num := -1 }),
       Event.signal (Signal.syncProjectFinished "/data/proj" "ns/proj" true)] := by
  decide

/-! ## The indexer, the version check and entries of the store without a request -/

/-- C21 fails on the code: the project directory is `/data/proj/` and the file
`/data/proj/sub/data/proj/x.txt` is enumerated.  `replace( path, "" )` removes
every occurrence of the directory path, so the returned path is `subx.txt` and
not `sub/data/proj/x.txt`; prefixed with the directory path it names no file,
and `getLocalProjectFiles` records it with an empty checksum and size 0. -/
theorem listFiles_removes_every_occurrence :
    sampleNested.fs.dirIterator "/data/proj/" =
      ["/data/proj/a.txt", "/data/proj/sub/data/proj/x.txt"] ∧
    sampleNested.listFiles "/data/proj/" = ["a.txt", "subx.txt"] ∧
    "/data/proj/" ++ "subx.txt" ≠ "/data/proj/sub/data/proj/x.txt" ∧
    sampleNested.fs.read ("/data/proj/" ++ "subx.txt") = none ∧
    sampleNested.getLocalProjectFiles "/data/proj/" =
      [{ path := "a.txt", checksum := "sha:hello", size := 5 },
       { path := "subx.txt", checksum := "", size := 0 }] := by
  decide

/-- C24 fails on the code: whatever the version string and the message are,
`checkMerginVersion` leaves the status `OK`: it sets the status it has found
and then sets `OK` (two `apiVersionStatusChanged`).  For the server version
`2019.3` and a client of version `2019.4` the status found is `INCOMPATIBLE`,
for a ping that failed it is `NOT_FOUND`. -/
theorem checkMerginVersion_always_OK (s : MerginApi) (apiVersion msg : String) :
    (s.checkMerginVersion apiVersion msg).mApiVersionStatus = VersionStatus.OK ∧
    (s.checkMerginVersion apiVersion msg).trace =
      s.trace ++ [Event.signal Signal.apiVersionStatusChanged,
        Event.signal Signal.apiVersionStatusChanged] ∧
    MerginApi.versionVerdict sampleEnv "2019.3" "" = VersionStatus.INCOMPATIBLE ∧
    MerginApi.versionVerdict sampleEnv "" "Connection refused" = VersionStatus.NOT_FOUND ∧
    ((sampleApi 5).checkMerginVersion "2019.3" "").mApiVersionStatus = VersionStatus.OK ∧
    ((sampleApi 5).checkMerginVersion "" "Connection refused").mApiVersionStatus =
      VersionStatus.OK := by
  refine ⟨rfl, ?_, by decide, by decide, rfl, rfl⟩
  simp [MerginApi.checkMerginVersion, MerginApi.setApiVersionStatus, MerginApi.emit]

set_option maxRecDepth 100000 in
/-- C25 fails on the code: the local project has a new file `e.txt` that is
empty.  `uploadInfoReplyFinished` queues it first, with no chunk id
(`generateChunkIdsForSize( 0 )` is empty), and `uploadStartReplyFinished` calls
`uploadFile` for it with `chunkNo = 0`: `file.chunks.at( 0 )` on an empty list.
The model gives the empty id for an index out of range; it is the chunk id of
the request. -/
theorem uploadFile_chunk_out_of_range :
    ((sampleEmptyAdded.run
        [Action.uploadProject "ns" "proj",
         Action.uploadInfoReply "ns/proj" { noError := true, data := "v5" }]).transaction
      "ns/proj").files =
      [{ path := "e.txt", checksum := "sha:", size := 0, chunks := [] },
       { path := "a.txt", checksum := "sha:hello", size := 5, chunks := ["chunk-0"] }] ∧
    generateChunkIdsForSize sampleUuid 0 = [] ∧
    MerginApi.chunkAt [] 0 = "" ∧
    (sampleEmptyAdded.run
        [Action.uploadProject "ns" "proj",
         Action.uploadInfoReply "ns/proj" { noError := true, data := "v5" },
         Action.uploadStartReply "ns/proj"
           { noError := true, data := "transaction T1" }]).trace.drop 3 =
      [Event.request 2 (Request.uploadFile "ns/proj" "T1" "" ""),
       Event.signal Signal.pushFilesStarted] := by
  decide

set_option maxRecDepth 100000 in
/-- C26 fails on the code: `uploadProject` is called for a project whose local
version is behind the server, so the project-info reply starts the update that
precedes the upload.  While its first chunk is downloaded the transaction has
`updateBeforeUpload` set and only `replyDownloadFile`; none of the four upload
handles is set, and `uploadCancel` falls through to the branch of the
assertion: nothing is aborted and the download stays outstanding. -/
theorem uploadCancel_finds_no_upload_handle :
    ((sampleApi 5).run
        [Action.uploadProject "ns" "proj",
         Action.uploadInfoReply "ns/proj" { noError := true, data := "v6" }]).mTransactionalStatus.contains
      "ns/proj" = true ∧
    (((sampleApi 5).run
        [Action.uploadProject "ns" "proj",
         Action.uploadInfoReply "ns/proj" { noError := true, data := "v6" }]).transaction
      "ns/proj").updateBeforeUpload = true ∧
    (((sampleApi 5).run
        [Action.uploadProject "ns" "proj",
         Action.uploadInfoReply "ns/proj" { noError := true, data := "v6" }]).transaction
      "ns/proj").replyDownloadFile = some 1 ∧
    (((sampleApi 5).run
        [Action.uploadProject "ns" "proj",
         Action.uploadInfoReply "ns/proj" { noError := true, data := "v6" }]).transaction
      "ns/proj").replyUploadProjectInfo = none ∧
    (((sampleApi 5).run
        [Action.uploadProject "ns" "proj",
         Action.uploadInfoReply "ns/proj" { noError := true, data := "v6" }]).transaction
      "ns/proj").replyUploadStart = none ∧
    (((sampleApi 5).run
        [Action.uploadProject "ns" "proj",
         Action.uploadInfoReply "ns/proj" { noError := true, data := "v6" }]).transaction
      "ns/proj").replyUploadFile = none ∧
    (((sampleApi 5).run
        [Action.uploadProject "ns" "proj",
         Action.uploadInfoReply "ns/proj" { noError := true, data := "v6" }]).transaction
      "ns/proj").replyUploadFinish = none ∧
    ((sampleApi 5).run
        [Action.uploadProject "ns" "proj",
         Action.uploadInfoReply "ns/proj" { noError := true, data := "v6" },
         Action.uploadCancel "ns/proj"]).trace =
      ((sampleApi 5).run
        [Action.uploadProject "ns" "proj",
         Action.uploadInfoReply "ns/proj" { noError := true, data := "v6" }]).trace ∧
    (((sampleApi 5).run
        [Action.uploadProject "ns" "proj",
         Action.uploadInfoReply "ns/proj" { noError := true, data := "v6" },
         Action.uploadCancel "ns/proj"]).transaction "ns/proj").replyDownloadFile = some 1 := by
  decide

/-- C27 fails on the code: without credentials (and likewise with an API
version that is not accepted) `getProjectInfo` issues no request, but
`uploadProject` has inserted the entry of the project before the call and
leaves it in the store, with no handle set.  `updateProject` inserts the entry
only after the request was issued and leaves the store as it was. -/
theorem uploadProject_leaves_entry_without_request :
    sampleLoggedOut.mTransactionalStatus.contains "ns/proj" = false ∧
    (sampleLoggedOut.uploadProject "ns" "proj").trace = [Event.signal Signal.authRequested] ∧
    (sampleLoggedOut.uploadProject "ns" "proj").mTransactionalStatus.contains "ns/proj" = true ∧
    ((sampleLoggedOut.uploadProject "ns" "proj").transaction "ns/proj").handles = 0 ∧
    ({ sampleApi 5 with mApiVersionStatus := VersionStatus.INCOMPATIBLE }.uploadProject
      "ns" "proj").trace = [] ∧
    ({ sampleApi 5 with mApiVersionStatus := VersionStatus.INCOMPATIBLE }.uploadProject
      "ns" "proj").mTransactionalStatus.contains "ns/proj" = true ∧
    (({ sampleApi 5 with mApiVersionStatus := VersionStatus.INCOMPATIBLE }.uploadProject
      "ns" "proj").transaction "ns/proj").handles = 0 ∧
    (sampleLoggedOut.updateProject "ns" "proj").mTransactionalStatus.contains "ns/proj" =
      false := by
  decide

/-- C30 as stated fails: the namespace `%1` has no `/`, but it is a place
marker.  `QString( "%1/%2" ).arg( "%1" )` is `%1/%2` again, and
`.arg( "proj" )` replaces the marker with the lowest number, `%1`: the full
name is `proj/%2`, which is split into the namespace `proj` and the name
`%2`. -/
theorem getFullProjectName_of_place_marker :
    MerginApi.getFullProjectName "%1" "proj" = "proj/%2" ∧
    MerginApi.extractProjectName (MerginApi.getFullProjectName "%1" "proj") "" =
      (true, "proj", "%2") := by
  decide

/-! ## Full names of projects -/

theorem argParts_plain_append (l r : List Char) (h : '%' ∉ l) :
    argParts .plain (l ++ r) = l.map ArgPart.char ++ argParts .plain r := by
  induction l with
  | nil => rfl
  | cons c l ih =>
    have hc : c ≠ '%' := fun e => h (e ▸ List.mem_cons_self _ _)
    have hl : '%' ∉ l := fun e => h (List.mem_cons_of_mem _ e)
    simp only [List.cons_append, argParts, hc, if_false, List.map_cons, List.append_eq, ih hl]

theorem lowestMarker_foldl_chars (l : List Char) (rest : List ArgPart) (best : Option Nat) :
    (l.map ArgPart.char ++ rest).foldl lowerMarker best = rest.foldl lowerMarker best := by
  induction l with
  | nil => rfl
  | cons c l ih =>
    have hb : lowerMarker best (ArgPart.char c) = best := by cases best <;> rfl
    simp only [List.map_cons, List.cons_append, List.foldl_cons, hb, ih]

theorem lowestMarker_chars_append (l : List Char) (rest : List ArgPart) :
    lowestMarker (l.map ArgPart.char ++ rest) = lowestMarker rest :=
  lowestMarker_foldl_chars l rest none

theorem argString_foldr_chars (l : List Char) (rest : List ArgPart) (lowest : Nat)
    (a : List Char) :
    (l.map ArgPart.char ++ rest).foldr (fun part acc => argReplace lowest a part ++ acc) [] =
    l ++ rest.foldr (fun part acc => argReplace lowest a part ++ acc) [] := by
  induction l with
  | nil => rfl
  | cons c l ih =>
    simp only [List.map_cons, List.cons_append, List.foldr_cons, ih]
    rfl

/-- The full name of a project whose namespace has no `%`: the namespace, a
`/`, and the name. -/
theorem getFullProjectName_eq (ns name : String) (h : '%' ∉ ns.toList) :
    MerginApi.getFullProjectName ns name = String.mk (ns.toList ++ '/' :: name.toList) := by
  have h1 : argString "%1/%2" ns = String.mk (ns.toList ++ ['/', '%', '2']) := by
    rfl
  unfold MerginApi.getFullProjectName
  rw [h1]
  unfold argString
  rw [show (String.mk (ns.toList ++ ['/', '%', '2'])).toList = ns.toList ++ ['/', '%', '2']
    from rfl]
  simp only
  rw [argParts_plain_append _ _ h, lowestMarker_chars_append]
  have h2 : argParts .plain ['/', '%', '2'] = [.char '/', .marker 2 ['%', '2']] := by decide
  rw [h2]
  have h3 : lowestMarker [.char '/', .marker 2 ['%', '2']] = some 2 := by decide
  rw [h3]
  simp only
  rw [argString_foldr_chars]
  simp [List.foldr, argReplace]

theorem splitSlashAux_append (l r cur : List Char) (h : '/' ∉ l) :
    splitSlashAux (l ++ r) cur = splitSlashAux r (l.reverse ++ cur) := by
  induction l generalizing cur with
  | nil => rfl
  | cons c l ih =>
    have hc : c ≠ '/' := fun e => h (e ▸ List.mem_cons_self _ _)
    have hl : '/' ∉ l := fun e => h (List.mem_cons_of_mem _ e)
    simp only [List.cons_append, splitSlashAux, hc, if_false, List.append_eq, ih _ hl,
      List.reverse_cons, List.append_assoc, List.singleton_append, List.nil_append]

/-- A string without `/` is one part. -/
theorem splitSlash_of_no_slash (s : String) (h : '/' ∉ s.toList) : splitSlash s = [s] := by
  unfold splitSlash
  have := splitSlashAux_append s.toList [] [] h
  rw [List.append_nil] at this
  rw [this]
  simp [splitSlashAux, String.toList]

/-- Two strings without `/`, joined by `/`, are split into the two. -/
theorem splitSlash_pair (ns name : String) (h1 : '/' ∉ ns.toList) (h2 : '/' ∉ name.toList) :
    splitSlash (String.mk (ns.toList ++ '/' :: name.toList)) = [ns, name] := by
  unfold splitSlash
  show splitSlashAux (ns.toList ++ '/' :: name.toList) [] = _
  rw [splitSlashAux_append _ _ _ h1]
  have := splitSlashAux_append name.toList [] [] h2
  rw [List.append_nil] at this
  simp only [splitSlashAux, if_true, this]
  simp [String.toList]

/-- C30 (amended): for a namespace and a project name without `/`, the
namespace also without `%` (so that it holds no place marker of
`QString::arg`), `extractProjectName` applied to their full name returns
`true` and yields that namespace and that name; for a string without `/` it
returns `false`, yields the whole string as the name and leaves the namespace
as it was. -/
theorem extractProjectName_getFullProjectName (ns name before : String)
    (hns : '/' ∉ ns.toList) (hname : '/' ∉ name.toList) (hmarker : '%' ∉ ns.toList) :
    MerginApi.extractProjectName (MerginApi.getFullProjectName ns name) before =
      (true, ns, name) ∧
    ∀ sourceString : String, '/' ∉ sourceString.toList →
      MerginApi.extractProjectName sourceString before = (false, before, sourceString) := by
  refine ⟨?_, ?_⟩
  · rw [getFullProjectName_eq ns name hmarker]
    unfold MerginApi.extractProjectName
    rw [splitSlash_pair ns name hns hname]
    rfl
  · intro sourceString h
    unfold MerginApi.extractProjectName
    rw [splitSlash_of_no_slash sourceString h]
    rfl

/-- Witness for C30 (amended): the namespace `ns` and the name `proj`. -/
theorem extractProjectName_getFullProjectName_witness :
    MerginApi.extractProjectName (MerginApi.getFullProjectName "ns" "proj") "" =
      (true, "ns", "proj") ∧
    MerginApi.extractProjectName "proj" "" = (false, "", "proj") :=
  ⟨(extractProjectName_getFullProjectName "ns" "proj" "" (by decide) (by decide)
      (by decide)).1,
   (extractProjectName_getFullProjectName "ns" "proj" "" (by decide) (by decide)
      (by decide)).2 "proj" (by decide)⟩

/-! ## A project without local changes -/

theorem compareProjectFiles_local_as_baseline (old new loc : List MerginFile)
    (ho : (old.map MerginFile.path).Nodup) (hl : (loc.map MerginFile.path).Nodup)
    (hol : ∀ x, x ∈ signature old ↔ x ∈ signature loc) (c : Category)
    (hc1 : c ≠ Category.remoteAdded) (hc2 : c ≠ Category.remoteUpdated)
    (hc3 : c ≠ Category.remoteDeleted) :
    (compareProjectFiles old new loc).get c = [] := by
  rw [List.eq_nil_iff_forall_not_mem]
  intro p hp
  rw [compareProjectFiles_mem old new loc hl] at hp
  rcases hp with ⟨f, hf, rfl, hc⟩ | ⟨hnp, f, hf, hc⟩
  · have h2 : (f.path, f.checksum) ∈ signature old :=
      (hol _).mpr (List.mem_map_of_mem (fun f => (f.path, f.checksum)) hf)
    simp only [signature, List.mem_map, Prod.mk.injEq] at h2
    obtain ⟨fo, hfo, hpo, hco⟩ := h2
    have hconto : (filesMap old).contains f.path = true :=
      (filesMap_contains old f.path).mpr (hpo ▸ List.mem_map_of_mem MerginFile.path hfo)
    have hvo : (filesMap old).value f.path = fo := hpo ▸ filesMap_value old ho fo hfo
    cases c <;> simp [LocalCond, hconto, hvo, hco] at hc hc1 hc2 hc3
    exact hc.2.2 hc.2.1.symm
  · have he := QHash.mem_entries_of_find? _ _ _ hf
    have hpath : f.path = p := (WFMap_filesMap new).2 _ he
    have hcont : (filesMap old).contains f.path = false := by
      rw [filesMap_contains_false, hpath]
      intro hmem
      obtain ⟨fo, hfo, hpo⟩ := List.mem_map.mp hmem
      have h1 : (fo.path, fo.checksum) ∈ signature loc :=
        (hol _).mp (List.mem_map_of_mem (fun f => (f.path, f.checksum)) hfo)
      simp only [signature, List.mem_map, Prod.mk.injEq] at h1
      obtain ⟨g, hg, hgp, _⟩ := h1
      exact hnp (hpo ▸ hgp ▸ List.mem_map_of_mem MerginFile.path hg)
    cases c <;> simp [ServerCond, hcont] at hc hc1 hc2 hc3

/-- C29: when the local list has exactly the paths and checksums of the
baseline (paths pairwise different in the baseline and in the local list), then
for every remote list the diff of `compareProjectFiles` has `localAdded`,
`localUpdated`, `localDeleted` and the four conflict sets empty. -/
theorem compareProjectFiles_no_local_change (old new loc : List MerginFile)
    (ho : (old.map MerginFile.path).Nodup) (hl : (loc.map MerginFile.path).Nodup)
    (hol : ∀ x, x ∈ signature old ↔ x ∈ signature loc) :
    (compareProjectFiles old new loc).localAdded = [] ∧
    (compareProjectFiles old new loc).localUpdated = [] ∧
    (compareProjectFiles old new loc).localDeleted = [] ∧
    (compareProjectFiles old new loc).conflictRemoteUpdatedLocalUpdated = [] ∧
    (compareProjectFiles old new loc).conflictRemoteAddedLocalAdded = [] ∧
    (compareProjectFiles old new loc).conflictRemoteDeletedLocalUpdated = [] ∧
    (compareProjectFiles old new loc).conflictRemoteUpdatedLocalDeleted = [] :=
  ⟨compareProjectFiles_local_as_baseline old new loc ho hl hol Category.localAdded
      (by decide) (by decide) (by decide),
   compareProjectFiles_local_as_baseline old new loc ho hl hol Category.localUpdated
      (by decide) (by decide) (by decide),
   compareProjectFiles_local_as_baseline old new loc ho hl hol Category.localDeleted
      (by decide) (by decide) (by decide),
   compareProjectFiles_local_as_baseline old new loc ho hl hol
      Category.conflictRemoteUpdatedLocalUpdated (by decide) (by decide) (by decide),
   compareProjectFiles_local_as_baseline old new loc ho hl hol
      Category.conflictRemoteAddedLocalAdded (by decide) (by decide) (by decide),
   compareProjectFiles_local_as_baseline old new loc ho hl hol
      Category.conflictRemoteDeletedLocalUpdated (by decide) (by decide) (by decide),
   compareProjectFiles_local_as_baseline old new loc ho hl hol
      Category.conflictRemoteUpdatedLocalDeleted (by decide) (by decide) (by decide)⟩

/-- Witness for C29: the local files are those of the baseline (in another
order); the server has changed `a`, removed `b` and added `c`, and the diff
has no local and no conflict entry. -/
theorem compareProjectFiles_no_local_change_witness :
    (compareProjectFiles [mkFile "a" "1", mkFile "b" "2"]
      [mkFile "a" "9", mkFile "c" "3"] [mkFile "b" "2", mkFile "a" "1"]).localUpdated = [] ∧
    (compareProjectFiles [mkFile "a" "1", mkFile "b" "2"]
      [mkFile "a" "9", mkFile "c" "3"]
      [mkFile "b" "2", mkFile "a" "1"]).conflictRemoteUpdatedLocalUpdated = [] ∧
    (compareProjectFiles [mkFile "a" "1", mkFile "b" "2"]
      [mkFile "a" "9", mkFile "c" "3"] [mkFile "b" "2", mkFile "a" "1"]).remoteUpdated =
        ["a"] :=
  ⟨(compareProjectFiles_no_local_change [mkFile "a" "1", mkFile "b" "2"]
      [mkFile "a" "9", mkFile "c" "3"] [mkFile "b" "2", mkFile "a" "1"]
      (by decide) (by decide) (fun x => by simp [signature, mkFile, or_comm])).2.1,
   (compareProjectFiles_no_local_change [mkFile "a" "1", mkFile "b" "2"]
      [mkFile "a" "9", mkFile "c" "3"] [mkFile "b" "2", mkFile "a" "1"]
      (by decide) (by decide) (fun x => by simp [signature, mkFile, or_comm])).2.2.2.1,
   by decide⟩

/-! ## The indexer -/

theorem mem_eraseDups_loop (as bs : List String) (x : String) :
    x ∈ List.eraseDups.loop as bs ↔ x ∈ as ∨ x ∈ bs := by
  induction as generalizing bs with
  | nil => simp [List.eraseDups.loop]
  | cons a as ih =>
    unfold List.eraseDups.loop
    cases h : bs.elem a with
    | true =>
      simp only
      rw [ih]
      have ha : a ∈ bs := List.elem_iff.mp h
      constructor
      · rintro (h1 | h1)
        · exact Or.inl (List.mem_cons_of_mem _ h1)
        · exact Or.inr h1
      · rintro (h1 | h1)
        · rcases List.mem_cons.mp h1 with rfl | h2
          · exact Or.inr ha
          · exact Or.inl h2
        · exact Or.inr h1
    | false =>
      simp only
      rw [ih]
      simp only [List.mem_cons]
      tauto

theorem mem_eraseDups (as : List String) (x : String) : x ∈ as.eraseDups ↔ x ∈ as := by
  unfold List.eraseDups
  rw [mem_eraseDups_loop]
  simp

theorem splitSlashAux_getLastD (n : List Char) (hn : '/' ∉ n) (l cur : List Char) (d : String) :
    (splitSlashAux (l ++ '/' :: n) cur).getLastD d = String.mk n := by
  induction l generalizing cur d with
  | nil =>
    have := splitSlashAux_append n [] [] hn
    rw [List.append_nil] at this
    simp [splitSlashAux, this]
  | cons c l ih =>
    rw [List.cons_append]
    unfold splitSlashAux
    split
    · rw [List.getLastD_cons]
      exact ih _ _
    · exact ih _ _

/-- The file name of a path is what follows its last `/`. -/
theorem fileName_of_dir (dir name : String) (hn : '/' ∉ name.toList) :
    fileName (dir ++ "/" ++ name) = name := by
  unfold fileName splitSlash
  have e : (dir ++ "/" ++ name).toList = dir.toList ++ '/' :: name.toList := by
    simp [String.toList, String.data_append]
  rw [e, splitSlashAux_getLastD _ hn]
  rfl

theorem suffixChars_none (l : List Char) (h : '.' ∉ l) : suffixChars l = none := by
  induction l with
  | nil => rfl
  | cons c l ih =>
    have hc : c ≠ '.' := fun e => h (e ▸ List.mem_cons_self _ _)
    have hl : '.' ∉ l := fun e => h (List.mem_cons_of_mem _ e)
    simp [suffixChars, ih hl, hc]

theorem suffixChars_append (b e : List Char) (h : '.' ∉ e) :
    suffixChars (b ++ '.' :: e) = some e := by
  induction b with
  | nil => simp [suffixChars, suffixChars_none e h]
  | cons c b ih => simp [suffixChars, ih]

theorem suffixChars_ne_none (l : List Char) (h : '.' ∈ l) : suffixChars l ≠ none := by
  induction l with
  | nil => simp at h
  | cons c l ih =>
    unfold suffixChars
    cases hs : suffixChars l with
    | some r => simp
    | none =>
      rcases List.mem_cons.mp h with rfl | hl
      · simp
      · exact absurd hs (ih hl)

theorem suffixChars_some (l e : List Char) (h : suffixChars l = some e) :
    ∃ b, l = b ++ '.' :: e ∧ '.' ∉ e := by
  induction l with
  | nil => simp [suffixChars] at h
  | cons c l ih =>
    unfold suffixChars at h
    cases hs : suffixChars l with
    | some r =>
      rw [hs] at h
      simp only [Option.some.injEq] at h
      subst h
      obtain ⟨b, hb, he⟩ := ih hs
      exact ⟨c :: b, by rw [hb]; rfl, he⟩
    | none =>
      rw [hs] at h
      simp only at h
      split at h
      · rename_i hc
        simp only [Option.some.injEq] at h
        subst h hc
        exact ⟨[], rfl, fun hmem => suffixChars_ne_none l hmem hs⟩
      · simp at h
theorem suffix_of_dir (dir name : String) (hn : '/' ∉ name.toList) :
    suffix (dir ++ "/" ++ name) = String.mk ((suffixChars name.toList).getD []) := by
  unfold suffix
  rw [fileName_of_dir dir name hn]

theorem mem_listFiles (s : MerginApi) (path p : String) :
    p ∈ s.listFiles path ↔
      ∃ f ∈ s.fs.dirIterator path, MerginApi.isInIgnore f = false ∧
        p = replaceWithEmpty f path := by
  unfold MerginApi.listFiles
  rw [mem_eraseDups, List.mem_map]
  constructor
  · rintro ⟨f, hf, rfl⟩
    obtain ⟨h1, h2⟩ := List.mem_filter.mp hf
    exact ⟨f, h1, by simpa using h2, rfl⟩
  · rintro ⟨f, h1, h2, rfl⟩
    exact ⟨f, List.mem_filter.mpr ⟨h1, by simpa using h2⟩, rfl⟩

/-- What `isInIgnore` skips: a file `name` of a directory is skipped if and
only if what follows the last `.` of its name is one of `gpkg-shm`, `gpkg-wal`,
`qgs~`, `qgz~`, `pyc`, `swap`, or its name is `mergin.json` or `.DS_Store`. -/
theorem isInIgnore_iff (dir name : String) (hname : '/' ∉ name.toList) :
    MerginApi.isInIgnore (dir ++ "/" ++ name) = true ↔
      (∃ base ext : String, name = base ++ "." ++ ext ∧ '.' ∉ ext.toList ∧
        ext ∈ ["gpkg-shm", "gpkg-wal", "qgs~", "qgz~", "pyc", "swap"]) ∨
      name = "mergin.json" ∨ name = ".DS_Store" := by
  unfold MerginApi.isInIgnore
  rw [suffix_of_dir dir name hname, fileName_of_dir dir name hname, Bool.or_eq_true]
  constructor
  · rintro (h | h)
    · cases hsc : suffixChars name.toList with
      | none =>
        rw [hsc] at h
        exact absurd h (by decide)
      | some e =>
        rw [hsc] at h
        obtain ⟨b, hb, he⟩ := suffixChars_some _ _ hsc
        refine Or.inl ⟨String.mk b, String.mk e, ?_, he, ?_⟩
        · apply String.ext
          simp only [String.data_append]
          show name.toList = _
          rw [hb]
          simp
        · simpa [MerginApi.sIgnoreExtensions] using h
    · right
      simpa [MerginApi.sIgnoreFiles] using h
  · rintro (⟨base, ext, rfl, he, hm⟩ | h | h)
    · left
      have e1 : (base ++ "." ++ ext).toList = base.toList ++ '.' :: ext.toList := by
        simp [String.toList, String.data_append]
      rw [e1, suffixChars_append _ _ he]
      simpa [MerginApi.sIgnoreExtensions] using hm
    · right
      rw [h]
      decide
    · right
      rw [h]
      decide

/-- C22 fails on the code: the project directory `/data/proj/` holds
`subx.txt` and `sub/data/proj/x.txt`.  Both files are enumerated and neither is
skipped by `isInIgnore`, but `listFiles` returns `subx.txt` for both (the
directory path is removed at every place of the path, and the result is a
set): the file `sub/data/proj/x.txt` is not returned, and
`getLocalProjectFiles` has no record of it. -/
theorem listFiles_returns_one_of_two :
    sampleTwoNames.fs.dirIterator "/data/proj/" =
      ["/data/proj/a.txt", "/data/proj/subx.txt", "/data/proj/sub/data/proj/x.txt"] ∧
    MerginApi.isInIgnore "/data/proj/subx.txt" = false ∧
    MerginApi.isInIgnore "/data/proj/sub/data/proj/x.txt" = false ∧
    sampleTwoNames.listFiles "/data/proj/" = ["a.txt", "subx.txt"] ∧
    "sub/data/proj/x.txt" ∉ sampleTwoNames.listFiles "/data/proj/" ∧
    sampleTwoNames.getLocalProjectFiles "/data/proj/" =
      [{ path := "a.txt", checksum := "sha:hello", size := 5 },
       { path := "subx.txt", checksum := "sha:one", size := 3 }] := by
  decide

/-! ## Hidden entries and the paths that `listFiles` returns -/

theorem startsWithChars_eq_append (p cs : List Char) (h : startsWithChars p cs = true) :
    cs = p ++ cs.drop p.length := by
  induction p generalizing cs with
  | nil => rfl
  | cons a p ih =>
    cases cs with
    | nil => simp [startsWithChars] at h
    | cons c cs =>
      simp only [startsWithChars, Bool.and_eq_true, beq_iff_eq] at h
      obtain ⟨rfl, h2⟩ := h
      simp only [List.length_cons, List.drop_succ_cons, List.cons_append]
      rw [← ih cs h2]

theorem startsWithChars_append_self (p r : List Char) : startsWithChars p (p ++ r) = true := by
  induction p with
  | nil => rfl
  | cons a p ih => simp [startsWithChars, ih]

theorem removeAllAux_skip (pl cs : List Char) (k : Nat) :
    removeAllAux pl cs k = removeAllAux pl (cs.drop k) 0 := by
  induction cs generalizing k with
  | nil => cases k <;> simp [removeAllAux]
  | cons c cs ih =>
    cases k with
    | zero => rfl
    | succ k =>
      rw [removeAllAux, ih k]
      rfl

/-- A first occurrence at the start is removed and the scan goes on after
it. -/
theorem removeAllAux_append (pl r : List Char) (hpl : pl ≠ []) :
    removeAllAux pl (pl ++ r) 0 = removeAllAux pl r 0 := by
  cases pl with
  | nil => exact absurd rfl hpl
  | cons a p =>
    rw [List.cons_append, removeAllAux]
    have h1 := startsWithChars_append_self (a :: p) r
    rw [List.cons_append] at h1
    rw [if_pos ⟨hpl, h1⟩, removeAllAux_skip]
    simp

/-- Where the result of the replacement starts with `.`, the `.` of the
string follows a `/` or is its first character, when the replaced string ends
with `/`. -/
theorem removeAllAux_head_dot (pl front : List Char) (hpl : pl = front ++ ['/']) (n : Nat) :
    ∀ cs : List Char, cs.length ≤ n → (removeAllAux pl cs 0).head? = some '.' →
      (∃ t, cs = '.' :: t) ∨ ∃ a b, cs = a ++ '/' :: '.' :: b := by
  have hne : pl ≠ [] := by rw [hpl]; simp
  induction n with
  | zero =>
    intro cs hlen h
    have : cs = [] := List.length_eq_zero.mp (Nat.le_zero.mp hlen)
    subst this
    simp [removeAllAux] at h
  | succ n ih =>
    intro cs hlen h
    cases cs with
    | nil => simp [removeAllAux] at h
    | cons c cs =>
      by_cases hs : startsWithChars pl (c :: cs) = true
      · have e := startsWithChars_eq_append pl (c :: cs) hs
        have hlen2 : ((c :: cs).drop pl.length).length ≤ n := by
          have h0 : 0 < pl.length := List.length_pos.mpr hne
          simp only [List.length_drop, List.length_cons] at hlen ⊢
          omega
        rw [e, removeAllAux_append pl _ hne] at h
        rcases ih _ hlen2 h with ⟨t, ht⟩ | ⟨a, b, hab⟩
        · right
          refine ⟨front, t, ?_⟩
          rw [e, ht, hpl]
          simp
        · right
          refine ⟨pl ++ a, b, ?_⟩
          rw [e, hab]
          simp
      · rw [removeAllAux, if_neg (fun hh => hs hh.2)] at h
        simp only [List.head?_cons, Option.some.injEq] at h
        exact Or.inl ⟨cs, by rw [h]⟩

theorem splitSlashAux_first (t cur : List Char) (c : Char) (h : cur.getLast? = some c) :
    ∃ w rest, splitSlashAux t cur = String.mk (c :: w) :: rest := by
  induction t generalizing cur with
  | nil =>
    have : cur.reverse.head? = some c := by rw [List.head?_reverse]; exact h
    cases hr : cur.reverse with
    | nil => rw [hr] at this; simp at this
    | cons x w =>
      rw [hr] at this
      simp only [List.head?_cons, Option.some.injEq] at this
      subst this
      exact ⟨w, [], by simp [splitSlashAux, hr]⟩
  | cons x t ih =>
    unfold splitSlashAux
    split
    · have : cur.reverse.head? = some c := by rw [List.head?_reverse]; exact h
      cases hr : cur.reverse with
      | nil => rw [hr] at this; simp at this
      | cons y w =>
        rw [hr] at this
        simp only [List.head?_cons, Option.some.injEq] at this
        subst this
        exact ⟨w, _, rfl⟩
    · apply ih
      cases cur with
      | nil => simp at h
      | cons y cur => simpa [List.getLast?_cons_cons] using h

theorem splitSlashAux_any_dot_first (t : List Char) :
    (splitSlashAux ('.' :: t) []).any (fun part => part.toList.head? = some '.') = true := by
  have e : splitSlashAux ('.' :: t) [] = splitSlashAux t ['.'] := by
    simp [splitSlashAux]
  obtain ⟨w, rest, h⟩ := splitSlashAux_first t ['.'] '.' rfl
  rw [e, h]
  simp [String.toList]

theorem splitSlashAux_any_after_slash (q : String → Bool) (a b cur : List Char)
    (h : (splitSlashAux b []).any q = true) :
    (splitSlashAux (a ++ '/' :: b) cur).any q = true := by
  induction a generalizing cur with
  | nil =>
    simp only [List.nil_append, splitSlashAux, if_true, List.any_cons, h, Bool.or_true]
  | cons x a ih =>
    rw [List.cons_append]
    unfold splitSlashAux
    split
    · rw [List.any_cons, ih, Bool.or_true]
    · exact ih _
/-- What the iterator enumerates below a directory given with its final `/`
has no hidden component: the rest of the path after the directory does not
start with `.` and has no `/.`. -/
theorem dirIterator_rest (s : MerginApi) (path f : String)
    (hpath : path.toList.getLast? = some '/') (hf : f ∈ s.fs.dirIterator path) :
    ∃ rest, f.toList = path.toList ++ rest ∧
      (splitSlashAux rest []).any (fun part => part.toList.head? = some '.') = false := by
  unfold FileSystem.dirIterator at hf
  obtain ⟨_, h2⟩ := List.mem_filter.mp hf
  simp only [Bool.and_eq_true, Bool.not_eq_true', isUnder, hpath, if_true] at h2
  obtain ⟨h3, h4⟩ := h2
  have e := startsWithChars_eq_append _ _ h3
  refine ⟨f.toList.drop path.toList.length, e, ?_⟩
  exact h4

theorem listFiles_head_not_dot (s : MerginApi) (path p : String)
    (hpath : path.toList.getLast? = some '/') (hp : p ∈ s.listFiles path) :
    p.toList.head? ≠ some '.' := by
  obtain ⟨f, hf, _, rfl⟩ := (mem_listFiles s path p).mp hp
  obtain ⟨rest, e, hrest⟩ := dirIterator_rest s path f hpath hf
  obtain ⟨front, hfront⟩ : ∃ front, path.toList = front ++ ['/'] := by
    rcases List.eq_nil_or_concat path.toList with h | ⟨front, c, h⟩
    · rw [h] at hpath
      simp at hpath
    · rw [h] at hpath
      simp at hpath
      exact ⟨front, by rw [h, hpath, List.concat_eq_append]⟩
  have hne : path.toList ≠ [] := by rw [hfront]; simp
  intro hdot
  have hdot2 : (removeAllAux path.toList rest 0).head? = some '.' := by
    have : (replaceWithEmpty f path).toList = removeAllAux path.toList f.toList 0 := rfl
    rw [this, e, removeAllAux_append _ _ hne] at hdot
    exact hdot
  rcases removeAllAux_head_dot path.toList front hfront rest.length rest (le_refl _) hdot2 with
    ⟨t, ht⟩ | ⟨a, b, hab⟩
  · rw [ht, splitSlashAux_any_dot_first] at hrest
    exact absurd hrest (by simp)
  · rw [hab, splitSlashAux_any_after_slash _ a ('.' :: b) [] (splitSlashAux_any_dot_first b)]
      at hrest
    exact absurd hrest (by simp)

theorem isUnder_mergin_false (p : String) (h : p.toList.head? ≠ some '.') :
    isUnder ".mergin" p = false := by
  unfold isUnder
  have e : (".mergin" : String).toList = ['.', 'm', 'e', 'r', 'g', 'i', 'n'] := rfl
  rw [e]
  cases hp : p.toList with
  | nil => rfl
  | cons c cs =>
    rw [hp] at h
    have hc : c ≠ '.' := fun hh => h (by rw [hh]; rfl)
    have hc2 : ('.' == c) = false := by
      rw [beq_eq_false_iff_ne]
      exact fun hh => hc hh.symm
    simp [startsWithChars, hc2]

/-- C23: for a directory given with its final `/` (as `getLocalProjectFiles`
is called), no enumerated file lies below its `.mergin/`, and no path that
`listFiles` or `getLocalProjectFiles` returns lies below `.mergin/`: a returned
path does not even start with `.`.  Hidden entries are not enumerated because
the iterator is not asked for `QDir::Hidden`; the name and the extension of the
file do not matter. -/
theorem listFiles_excludes_mergin (s : MerginApi) (path : String)
    (hpath : path.toList.getLast? = some '/') :
    (∀ f ∈ s.fs.dirIterator path, isUnder (path ++ ".mergin") f = false) ∧
    (∀ p ∈ s.listFiles path, p.toList.head? ≠ some '.' ∧ isUnder ".mergin" p = false) ∧
    (∀ f ∈ s.getLocalProjectFiles path,
      f.path.toList.head? ≠ some '.' ∧ isUnder ".mergin" f.path = false) := by
  refine ⟨?_, ?_, ?_⟩
  · intro f hf
    obtain ⟨rest, e, hrest⟩ := dirIterator_rest s path f hpath hf
    by_contra hu
    rw [Bool.not_eq_false] at hu
    unfold isUnder at hu
    have e1 : (path ++ ".mergin").toList = path.toList ++ ['.', 'm', 'e', 'r', 'g', 'i', 'n'] := by
      simp [String.toList, String.data_append]
    have e2 : (path.toList ++ ['.', 'm', 'e', 'r', 'g', 'i', 'n']).getLast? = some 'n' := by
      simp [List.getLast?_append]
    rw [e1, e2] at hu
    simp only [show (some 'n' = some '/') = False from by simp, if_false] at hu
    have e3 := startsWithChars_eq_append _ _ hu
    rw [e, List.append_assoc, List.append_assoc] at e3
    have e4 := List.append_cancel_left e3
    rw [e4] at hrest
    simp only [List.cons_append] at hrest
    rw [splitSlashAux_any_dot_first] at hrest
    exact absurd hrest (by simp)
  · intro p hp
    have h := listFiles_head_not_dot s path p hpath hp
    exact ⟨h, isUnder_mergin_false p h⟩
  · intro f hf
    unfold MerginApi.getLocalProjectFiles at hf
    obtain ⟨p, hp, rfl⟩ := List.mem_map.mp hf
    have h := listFiles_head_not_dot s path p hpath hp
    exact ⟨h, isUnder_mergin_false p h⟩

/-- Witness for C23: the example project has its baseline
`.mergin/mergin.json` and a local file `a.txt`; only `a.txt` is indexed. -/
theorem listFiles_excludes_mergin_witness :
    (sampleApi 5).fs.read "/data/proj/.mergin/mergin.json" = some "v5" ∧
    (sampleApi 5).listFiles "/data/proj/" = ["a.txt"] ∧
    isUnder ".mergin" "a.txt" = false :=
  ⟨by decide, by decide,
   ((listFiles_excludes_mergin (sampleApi 5) "/data/proj/" (by decide)).2.1 "a.txt"
      (by decide)).2⟩

/-! ## The sets of the diff hold each path once -/

namespace MerginApi

theorem generateChunkIds_length (s : MerginApi) (size : Int) (u : Nat → String) :
    (s.generateChunkIds size).2.length = (generateChunkIdsForSize u size).length := by
  simp [generateChunkIds, generateChunkIdsForSize]

theorem forall₂_map_path (q : List MerginFile) (paths : List String)
    (h : List.Forall₂ (fun (f : MerginFile) (path : String) => f.path = path) q paths) :
    q.map MerginFile.path = paths := by
  induction h with
  | nil => rfl
  | cons h1 _ ih => rw [List.map_cons, h1, ih]

end MerginApi
/-- The queued records, read with the paths of the server list. -/
theorem forall₂_download_records (server : MerginProjectMetadata) (q : List MerginFile)
    (paths : List String)
    (h : List.Forall₂ (fun (f : MerginFile) (path : String) =>
        f = { server.fileInfo path with chunks := f.chunks } ∧
        ∀ u, f.chunks.length = (generateChunkIdsForSize u (server.fileInfo path).size).length)
      q paths)
    (hp : ∀ path ∈ paths, path ∈ server.files.map MerginFile.path) :
    q.map MerginFile.path = paths ∧
    ∀ f ∈ q, server.fileInfo f.path ∈ server.files ∧
      f = { server.fileInfo f.path with chunks := f.chunks } ∧
      ∀ u, f.chunks.length = (generateChunkIdsForSize u f.size).length := by
  induction h with
  | nil => exact ⟨rfl, fun f hf => absurd hf (List.not_mem_nil f)⟩
  | @cons f path q paths h1 _ ih =>
    obtain ⟨ih1, ih2⟩ := ih (fun x hx => hp x (List.mem_cons_of_mem _ hx))
    obtain ⟨hm, hpath⟩ := findFile_of_mem path server.files (hp path (List.mem_cons_self _ _))
    have hfp : f.path = path := by
      rw [h1.1]
      exact hpath
    have hsize : f.size = (server.fileInfo path).size := by
      rw [h1.1]
    refine ⟨by rw [List.map_cons, hfp, ih1], ?_⟩
    intro g hg
    rcases List.mem_cons.mp hg with rfl | hg
    · rw [hfp]
      refine ⟨hm, h1.1, fun u => ?_⟩
      rw [hsize]
      exact h1.2 u
    · exact ih2 g hg

namespace MerginApi

end MerginApi

theorem removeAllAux_of_no_occurrence (pl : List Char) (rel : List Char)
    (h : ∀ k, startsWithChars pl (rel.drop k) = false) : removeAllAux pl rel 0 = rel := by
  induction rel with
  | nil => rfl
  | cons c cs ih =>
    have h0 : startsWithChars pl (c :: cs) = false := h 0
    rw [removeAllAux, if_neg (fun hh => by rw [h0] at hh; exact absurd hh.2 (by simp)),
      ih (fun k => h (k + 1))]

/-- When the directory path does not occur in the rest of the path of a file,
`listFiles` returns that rest: the directory path followed by the returned
string is the path of the file. -/
theorem replaceWithEmpty_relative (path rel : String) (hne : path.toList ≠ [])
    (h : ∀ k, startsWithChars path.toList (rel.toList.drop k) = false) :
    replaceWithEmpty (path ++ rel) path = rel := by
  unfold replaceWithEmpty
  have e : (path ++ rel).toList = path.toList ++ rel.toList := by
    simp [String.toList, String.data_append]
  rw [e, removeAllAux_append _ _ hne, removeAllAux_of_no_occurrence _ _ h]
  rfl

/-! ## The body of the push request -/

namespace MerginApi

/-- The ids that consecutive calls of the generator return, from the `c`-th
on. -/
theorem range_map_add (u : Nat → String) (c m n : Nat) :
    (List.range (m + n)).map (fun i => u (c + i)) =
      (List.range m).map (fun i => u (c + i)) ++
        (List.range n).map (fun i => u (c + m + i)) := by
  rw [List.range_add, List.map_append, List.map_map]
  congr 1
  apply List.map_congr_left
  intro i _
  simp [Nat.add_assoc]

/-- The records that the loops over `localAdded` and `localUpdated` queue, with
their chunk ids: each record is the local record of its path with the next ids
of the generator, as many as `generateChunkIdsForSize` makes for its size. -/
theorem foldl_queueUpload_chunks (localFiles : List MerginFile) (l : List String)
    (st : MerginApi × List MerginFile) :
    ∃ tail, (l.foldl (queueUpload localFiles) st).2 = st.2 ++ tail ∧
      List.Forall₂ (fun (f : MerginFile) (path : String) =>
          f = { findFile path localFiles with chunks := f.chunks } ∧
          ∀ u, f.chunks.length =
            (generateChunkIdsForSize u (findFile path localFiles).size).length) tail l ∧
      (l.foldl (queueUpload localFiles) st).1.uuidCount =
        st.1.uuidCount + (tail.map (fun f => f.chunks.length)).sum ∧
      (tail.map MerginFile.chunks).flatten =
        (List.range (tail.map (fun f => f.chunks.length)).sum).map
          (fun i => st.1.env.createUuid (st.1.uuidCount + i)) := by
  induction l generalizing st with
  | nil => exact ⟨[], by simp, List.Forall₂.nil, by simp, by simp⟩
  | cons a l ih =>
    simp only [List.foldl_cons]
    obtain ⟨tail, h1, h2, h3, h4⟩ := ih (queueUpload localFiles st a)
    have hq : (queueUpload localFiles st a).2 =
        st.2 ++ [{ findFile a localFiles with
          chunks := (st.1.generateChunkIds (findFile a localFiles).size).2 }] := rfl
    have hc : (queueUpload localFiles st a).1.uuidCount =
        st.1.uuidCount + (st.1.generateChunkIds (findFile a localFiles).size).2.length := rfl
    have he : (queueUpload localFiles st a).1.env = st.1.env := rfl
    have hids : (st.1.generateChunkIds (findFile a localFiles).size).2 =
        (List.range (st.1.generateChunkIds (findFile a localFiles).size).2.length).map
          (fun i => st.1.env.createUuid (st.1.uuidCount + i)) := by
      simp [generateChunkIds, generateChunkIdsForSize]
    rw [hq, List.append_assoc] at h1
    rw [hc] at h3
    rw [hc, he] at h4
    refine ⟨_, h1, List.Forall₂.cons ⟨rfl, fun u => generateChunkIds_length _ _ u⟩ h2, ?_, ?_⟩
    · rw [h3]
      simp only [List.singleton_append, List.map_cons, List.sum_cons]
      omega
    · simp only [List.singleton_append, List.map_cons, List.sum_cons, List.flatten_cons]
      rw [range_map_add, ← h4, ← hids]

end MerginApi
namespace MerginApi

/-- What `planProjectUpload` builds, with the chunk ids: the queue is the
records of `localAdded` followed by those of `localUpdated`, each the local
record of its path with the next ids of the generator. -/
theorem planProjectUpload_chunks (s : MerginApi) (t : TransactionStatus)
    (serverProject : MerginProjectMetadata) :
    ∃ added updated : List MerginFile,
      (s.planProjectUpload t serverProject).2.1.files = added ++ updated ∧
      (s.planProjectUpload t serverProject).2.2.added = prepareUploadChangesJSON added ∧
      (s.planProjectUpload t serverProject).2.2.updated = prepareUploadChangesJSON updated ∧
      List.Forall₂ (fun (f : MerginFile) (path : String) =>
          f = { findFile path (s.getLocalProjectFiles (t.projectDir ++ "/")) with
                chunks := f.chunks } ∧
          ∀ u, f.chunks.length = (generateChunkIdsForSize u
            (findFile path (s.getLocalProjectFiles (t.projectDir ++ "/"))).size).length) added
        (compareProjectFiles (s.fromCachedJson (t.projectDir ++ "/" ++ sMetadataFile)).files
          serverProject.files (s.getLocalProjectFiles (t.projectDir ++ "/"))).localAdded ∧
      List.Forall₂ (fun (f : MerginFile) (path : String) =>
          f = { findFile path (s.getLocalProjectFiles (t.projectDir ++ "/")) with
                chunks := f.chunks } ∧
          ∀ u, f.chunks.length = (generateChunkIdsForSize u
            (findFile path (s.getLocalProjectFiles (t.projectDir ++ "/"))).size).length) updated
        (compareProjectFiles (s.fromCachedJson (t.projectDir ++ "/" ++ sMetadataFile)).files
          serverProject.files (s.getLocalProjectFiles (t.projectDir ++ "/"))).localUpdated ∧
      ((added ++ updated).map MerginFile.chunks).flatten =
        (List.range ((added ++ updated).map (fun f => f.chunks.length)).sum).map
          (fun i => s.env.createUuid (s.uuidCount + i)) := by
  obtain ⟨ta, ha1, ha2, ha3, ha4⟩ :=
    foldl_queueUpload_chunks (s.getLocalProjectFiles (t.projectDir ++ "/"))
    (compareProjectFiles (s.fromCachedJson (t.projectDir ++ "/" ++ sMetadataFile)).files
      serverProject.files (s.getLocalProjectFiles (t.projectDir ++ "/"))).localAdded
    (s.updateMerginServerVersion t.projectDir serverProject.version, [])
  obtain ⟨tu, hu1, hu2, _, hu4⟩ :=
    foldl_queueUpload_chunks (s.getLocalProjectFiles (t.projectDir ++ "/"))
    (compareProjectFiles (s.fromCachedJson (t.projectDir ++ "/" ++ sMetadataFile)).files
      serverProject.files (s.getLocalProjectFiles (t.projectDir ++ "/"))).localUpdated
    (((compareProjectFiles (s.fromCachedJson (t.projectDir ++ "/" ++ sMetadataFile)).files
      serverProject.files (s.getLocalProjectFiles (t.projectDir ++ "/"))).localAdded.foldl
      (queueUpload (s.getLocalProjectFiles (t.projectDir ++ "/")))
      (s.updateMerginServerVersion t.projectDir serverProject.version, [])).1, [])
  simp only [List.nil_append] at ha1 hu1
  have henv : ((compareProjectFiles (s.fromCachedJson (t.projectDir ++ "/" ++ sMetadataFile)).files
      serverProject.files (s.getLocalProjectFiles (t.projectDir ++ "/"))).localAdded.foldl
      (queueUpload (s.getLocalProjectFiles (t.projectDir ++ "/")))
      (s.updateMerginServerVersion t.projectDir serverProject.version, [])).1.env = s.env := by
    rw [foldl_queueUpload_eq]
    rfl
  rw [henv, ha3] at hu4
  refine ⟨ta, tu, ?_, ?_, ?_, ha2, hu2, ?_⟩
  · rw [← ha1, ← hu1]; rfl
  · rw [← ha1]; rfl
  · rw [← hu1]; rfl
  · have e1 : (s.updateMerginServerVersion t.projectDir serverProject.version).env = s.env := rfl
    have e2 : (s.updateMerginServerVersion t.projectDir serverProject.version).uuidCount =
        s.uuidCount := rfl
    simp only [e1, e2] at ha4 hu4
    rw [List.map_append, List.flatten_append, List.map_append, List.sum_append, range_map_add,
      ha4, hu4]

/-- The handle that `uploadStart` stores is the only change of the
transaction, whatever the gate does. -/
theorem uploadStart_transaction (s : MerginApi) (p : String) (json : PushJson) :
    ∃ handle, (s.uploadStart p json).transaction p =
      { s.transaction p with replyUploadStart := handle } := by
  unfold uploadStart
  simp only
  split
  · exact ⟨(s.transaction p).replyUploadStart, by
      simp only [MerginApi.transaction, validateAuthAndContinute_store]⟩
  · refine ⟨some ((s.validateAuthAndContinute.1.ref p).send (Request.uploadStart p json)).2, ?_⟩
    rw [transaction_setTransaction]
    have h1 : ((s.validateAuthAndContinute.1.ref p).send (Request.uploadStart p json)).1.transaction p
        = (s.validateAuthAndContinute.1.ref p).transaction p := rfl
    rw [h1, ref_transaction]
    simp only [MerginApi.transaction, validateAuthAndContinute_store]

/-- When its gate lets it pass, `uploadStart` issues the `uploadStart` request
with the body that it was given, after the events of the gate. -/
theorem uploadStart_trace (s : MerginApi) (p : String) (json : PushJson)
    (hok : s.validateAuthAndContinute.2 = true)
    (hv : s.validateAuthAndContinute.1.mApiVersionStatus = VersionStatus.OK) :
    (s.uploadStart p json).trace =
      s.validateAuthAndContinute.1.trace ++
        [Event.request s.validateAuthAndContinute.1.nextReply (Request.uploadStart p json)] := by
  unfold uploadStart
  simp only [hok, hv, ne_eq, not_true_eq_false, or_false, Bool.not_true, Bool.false_eq_true,
    if_false]
  simp only [setTransaction, send, ref_trace, ref_nextReply]

/-- When its gate stops it, `uploadStart` does nothing more than the gate. -/
theorem uploadStart_stopped (s : MerginApi) (p : String) (json : PushJson)
    (h : s.validateAuthAndContinute.2 = false ∨
      s.validateAuthAndContinute.1.mApiVersionStatus ≠ VersionStatus.OK) :
    s.uploadStart p json = s.validateAuthAndContinute.1 := by
  unfold uploadStart
  rcases h with h | h
  · simp [h]
  · simp [h]

end MerginApi
/-- The file objects of removed files: the records of the server for the
paths, field by field. -/
theorem forall₂_removed_objects (serverFiles : List MerginFile) (paths : List String)
    (hp : ∀ path ∈ paths, path ∈ serverFiles.map MerginFile.path) :
    List.Forall₂ (fun (j : FileJson) (path : String) =>
        ∃ f ∈ serverFiles, f.path = path ∧
          j = { path := f.path, checksum := f.checksum, size := f.size, mtime := f.mtime,
                chunks := f.chunks })
      (MerginApi.prepareUploadChangesJSON
        (paths.map (fun filePath => findFile filePath serverFiles))) paths := by
  induction paths with
  | nil => exact List.Forall₂.nil
  | cons path ps ih =>
    obtain ⟨hmem, hpath⟩ := findFile_of_mem path serverFiles (hp path (List.mem_cons_self _ _))
    simp only [MerginApi.prepareUploadChangesJSON, List.map_cons]
    exact List.Forall₂.cons ⟨findFile path serverFiles, hmem, hpath, rfl⟩
      (ih (fun q hq => hp q (List.mem_cons_of_mem _ hq)))

/-- C20: for a successful project-info reply of an upload that does not divert
into an update, `uploadInfoReplyFinished` calls `uploadStart` with a body
`json`, and `uploadStart` issues the push request with that body whenever its
gate lets it pass (with an open gate it is the only event).  The file objects
of `changes.added` followed by those of `changes.updated` are the records of
the upload queue, field by field with their chunk ids; `changes.added` names
the `localAdded` paths and `changes.updated` the `localUpdated` paths, in
order; `changes.removed` holds the records of the server for the
`localDeleted` paths; `changes.renamed` is empty and `version` is `"v"`
followed by the server version of the reply.  The upload queue names the
`localAdded` paths followed by the `localUpdated` paths and no deleted path;
every queued record is the local record of its path with as many chunk ids as
`generateChunkIdsForSize` makes for its size, the chunk ids of the queue being
the next ids of the generator; and `totalSize` is the sum of the queued
sizes. -/
theorem uploadInfoReplyFinished_push_request (s : MerginApi) (p : String) (r : NetworkReply)
    (hr : r.noError = true)
    (hcase : (s.projectFromMerginName p).isValid = false ∨
      (s.projectFromMerginName p).localVersion = -1 ∨
      ¬ (s.projectFromMerginName p).localVersion < (s.env.fromJson r.data).version) :
    ∃ json : PushJson,
      s.uploadInfoReplyFinished p r = (s.uploadPlanned p r.data).uploadStart p json ∧
      (s.uploadPlanned p r.data).trace = s.trace ∧
      ((s.uploadPlanned p r.data).validateAuthAndContinute.2 = true →
        (s.uploadPlanned p r.data).validateAuthAndContinute.1.mApiVersionStatus =
          VersionStatus.OK →
        (s.uploadInfoReplyFinished p r).trace =
          (s.uploadPlanned p r.data).validateAuthAndContinute.1.trace ++
            [Event.request (s.uploadPlanned p r.data).validateAuthAndContinute.1.nextReply
              (Request.uploadStart p json)]) ∧
      (s.gateOpen →
        (s.uploadInfoReplyFinished p r).trace =
          s.trace ++ [Event.request s.nextReply (Request.uploadStart p json)]) ∧
      json.added ++ json.updated =
        ((s.uploadInfoReplyFinished p r).transaction p).files.map (fun f =>
          { path := f.path, checksum := f.checksum, size := f.size, mtime := f.mtime,
            chunks := f.chunks }) ∧
      json.added.map FileJson.path = (s.uploadDiff p r.data).localAdded ∧
      json.updated.map FileJson.path = (s.uploadDiff p r.data).localUpdated ∧
      List.Forall₂ (fun (j : FileJson) (path : String) =>
          ∃ f ∈ (s.env.fromJson r.data).files, f.path = path ∧
            j = { path := f.path, checksum := f.checksum, size := f.size, mtime := f.mtime,
                  chunks := f.chunks })
        json.removed (s.uploadDiff p r.data).localDeleted ∧
      json.renamed = [] ∧
      json.version = "v" ++ toString (s.env.fromJson r.data).version ∧
      ((s.uploadInfoReplyFinished p r).transaction p).files.map MerginFile.path =
        (s.uploadDiff p r.data).localAdded ++ (s.uploadDiff p r.data).localUpdated ∧
      (∀ f ∈ ((s.uploadInfoReplyFinished p r).transaction p).files,
        f.path ∉ (s.uploadDiff p r.data).localDeleted ∧
        ∃ g ∈ s.uploadLocalFiles p, g.path = f.path ∧ f = { g with chunks := f.chunks } ∧
          ∀ u, f.chunks.length = (generateChunkIdsForSize u f.size).length) ∧
      (((s.uploadInfoReplyFinished p r).transaction p).files.map MerginFile.chunks).flatten =
        (List.range (((s.uploadInfoReplyFinished p r).transaction p).files.map
          (fun f => f.chunks.length)).sum).map (fun i => s.env.createUuid (s.uuidCount + i)) ∧
      ((s.uploadInfoReplyFinished p r).transaction p).totalSize =
        (((s.uploadInfoReplyFinished p r).transaction p).files.map MerginFile.size).sum := by
  have heq : s.uploadInfoReplyFinished p r =
      (s.uploadPlanned p r.data).uploadStart p (s.uploadPlan p r.data).2.2 :=
    MerginApi.uploadInfoReplyFinished_upload_eq s p r hr hcase
  have hplan : (s.uploadPlan p r.data).1 = _ := MerginApi.planProjectUpload_eq (s.ref p)
    { s.transaction p with
        replyUploadProjectInfo := none
        projectDir := (s.projectFromMerginName p).projectDir }
    (s.env.fromJson r.data)
  obtain ⟨added, updated, hfiles, hadded, hupdated, hfa, hfu, hids⟩ :=
    MerginApi.planProjectUpload_chunks (s.ref p)
    { s.transaction p with
        replyUploadProjectInfo := none
        projectDir := (s.projectFromMerginName p).projectDir }
    (s.env.fromJson r.data)
  obtain ⟨added2, updated2, hfiles2, htotal, _, _, hremoved, hrenamed, hversion, _, _⟩ :=
    MerginApi.planProjectUpload_plan (s.ref p)
    { s.transaction p with
        replyUploadProjectInfo := none
        projectDir := (s.projectFromMerginName p).projectDir }
    (s.env.fromJson r.data)
  simp only [MerginApi.getLocalProjectFiles_congr s (s.ref p) (MerginApi.ref_sameWorld s p),
    MerginApi.fromCachedJson_congr s (s.ref p) (MerginApi.ref_sameWorld s p),
    MerginApi.ref_env] at hremoved hfa hfu hids
  have hcount : (s.ref p).uuidCount = s.uuidCount := by
    unfold MerginApi.ref
    split <;> rfl
  rw [hcount] at hids
  change (s.uploadPlan p r.data).2.1.files = added ++ updated at hfiles
  change (s.uploadPlan p r.data).2.2.added = _ at hadded
  change (s.uploadPlan p r.data).2.2.updated = _ at hupdated
  change (s.uploadPlan p r.data).2.2.removed = _ at hremoved
  change (s.uploadPlan p r.data).2.2.renamed = _ at hrenamed
  change (s.uploadPlan p r.data).2.2.version = _ at hversion
  rw [← hfiles2] at htotal
  change (s.uploadPlan p r.data).2.1.totalSize =
    ((s.uploadPlan p r.data).2.1.files.map MerginFile.size).sum at htotal
  unfold MerginApi.uploadPlanned at heq ⊢
  generalize s.uploadPlan p r.data = plan at heq hplan hfiles hadded hupdated hremoved hrenamed hversion htotal ⊢
  have ht : (plan.1.setTransaction p plan.2.1).trace = s.trace := by
    show plan.1.trace = s.trace
    rw [hplan]
    exact MerginApi.ref_trace s p
  have hnr : (plan.1.setTransaction p plan.2.1).nextReply = s.nextReply := by
    show plan.1.nextReply = s.nextReply
    rw [hplan]
    exact MerginApi.ref_nextReply s p
  have hg2 : s.gateOpen → (plan.1.setTransaction p plan.2.1).gateOpen := by
    intro hgate
    rw [hplan]
    exact MerginApi.ref_gateOpen s p hgate
  have hla : ∀ path ∈ (s.uploadDiff p r.data).localAdded,
      path ∈ (s.uploadLocalFiles p).map MerginFile.path := fun path h =>
    compareProjectFiles_mem_of_local_category _ _ _ Category.localAdded
      (fun _ _ h => by simp [ServerCond] at h) path h
  have hlu : ∀ path ∈ (s.uploadDiff p r.data).localUpdated,
      path ∈ (s.uploadLocalFiles p).map MerginFile.path := fun path h =>
    compareProjectFiles_mem_of_local_category _ _ _ Category.localUpdated
      (fun _ _ h => by simp [ServerCond] at h) path h
  have hld : ∀ path ∈ (s.uploadDiff p r.data).localDeleted,
      path ∈ (s.env.fromJson r.data).files.map MerginFile.path ∧
        path ∉ (s.uploadLocalFiles p).map MerginFile.path := fun path h =>
    compareProjectFiles_mem_of_server_category _ _ _ Category.localDeleted
      (fun _ _ _ h => by simp [LocalCond] at h) path h
  obtain ⟨ha1, ha2⟩ := forall₂_download_records { files := s.uploadLocalFiles p } added
    (s.uploadDiff p r.data).localAdded hfa hla
  obtain ⟨hu1, hu2⟩ := forall₂_download_records { files := s.uploadLocalFiles p } updated
    (s.uploadDiff p r.data).localUpdated hfu hlu
  obtain ⟨handle, hfinal⟩ := MerginApi.uploadStart_transaction
    (plan.1.setTransaction p plan.2.1) p plan.2.2
  have hstored : (plan.1.setTransaction p plan.2.1).transaction p = plan.2.1 :=
    MerginApi.transaction_setTransaction _ _ _
  have hqueue : ((s.uploadInfoReplyFinished p r).transaction p).files = added ++ updated := by
    rw [heq, hfinal, hstored]
    exact hfiles
  have hsize : ((s.uploadInfoReplyFinished p r).transaction p).totalSize =
      plan.2.1.totalSize := by
    rw [heq, hfinal, hstored]
  have hjpath : ∀ l : List MerginFile,
      (MerginApi.prepareUploadChangesJSON l).map FileJson.path = l.map MerginFile.path := by
    intro l
    simp [MerginApi.prepareUploadChangesJSON]
  refine ⟨plan.2.2, heq, ht, ?_, ?_, ?_, ?_, ?_, ?_, hrenamed, hversion, ?_,
    ?_, ?_, ?_⟩
  · intro hok hv
    rw [heq]
    exact MerginApi.uploadStart_trace _ _ _ hok hv
  · intro hgate
    rw [heq, MerginApi.uploadStart_trace_of_gateOpen _ _ _ (hg2 hgate), ht, hnr]
  · rw [hqueue, hadded, hupdated]
    simp only [MerginApi.prepareUploadChangesJSON, List.map_append]
  · rw [hadded, hjpath, ha1]
  · rw [hupdated, hjpath, hu1]
  · rw [hremoved]
    exact forall₂_removed_objects _ _ (fun path h => (hld path h).1)
  · rw [hqueue, List.map_append, ha1, hu1]
  · rw [hqueue]
    intro f hf
    have hrec : (findFile f.path (s.uploadLocalFiles p) ∈ s.uploadLocalFiles p) ∧
        f = { findFile f.path (s.uploadLocalFiles p) with chunks := f.chunks } ∧
        ∀ u, f.chunks.length = (generateChunkIdsForSize u f.size).length := by
      rcases List.mem_append.mp hf with h | h
      · exact ha2 f h
      · exact hu2 f h
    have hpath : f.path ∈ (s.uploadDiff p r.data).localAdded ++
        (s.uploadDiff p r.data).localUpdated := by
      rw [← ha1, ← hu1, ← List.map_append]
      exact List.mem_map_of_mem _ hf
    have hmem : f.path ∈ (s.uploadLocalFiles p).map MerginFile.path := by
      rcases List.mem_append.mp hpath with h | h
      · exact hla _ h
      · exact hlu _ h
    refine ⟨fun hdel => (hld _ hdel).2 hmem, findFile f.path (s.uploadLocalFiles p), hrec.1,
      (findFile_of_mem _ _ hmem).2, hrec.2.1, hrec.2.2⟩
  · rw [hqueue]
    exact hids
  · rw [hsize, htotal, hqueue, hfiles]

set_option maxRecDepth 100000 in
/-- Witness for C20: the example project has a new local file `n.txt` and a
changed `a.txt`, and the token has expired.  The gate of `uploadStart` attempts
a login, which is refused, and lets the request pass: the push request carries
the two file objects with their checksums, sizes, modification times and chunk
ids, for version 5. -/
theorem uploadInfoReplyFinished_push_request_witness :
    ¬ sampleDatedUpload.gateOpen ∧
    ∃ json : PushJson,
      (sampleDatedUpload.uploadInfoReplyFinished "ns/proj"
        { noError := true, data := "v5" }).trace =
        [Event.request 1 (Request.authorize "user" "secret"),
         Event.signal Signal.authFailed,
         Event.signal (Signal.notify "refused"),
         Event.request 2 (Request.uploadStart "ns/proj" json)] ∧
      json.added ++ json.updated =
        [{ path := "n.txt", checksum := "sha:new!", size := 4, mtime := 1700,
           chunks := ["chunk-0"] },
         { path := "a.txt", checksum := "sha:hello", size := 5, mtime := 1600,
           chunks := ["chunk-1"] }] ∧
      json.added.map FileJson.path = ["n.txt"] ∧
      json.removed = [] ∧ json.renamed = [] ∧ json.version = "v5" := by
  obtain ⟨json, _, _, hsend, _, hobjects, hadded, _, hremoved, hrenamed, hversion, _⟩ :=
    uploadInfoReplyFinished_push_request sampleDatedUpload "ns/proj"
      { noError := true, data := "v5" } rfl (Or.inr (Or.inr (by decide)))
  have h1 := hsend (by decide) (by decide)
  have e1 : (sampleDatedUpload.uploadPlanned "ns/proj" "v5").validateAuthAndContinute.1.trace =
      [Event.request 1 (Request.authorize "user" "secret"),
       Event.signal Signal.authFailed,
       Event.signal (Signal.notify "refused")] := by decide
  have e2 : (sampleDatedUpload.uploadPlanned "ns/proj" "v5").validateAuthAndContinute.1.nextReply =
      2 := by decide
  have e3 : ((sampleDatedUpload.uploadInfoReplyFinished "ns/proj"
      { noError := true, data := "v5" }).transaction "ns/proj").files =
      [{ path := "n.txt", checksum := "sha:new!", size := 4, mtime := 1700,
         chunks := ["chunk-0"] },
       { path := "a.txt", checksum := "sha:hello", size := 5, mtime := 1600,
         chunks := ["chunk-1"] }] := by decide
  have e4 : (sampleDatedUpload.uploadDiff "ns/proj" "v5").localAdded = ["n.txt"] := by decide
  have e5 : (sampleDatedUpload.uploadDiff "ns/proj" "v5").localDeleted = [] := by decide
  rw [e1, e2] at h1
  rw [e3] at hobjects
  rw [e4] at hadded
  rw [e5] at hremoved
  exact ⟨fun hg => absurd hg.2.2.1 (by decide), json, h1, hobjects, hadded,
    List.forall₂_nil_right_iff.mp hremoved, hrenamed, hversion⟩

/-! ## Every outstanding request is kept in a transaction -/

theorem TransactionStatus.holds_of_handles_zero (t : TransactionStatus) (h : t.handles = 0)
    (r : Request) (reply : Nat) : t.holds r reply = false := by
  simp only [TransactionStatus.handles] at h
  have h1 : t.replyProjectInfo = none := by cases hx : t.replyProjectInfo <;> simp_all
  have h2 : t.replyDownloadFile = none := by cases hx : t.replyDownloadFile <;> simp_all
  have h3 : t.replyUploadProjectInfo = none := by
    cases hx : t.replyUploadProjectInfo <;> simp_all
  have h4 : t.replyUploadStart = none := by cases hx : t.replyUploadStart <;> simp_all
  have h5 : t.replyUploadFile = none := by cases hx : t.replyUploadFile <;> simp_all
  have h6 : t.replyUploadFinish = none := by cases hx : t.replyUploadFinish <;> simp_all
  cases r <;> simp [TransactionStatus.holds, h1, h2, h3, h4, h5, h6]

namespace MerginApi

theorem transaction_setTransaction_ne (s : MerginApi) (p q : String) (t : TransactionStatus)
    (h : q ≠ p) : (s.setTransaction p t).transaction q = s.transaction q := by
  simp only [MerginApi.transaction, MerginApi.setTransaction, QHash.value, QHash.find?_insert,
    if_neg (Ne.symm h)]

/-- The invariant in a state with the same store, the same finished replies or
more, and a trace that is longer by events that are not requests of a
transaction. -/
theorem Inv.frame {s s' : MerginApi} (h : s.Inv)
    (hs : s'.mTransactionalStatus = s.mTransactionalStatus) (l : List Event)
    (ht : s'.trace = s.trace ++ l)
    (hl : ∀ reply r, Event.request reply r ∈ l → r.project = none)
    (hf : ∀ reply ∈ s.finished, reply ∈ s'.finished) : s'.Inv := by
  have htr : ∀ p, s'.transaction p = s.transaction p := by
    intro p
    simp only [MerginApi.transaction, hs]
  refine ⟨h.store.of_store hs, ?_, ?_⟩
  · intro reply r p he hp
    rw [ht, List.mem_append] at he
    rcases he with he | he
    · rcases h.tracked reply r p he hp with h1 | h1 | h1
      · exact Or.inl (hf _ h1)
      · right; left
        rw [ht]
        exact List.mem_append_left _ h1
      · right; right
        rw [htr]
        exact h1
    · rw [hl reply r he] at hp
      exact absurd hp (by simp)
  · intro p hp
    rw [htr] at hp
    exact h.names p hp

/-- The invariant after a request of a project without a handle is issued and
its handle is stored in the transaction. -/
theorem Inv.send {s : MerginApi} (h : s.Inv) (p : String) (req : Request)
    (t : TransactionStatus) (hp : req.project = some p)
    (hi : (s.transaction p).handles = 0) (hw : splitsBack p = true) (ht : t.handles ≤ 1)
    (hh : t.holds req s.nextReply = true) :
    ((s.send req).1.setTransaction p t).Inv := by
  have hq : ∀ q, q ≠ p → ((s.send req).1.setTransaction p t).transaction q = s.transaction q :=
    fun q hqp => transaction_setTransaction_ne _ p q t hqp
  refine ⟨StoreOK.setTransaction (h.store.of_store rfl) p t ht, ?_, ?_⟩
  · intro reply r q he hpq
    have he2 : Event.request reply r ∈ s.trace ++ [Event.request s.nextReply req] := he
    rw [List.mem_append] at he2
    rcases he2 with he2 | he2
    · rcases h.tracked reply r q he2 hpq with h1 | h1 | h1
      · exact Or.inl h1
      · right; left
        exact List.mem_append_left _ h1
      · by_cases hqp : q = p
        · subst hqp
          rw [TransactionStatus.holds_of_handles_zero _ hi] at h1
          exact absurd h1 (by simp)
        · right; right
          rw [hq q hqp]
          exact h1
    · simp only [List.mem_singleton, Event.request.injEq] at he2
      obtain ⟨rfl, rfl⟩ := he2
      rw [hp] at hpq
      cases hpq
      right; right
      rw [transaction_setTransaction]
      exact hh
  · intro q hne
    by_cases hqp : q = p
    · subst hqp
      exact hw
    · rw [hq q hqp] at hne
      exact h.names q hne

end MerginApi

namespace MerginApi


end MerginApi

namespace MerginApi

end MerginApi

namespace MerginApi

end MerginApi

namespace MerginApi

end MerginApi

namespace MerginApi

/-- The name of a project with a handle in its transaction can be split
back. -/
theorem Inv.splitsBack {s : MerginApi} (h : s.Inv) (p : String) (n : Nat)
    (hset : (s.transaction p).replyProjectInfo = some n ∨
      (s.transaction p).replyDownloadFile = some n ∨
      (s.transaction p).replyUploadProjectInfo = some n ∨
      (s.transaction p).replyUploadStart = some n ∨
      (s.transaction p).replyUploadFile = some n ∨
      (s.transaction p).replyUploadFinish = some n) : splitsBack p = true := by
  apply h.names p
  simp only [TransactionStatus.handles]
  rcases hset with h1 | h1 | h1 | h1 | h1 | h1 <;>
    simp only [h1, Option.toList_some, List.length_singleton] <;> omega

end MerginApi

namespace MerginApi

end MerginApi

namespace MerginApi

end MerginApi

namespace MerginApi

end MerginApi

namespace MerginApi

theorem Inv.sendUploadCancelRequest {s : MerginApi} (h : s.Inv) (p uuid : String) :
    (s.sendUploadCancelRequest p uuid).Inv :=
  h.frame rfl [Event.request s.nextReply (Request.uploadCancel p uuid)] rfl
    (fun _ _ he => by
      simp only [List.mem_singleton, Event.request.injEq] at he
      rw [he.2]
      rfl)
    (fun _ hr => hr)

end MerginApi

end Mergin
